import Mathlib

/-!
# ML-Algorithms: decision tree, k-NN and Gaussian naive Bayes on Iris

A shallow embedding of `dt_iris.cpp`, `knn_iris.cpp` and `nb_iris.cpp`.

Modelling conventions.

* A C++ `double` that is finite is an element of an ordered field `R`.  The
  definitions of the tree construction, of the statistics of naive Bayes and
  of the accuracy of cross-validation use the exact operations of `R`.  Where
  a property depends on rounding (the distances of k-NN, the priors of naive
  Bayes, the entropy and the split search of the tree) the operators `+`,
  `-`, `*`, `/` and `sqrt` are the fields of a `DoubleArith R`:
  `DoubleArith.exact` does not round, and `ieee754` is IEEE-754 binary64 with
  rounding to nearest, ties to even, on rational numbers (overflow is not
  modelled).
* The `libm` functions `log2` and `log` are parameters of the definitions
  that call them; theorems about exact values instantiate them with
  `Real.logb 2` and `Real.log`.
* Where the source can divide by zero (naive Bayes, the accuracy of a fold)
  a `double` is a value of `Dbl R`, which adds the IEEE-754 values `+inf`,
  `-inf` and `NaN` with their arithmetic and comparison rules.
* `std::vector` is `List`; an out-of-bounds read is undefined behaviour and is
  the result `none` of the enclosing function.
* `std::map<std::string, V>` is an association list kept strictly ascending
  by key, so that iterating over the map is iterating over the list.  The
  order of `std::string` is the lexicographic order of `String` (bytes of
  UTF-8 text compare like code points).
* `std::sort` with a comparator on the distance only (k-NN) is a parameter
  constrained by what the C++ standard guarantees: a sorted permutation.
  `gnuSort` is the algorithm of libstdc++ (introsort).
* `int` arithmetic is arithmetic on `Int` (counts and indices never overflow
  on data that fits in memory); `/` on `int` is truncated division.
* A `Node*` is a value of `Node R`: either `null` or a node record.
-/

namespace MLAlgorithms

/-! ## Shared data model -/

/-- Sample record `IrisSample`: a feature vector and a class label. -/
structure IrisSample (R : Type) where
  features : List R
  label : String

/-- Model of `std::map<std::string, V>`: key-value pairs, ascending by key. -/
abbrev StdMap (V : Type) := List (String × V)

/-- Model of `m[k] = f(m[k])`, where `operator[]` first inserts a
default-constructed value when `k` is absent (`f none` is the value stored in
that case). -/
def StdMap.update {V : Type} : StdMap V → String → (Option V → V) → StdMap V
  | [], k, f => [(k, f none)]
  | (k', v) :: rest, k, f =>
    if k < k' then (k, f none) :: (k', v) :: rest
    else if k = k' then (k', f (some v)) :: rest
    else (k', v) :: StdMap.update rest k f

/-- Lookup `m.at(k)` / `m.find(k)`. -/
def StdMap.find? {V : Type} : StdMap V → String → Option V
  | [], _ => none
  | (k', v) :: rest, k => if k' = k then some v else StdMap.find? rest k

/-- The loop `for (x : xs) counts[label(x)]++` over the labels of `xs`. -/
def countLabels (labels : List String) : StdMap Int :=
  labels.foldl (fun counts l => StdMap.update counts l (fun c => c.getD 0 + 1)) []

/-- The loop shared by `majorityLabel` and `KNNClassifier::predict`:
`max_count = -1; for (kv : counts) if (kv.second > max_count) {...}`. -/
def bestLabel (counts : StdMap Int) : String :=
  (counts.foldl (fun (best : Int × String) kv =>
    if kv.2 > best.1 then (kv.2, kv.1) else best) (-1, "")).2

/-- Read `v[i]` for an `int` index; `none` is an out-of-bounds read. -/
def vecGet? {R : Type} (v : List R) (i : Int) : Option R :=
  if 0 ≤ i then v[i.toNat]? else none

/-! ## Doubles with the IEEE-754 special values -/

section Double

variable {R : Type} [LinearOrderedField R]

/-- A `double` where division by zero can occur: a finite value (exact), or
one of `+inf`, `-inf`, `NaN`.  Signed zeros are not distinguished: a zero
divisor is `+0.0`, which is the only zero divisor the sources produce (an
`int` or `size_t` zero converted to `double`). -/
inductive Dbl (R : Type) where
  | fin (x : R) : Dbl R
  | pinf : Dbl R
  | ninf : Dbl R
  | nan : Dbl R

/-- Unary minus. -/
def Dbl.neg : Dbl R → Dbl R
  | Dbl.fin x => Dbl.fin (-x)
  | Dbl.pinf => Dbl.ninf
  | Dbl.ninf => Dbl.pinf
  | Dbl.nan => Dbl.nan

/-- Addition: `NaN` is absorbing and `inf + (-inf)` is `NaN`. -/
def Dbl.add : Dbl R → Dbl R → Dbl R
  | Dbl.fin x, Dbl.fin y => Dbl.fin (x + y)
  | Dbl.nan, _ => Dbl.nan
  | _, Dbl.nan => Dbl.nan
  | Dbl.pinf, Dbl.ninf => Dbl.nan
  | Dbl.ninf, Dbl.pinf => Dbl.nan
  | Dbl.pinf, _ => Dbl.pinf
  | _, Dbl.pinf => Dbl.pinf
  | Dbl.ninf, _ => Dbl.ninf
  | _, Dbl.ninf => Dbl.ninf

/-- Subtraction. -/
def Dbl.sub (a b : Dbl R) : Dbl R := Dbl.add a (Dbl.neg b)

/-- An infinity of the sign of `+inf` times the sign of `y`; `NaN` for
`y = 0`. -/
def Dbl.infTimes (positive : Bool) (y : R) : Dbl R :=
  if 0 < y then (if positive then Dbl.pinf else Dbl.ninf)
  else if y < 0 then (if positive then Dbl.ninf else Dbl.pinf)
  else Dbl.nan

/-- Multiplication: `NaN` is absorbing and `0 * inf` is `NaN`. -/
def Dbl.mul : Dbl R → Dbl R → Dbl R
  | Dbl.fin x, Dbl.fin y => Dbl.fin (x * y)
  | Dbl.nan, _ => Dbl.nan
  | _, Dbl.nan => Dbl.nan
  | Dbl.pinf, Dbl.fin y => Dbl.infTimes true y
  | Dbl.ninf, Dbl.fin y => Dbl.infTimes false y
  | Dbl.fin x, Dbl.pinf => Dbl.infTimes true x
  | Dbl.fin x, Dbl.ninf => Dbl.infTimes false x
  | Dbl.pinf, Dbl.pinf => Dbl.pinf
  | Dbl.pinf, Dbl.ninf => Dbl.ninf
  | Dbl.ninf, Dbl.pinf => Dbl.ninf
  | Dbl.ninf, Dbl.ninf => Dbl.pinf

/-- Division: `0/0` and `inf/inf` are `NaN`, `x/0` is an infinity of the sign
of `x`, and a finite value divided by an infinity is zero. -/
def Dbl.div : Dbl R → Dbl R → Dbl R
  | Dbl.fin x, Dbl.fin y =>
    if y = 0 then
      (if x = 0 then Dbl.nan else if 0 < x then Dbl.pinf else Dbl.ninf)
    else Dbl.fin (x / y)
  | Dbl.nan, _ => Dbl.nan
  | _, Dbl.nan => Dbl.nan
  | Dbl.fin _, Dbl.pinf => Dbl.fin 0
  | Dbl.fin _, Dbl.ninf => Dbl.fin 0
  | Dbl.pinf, Dbl.fin y => if y < 0 then Dbl.ninf else Dbl.pinf
  | Dbl.ninf, Dbl.fin y => if y < 0 then Dbl.pinf else Dbl.ninf
  | Dbl.pinf, Dbl.pinf => Dbl.nan
  | Dbl.pinf, Dbl.ninf => Dbl.nan
  | Dbl.ninf, Dbl.pinf => Dbl.nan
  | Dbl.ninf, Dbl.ninf => Dbl.nan

/-- Comparison `a < b`: false as soon as one side is `NaN`. -/
def Dbl.lt : Dbl R → Dbl R → Bool
  | Dbl.fin x, Dbl.fin y => decide (x < y)
  | Dbl.nan, _ => false
  | _, Dbl.nan => false
  | Dbl.ninf, Dbl.ninf => false
  | Dbl.ninf, _ => true
  | _, Dbl.ninf => false
  | Dbl.pinf, _ => false
  | Dbl.fin _, Dbl.pinf => true

/-- Natural logarithm `log` of `libm`, given the logarithm of positive
finite values: `log(0) = -inf`, `log` of a negative value is `NaN`. -/
def Dbl.log (log : R → R) : Dbl R → Dbl R
  | Dbl.fin x => if 0 < x then Dbl.fin (log x) else if x = 0 then Dbl.ninf else Dbl.nan
  | Dbl.pinf => Dbl.pinf
  | Dbl.ninf => Dbl.nan
  | Dbl.nan => Dbl.nan

end Double

/-! ## Decision tree (`dt_iris.cpp`) -/

section DecisionTree

variable {R : Type} [LinearOrderedField R]

/-- Function `entropy`: Shannon entropy of the labels of `data`. -/
def entropy (log2 : R → R) (data : List (IrisSample R)) : R :=
  let counts := countLabels (data.map (fun d => d.label))
  let total : R := (data.length : R)
  counts.foldl (fun ent kv =>
    let p : R := (kv.2 : R) / total
    ent - p * log2 p) 0

/-- A `Node*`: `null`, or a pointer to a `Node` record. -/
inductive Node (R : Type) where
  | null : Node R
  | node (is_leaf : Bool) (label : String) (feature_index : Int) (threshold : R)
      (left right : Node R) : Node R

/-- The record `new Node()` with `is_leaf = true` and the given label. -/
def Node.mkLeaf (label : String) : Node R :=
  Node.node true label (-1) 0 Node.null Node.null

/-- Test `!node`. -/
def Node.isNull : Node R → Bool
  | Node.null => true
  | Node.node _ _ _ _ _ _ => false

/-- Function `splitData`: samples with `features[feature_index] <= threshold`
go left, the others right, both in their order in `data`. -/
def splitData : List (IrisSample R) → Int → R →
    Option (List (IrisSample R) × List (IrisSample R))
  | [], _, _ => some ([], [])
  | sample :: rest, feature_index, threshold =>
    match vecGet? sample.features feature_index with
    | none => none
    | some x =>
      match splitData rest feature_index threshold with
      | none => none
      | some (left_data, right_data) =>
        if x ≤ threshold then some (sample :: left_data, right_data)
        else some (left_data, sample :: right_data)

/-- Record `SplitResult`. -/
structure SplitResult (R : Type) where
  feature_index : Int
  threshold : R
  info_gain : R

/-- Model of `std::unique` followed by `erase`: drops every element equal to
its predecessor. -/
def unique : List R → List R
  | [] => []
  | [x] => [x]
  | x :: y :: rest => if x = y then unique (y :: rest) else x :: unique (y :: rest)

/-- Body of the inner loop of `findBestSplit` for one threshold. -/
def candidateStep (log2 : R → R) (data : List (IrisSample R)) (base_entropy : R)
    (f : Nat) (best : SplitResult R) (threshold : R) : Option (SplitResult R) :=
  match splitData data (f : Int) threshold with
  | none => none
  | some (left_data, right_data) =>
    if left_data.isEmpty || right_data.isEmpty then some best
    else
      let p_left : R := (left_data.length : R) / (data.length : R)
      let p_right : R := 1 - p_left
      let new_entropy := p_left * entropy log2 left_data + p_right * entropy log2 right_data
      let info_gain := base_entropy - new_entropy
      if info_gain > best.info_gain then
        some { feature_index := (f : Int), threshold := threshold, info_gain := info_gain }
      else some best

/-- The loop `for (d : data) vals.push_back(d.features[f])`. -/
def featureColumn : List (IrisSample R) → Nat → Option (List R)
  | [], _ => some []
  | d :: rest, f =>
    match d.features[f]? with
    | none => none
    | some x =>
      match featureColumn rest f with
      | none => none
      | some vals => some (x :: vals)

/-- Body of the outer loop of `findBestSplit` for feature `f`: collect the
values, sort, remove duplicates, and try the midpoint of every pair
`vals[i], vals[i+1]`. -/
def featureStep (log2 : R → R) (data : List (IrisSample R)) (base_entropy : R)
    (best : SplitResult R) (f : Nat) : Option (SplitResult R) :=
  match featureColumn data f with
  | none => none
  | some vals =>
    let vals := unique (vals.insertionSort (fun a b => a ≤ b))
    if vals.length = 1 then some best
    else
      (vals.zip vals.tail).foldlM
        (fun best p => candidateStep log2 data base_entropy f best ((p.1 + p.2) / 2)) best

/-- Function `findBestSplit`.  `data[0]` is read, so an empty `data` is
undefined behaviour. -/
def findBestSplit (log2 : R → R) (data : List (IrisSample R)) : Option (SplitResult R) :=
  match data with
  | [] => none
  | d0 :: _ =>
    (List.range d0.features.length).foldlM
      (featureStep log2 data (entropy log2 data))
      { feature_index := -1, threshold := 0, info_gain := 0 }

/-- Function `allSameLabel`. -/
def allSameLabel (data : List (IrisSample R)) : Bool :=
  match data with
  | [] => true
  | d0 :: _ => data.all (fun d => d.label = d0.label)

/-- Function `majorityLabel`. -/
def majorityLabel (data : List (IrisSample R)) : String :=
  bestLabel (countLabels (data.map (fun d => d.label)))

/-- Method `DecisionTree::buildTree`.  `some Node.null` is the `NULL` result;
`none` is undefined behaviour (an out-of-bounds feature read). -/
def buildTree (log2 : R → R) (data : List (IrisSample R)) : Option (Node R) :=
  match data with
  | [] => some Node.null
  | d0 :: rest =>
    if allSameLabel (d0 :: rest) then some (Node.mkLeaf d0.label)
    else
      match findBestSplit log2 (d0 :: rest) with
      | none => none
      | some split =>
        if split.feature_index = -1 then some (Node.mkLeaf (majorityLabel (d0 :: rest)))
        else
          match hs : splitData (d0 :: rest) split.feature_index split.threshold with
          | none => none
          | some (left_data, right_data) =>
            if hne : left_data.isEmpty || right_data.isEmpty then
              some (Node.mkLeaf (majorityLabel (d0 :: rest)))
            else
              match buildTree log2 left_data, buildTree log2 right_data with
              | some left, some right =>
                if left.isNull || right.isNull then
                  some (Node.mkLeaf (majorityLabel (d0 :: rest)))
                else
                  some (Node.node false "" split.feature_index split.threshold left right)
              | _, _ => none
termination_by data.length
decreasing_by
  all_goals simp_wf
  all_goals
    have key : ∀ (d : List (IrisSample R)) (l r : List (IrisSample R)),
        splitData d split.feature_index split.threshold = some (l, r) →
        l.length + r.length = d.length := by
      intro d
      induction d with
      | nil =>
        intro l r h
        simp only [splitData, Option.some.injEq, Prod.mk.injEq] at h
        obtain ⟨rfl, rfl⟩ := h
        rfl
      | cons s tl ih =>
        intro l r h
        simp only [splitData] at h
        split at h
        · exact absurd h (by simp)
        · split at h
          · exact absurd h (by simp)
          · rename_i l1 r1 hrec
            have hl := ih l1 r1 hrec
            split at h
            · simp only [Option.some.injEq, Prod.mk.injEq] at h
              obtain ⟨rfl, rfl⟩ := h
              simp only [List.length_cons]; omega
            · simp only [Option.some.injEq, Prod.mk.injEq] at h
              obtain ⟨rfl, rfl⟩ := h
              simp only [List.length_cons]; omega
    have hlen := key _ _ _ hs
    simp only [Bool.or_eq_true, List.isEmpty_iff, not_or] at hne
    have h1 : 0 < left_data.length := List.length_pos.mpr hne.1
    have h2 : 0 < right_data.length := List.length_pos.mpr hne.2
    simp only [List.length_cons] at hlen
    omega

/-- Method `DecisionTree::predictSample`.  A null node yields the empty
string. -/
def predictSample : Node R → IrisSample R → Option String
  | Node.null, _ => some ""
  | Node.node is_leaf label feature_index threshold left right, sample =>
    if is_leaf then some label
    else
      match vecGet? sample.features feature_index with
      | none => none
      | some x =>
        if x ≤ threshold then predictSample left sample
        else predictSample right sample

/-- Class `DecisionTree`: its only member is `root`. -/
structure DecisionTree (R : Type) where
  root : Node R

/-- Constructor `DecisionTree()`: `root(NULL)`. -/
def DecisionTree.new : DecisionTree R := { root := Node.null }

/-- Method `DecisionTree::fit`: `root = buildTree(data)`. -/
def DecisionTree.fit (log2 : R → R) (_dt : DecisionTree R) (data : List (IrisSample R)) :
    Option (DecisionTree R) :=
  (buildTree log2 data).map (fun n => { root := n })

/-- Method `DecisionTree::predict`. -/
def DecisionTree.predict (dt : DecisionTree R) (sample : IrisSample R) : Option String :=
  predictSample dt.root sample

/-- Induction never falls back to a majority leaf on `data`: every dataset
reached either shares one label or is split by `findBestSplit` with
`feature_index != -1` (a strictly positive information gain). -/
inductive Separated (log2 : R → R) : List (IrisSample R) → Prop
  | pure (data : List (IrisSample R)) :
      data ≠ [] → allSameLabel data = true → Separated log2 data
  | split (data : List (IrisSample R)) (sp : SplitResult R)
      (left_data right_data : List (IrisSample R)) :
      allSameLabel data = false →
      findBestSplit log2 data = some sp →
      sp.feature_index ≠ -1 →
      splitData data sp.feature_index sp.threshold = some (left_data, right_data) →
      Separated log2 left_data → Separated log2 right_data → Separated log2 data

/-- The exclusive-or dataset on two features. -/
def xorData (R : Type) [LinearOrderedField R] : List (IrisSample R) :=
  [{ features := [0, 0], label := "A" }, { features := [0, 1], label := "B" },
   { features := [1, 0], label := "B" }, { features := [1, 1], label := "A" }]

/-- Two samples with one feature each and different labels. -/
def twoPointData (R : Type) [LinearOrderedField R] : List (IrisSample R) :=
  [{ features := [0], label := "A" }, { features := [1], label := "B" }]

/-- The test `sample.features[f] <= threshold` of `splitData` on one sample
(`false` when the feature is missing). -/
def goesLeft (f : Nat) (threshold : R) (s : IrisSample R) : Bool :=
  match s.features[f]? with
  | some x => decide (x ≤ threshold)
  | none => false

/-- Specification: the distinct values of a column, in ascending order. -/
def distinctSorted (col : List R) : List R :=
  (col.dedup).insertionSort (fun a b => a ≤ b)

/-- Specification: the candidates `(f, tau)` of feature `f`, with `tau` the
midpoint of each consecutive pair of distinct sorted values of the feature. -/
def specFeatureCandidates (data : List (IrisSample R)) (f : Nat) : List (Nat × R) :=
  let vals := distinctSorted (data.filterMap (fun d => d.features[f]?))
  (vals.zip vals.tail).map (fun p => (f, (p.1 + p.2) / 2))

/-- Specification: all candidates, features ascending in `[0, F)` and
thresholds ascending within a feature. -/
def specCandidates (data : List (IrisSample R)) (F : Nat) : List (Nat × R) :=
  (List.range F).flatMap (specFeatureCandidates data)

/-- Specification: the information gain
`H(D) - (|L|/|D| * H(L) + |R|/|D| * H(R))` of the candidate `c = (f, tau)`,
with `L` the samples whose feature `f` is `<= tau` and `R` the others. -/
def specGain (log2 : R → R) (data : List (IrisSample R)) (c : Nat × R) : R :=
  let left_part := data.filter (goesLeft c.1 c.2)
  let right_part := data.filter (fun s => !goesLeft c.1 c.2 s)
  entropy log2 data -
    ((left_part.length : R) / (data.length : R) * entropy log2 left_part +
     (right_part.length : R) / (data.length : R) * entropy log2 right_part)

/-- Specification: keep `best` unless the candidate `c` has a strictly larger
gain. -/
def pick (log2 : R → R) (data : List (IrisSample R)) (best : SplitResult R) (c : Nat × R) :
    SplitResult R :=
  if specGain log2 data c > best.info_gain then
    { feature_index := (c.1 : Int), threshold := c.2, info_gain := specGain log2 data c }
  else best

/-- The split recorded in `best` was tried on `data` for a feature below `F`
and left both sides non-empty, or `best` is still the initial record. -/
def SplitInv (data : List (IrisSample R)) (F : Nat) (best : SplitResult R) : Prop :=
  best.feature_index = -1 ∨
  ∃ f : Nat, f < F ∧ best.feature_index = (f : Int) ∧
    ∃ l r, splitData data (f : Int) best.threshold = some (l, r) ∧ l ≠ [] ∧ r ≠ []

/-- Specification: the tree is non-null and every node is a leaf without
children or an internal node with `0 <= feature_index < F` and two subtrees
of the same shape. -/
def WellFormed (F : Nat) : Node R → Bool
  | Node.null => false
  | Node.node is_leaf _ feature_index _ left right =>
    if is_leaf then left.isNull && right.isNull
    else decide (0 ≤ feature_index) && decide (feature_index < (F : Int)) &&
      WellFormed F left && WellFormed F right

/-- The node at which the descent of `predictSample` stops: the null node of
the branch `if (!node)`, or the leaf whose label is returned. -/
def descend : Node R → IrisSample R → Option (Node R)
  | Node.null, _ => some Node.null
  | Node.node is_leaf label feature_index threshold left right, sample =>
    if is_leaf then some (Node.node is_leaf label feature_index threshold left right)
    else
      match vecGet? sample.features feature_index with
      | none => none
      | some x =>
        if x ≤ threshold then descend left sample
        else descend right sample

/-- Four samples on one feature, two of class `X` below two of class `Y`. -/
def fourPointData (R : Type) [LinearOrderedField R] : List (IrisSample R) :=
  [{ features := [1], label := "X" }, { features := [2], label := "X" },
   { features := [3], label := "Y" }, { features := [4], label := "Y" }]

/-- Three samples with the same features, two of class `B` and one of class
`A`. -/
def sameFeaturesData (R : Type) [LinearOrderedField R] : List (IrisSample R) :=
  [{ features := [1, 2], label := "B" }, { features := [1, 2], label := "A" },
   { features := [1, 2], label := "B" }]

/-- Specification: `-(sum over the observed labels c of p_c * log2 p_c)` with
`p_c = count(c) / |D|`. -/
def specEntropy (log2 : R → R) (data : List (IrisSample R)) : R :=
  let labels := data.map (fun d => d.label)
  let terms := labels.dedup.map (fun c =>
    ((labels.count c : R) / (data.length : R)) *
      log2 ((labels.count c : R) / (data.length : R)))
  0 - terms.sum

end DecisionTree

/-! ## Arithmetic of `double` -/

section DoubleArithmetic

/-- What the operators `+`, `-`, `*`, `/` and the function `sqrt` return on
values of type `double`.  The operations of the hardware round their result;
`DoubleArith.exact` does not. -/
structure DoubleArith (R : Type) where
  add : R → R → R
  sub : R → R → R
  mul : R → R → R
  div : R → R → R
  sqrt : R → R

/-- Arithmetic without rounding, for a given square root. -/
def DoubleArith.exact {R : Type} [LinearOrderedField R] (sqrt : R → R) : DoubleArith R :=
  { add := fun a b => a + b, sub := fun a b => a - b, mul := fun a b => a * b,
    div := fun a b => a / b, sqrt := sqrt }

/-- Facts about zero that hold of the arithmetic of `double`: `x - x`,
`0 * 0`, `0 + 0` and `sqrt 0` are `0`, and a square root is not negative. -/
def DoubleArith.ZeroSound {R : Type} [LinearOrderedField R] (arith : DoubleArith R) : Prop :=
  (∀ x, arith.sub x x = 0) ∧ arith.mul 0 0 = 0 ∧ arith.add 0 0 = 0 ∧ arith.sqrt 0 = 0 ∧
    ∀ x, 0 ≤ arith.sqrt x

/-- The floor of the binary logarithm of `n`, by halving at most `fuel`
times (`std::__lg(n)` is `lgFuel n n`). -/
def lgFuel : Nat → Nat → Nat
  | 0, _ => 0
  | fuel + 1, n => if n < 2 then 0 else lgFuel fuel (n / 2) + 1

/-- Rounding to the nearest integer, a tie going to the even one. -/
def roundHalfEven (x : ℚ) : ℤ :=
  let f := ⌊x⌋
  if x - f < 1 / 2 then f
  else if 1 / 2 < x - f then f + 1
  else if f % 2 = 0 then f else f + 1

/-- The IEEE-754 binary64 value nearest to `q`, a tie going to the even
significand: 53 significant bits, subnormal below `2^-1022`.  Overflow to
infinity is not modelled (the result stays finite). -/
def roundDouble (q : ℚ) : ℚ :=
  let e := max (Int.log 2 |q|) (-1022)
  (roundHalfEven (q / 2 ^ (e - 52)) : ℚ) * 2 ^ (e - 52)

/-- The correctly rounded square root of IEEE-754: with `k` large enough and
`s` the integer square root of `q * 4^k`, the root lies at `s / 2^k` when
`q * 4^k = s^2`, and strictly between `s / 2^k` and `(s + 1) / 2^k` otherwise,
where no binary64 value and no midpoint of two of them lies.  The root of a
negative number (NaN) is not modelled. -/
def sqrtDouble (q : ℚ) : ℚ :=
  if q ≤ 0 then 0
  else
    let k := 64 + lgFuel q.den q.den
    let s := Nat.sqrt ⌊q * 4 ^ k⌋.toNat
    if ((s * s : Nat) : ℚ) = q * 4 ^ k then roundDouble ((s : ℚ) / 2 ^ k)
    else roundDouble (((s : ℚ) + 1 / 2) / 2 ^ k)

/-- The arithmetic of IEEE-754 binary64 with rounding to nearest, on finite
values. -/
def ieee754 : DoubleArith ℚ :=
  { add := fun a b => roundDouble (a + b), sub := fun a b => roundDouble (a - b),
    mul := fun a b => roundDouble (a * b), div := fun a b => roundDouble (a / b),
    sqrt := sqrtDouble }

end DoubleArithmetic

/-! ## `std::sort` of libstdc++ (`bits/stl_algo.h`, `bits/stl_heap.h`)

The sources are compiled with `g++`; its `std::sort` is an introsort: a
quicksort on ranges of more than 16 elements, with a heap sort when the depth
limit is exhausted, followed by an insertion sort.  Iterators are positions in
the sequence; `d` fills a read outside the sequence, which does not happen
when `lt` is a strict weak order. -/

section StdSort

variable {α : Type}

/-- `std::iter_swap` on the positions `i` and `j`. -/
def iterSwap (d : α) (l : List α) (i j : Nat) : List α :=
  (l.set i (l.getD j d)).set j (l.getD i d)

/-- `std::__move_median_to_first(result, a, b, c, comp)`. -/
def moveMedianToFirst (lt : α → α → Bool) (d : α) (l : List α) (result a b c : Nat) : List α :=
  if lt (l.getD a d) (l.getD b d) then
    if lt (l.getD b d) (l.getD c d) then iterSwap d l result b
    else if lt (l.getD a d) (l.getD c d) then iterSwap d l result c
    else iterSwap d l result a
  else if lt (l.getD a d) (l.getD c d) then iterSwap d l result a
  else if lt (l.getD b d) (l.getD c d) then iterSwap d l result c
  else iterSwap d l result b

/-- The loop `while (comp(first, pivot)) ++first;`. -/
def scanUp (lt : α → α → Bool) (d : α) (l : List α) (pivot : α) : Nat → Nat → Nat
  | 0, first => first
  | fuel + 1, first =>
    if lt (l.getD first d) pivot then scanUp lt d l pivot fuel (first + 1) else first

/-- The loop `while (comp(pivot, last)) --last;`. -/
def scanDown (lt : α → α → Bool) (d : α) (l : List α) (pivot : α) : Nat → Nat → Nat
  | 0, last => last
  | fuel + 1, last =>
    if lt pivot (l.getD last d) then scanDown lt d l pivot fuel (last - 1) else last

/-- `std::__unguarded_partition(first, last, pivot, comp)`. -/
def unguardedPartition (lt : α → α → Bool) (d : α) (pivot : Nat) :
    Nat → List α → Nat → Nat → List α × Nat
  | 0, l, first, _ => (l, first)
  | fuel + 1, l, first, last =>
    let first := scanUp lt d l (l.getD pivot d) l.length first
    let last := last - 1
    let last := scanDown lt d l (l.getD pivot d) l.length last
    if first < last then
      unguardedPartition lt d pivot fuel (iterSwap d l first last) (first + 1) last
    else (l, first)

/-- `std::__unguarded_partition_pivot(first, last, comp)`. -/
def unguardedPartitionPivot (lt : α → α → Bool) (d : α) (l : List α) (first last : Nat) :
    List α × Nat :=
  let mid := first + (last - first) / 2
  let l := moveMedianToFirst lt d l first (first + 1) mid (last - 1)
  unguardedPartition lt d first l.length l (first + 1) last

/-- `std::__push_heap(first, holeIndex, topIndex, value, comp)`. -/
def pushHeap (lt : α → α → Bool) (d : α) (first topIndex : Nat) (value : α) :
    Nat → List α → Nat → List α
  | 0, l, holeIndex => l.set (first + holeIndex) value
  | fuel + 1, l, holeIndex =>
    let parent := (holeIndex - 1) / 2
    if topIndex < holeIndex ∧ lt (l.getD (first + parent) d) value = true then
      pushHeap lt d first topIndex value fuel
        (l.set (first + holeIndex) (l.getD (first + parent) d)) parent
    else l.set (first + holeIndex) value

/-- The loop `while (secondChild < (len - 1) / 2)` of `std::__adjust_heap`;
returns the sequence, `holeIndex` and `secondChild`. -/
def adjustHeapLoop (lt : α → α → Bool) (d : α) (first len : Nat) :
    Nat → List α → Nat → Nat → List α × Nat × Nat
  | 0, l, holeIndex, secondChild => (l, holeIndex, secondChild)
  | fuel + 1, l, holeIndex, secondChild =>
    if secondChild < (len - 1) / 2 then
      let secondChild := 2 * (secondChild + 1)
      let secondChild :=
        if lt (l.getD (first + secondChild) d) (l.getD (first + (secondChild - 1)) d) then
          secondChild - 1
        else secondChild
      adjustHeapLoop lt d first len fuel
        (l.set (first + holeIndex) (l.getD (first + secondChild) d)) secondChild secondChild
    else (l, holeIndex, secondChild)

/-- `std::__adjust_heap(first, holeIndex, len, value, comp)`. -/
def adjustHeap (lt : α → α → Bool) (d : α) (l : List α) (first holeIndex len : Nat)
    (value : α) : List α :=
  let topIndex := holeIndex
  let (l, holeIndex, secondChild) := adjustHeapLoop lt d first len len l holeIndex holeIndex
  if len % 2 = 0 ∧ secondChild = (len - 2) / 2 then
    let secondChild := 2 * (secondChild + 1)
    pushHeap lt d first topIndex value len
      (l.set (first + holeIndex) (l.getD (first + (secondChild - 1)) d)) (secondChild - 1)
  else pushHeap lt d first topIndex value len l holeIndex

/-- The loop of `std::__make_heap`, from `parent` down to `0`. -/
def makeHeapLoop (lt : α → α → Bool) (d : α) (first len : Nat) : Nat → List α → List α
  | 0, l => adjustHeap lt d l first 0 len (l.getD first d)
  | parent + 1, l =>
    makeHeapLoop lt d first len parent
      (adjustHeap lt d l first (parent + 1) len (l.getD (first + (parent + 1)) d))

/-- `std::__make_heap(first, last, comp)`. -/
def makeHeap (lt : α → α → Bool) (d : α) (l : List α) (first last : Nat) : List α :=
  if last - first < 2 then l
  else makeHeapLoop lt d first (last - first) ((last - first - 2) / 2) l

/-- `std::__sort_heap(first, last, comp)`: the loop
`while (last - first > 1) { --last; __pop_heap(first, last, last, comp); }`. -/
def sortHeap (lt : α → α → Bool) (d : α) (first : Nat) : Nat → List α → Nat → List α
  | 0, l, _ => l
  | fuel + 1, l, last =>
    if 1 < last - first then
      let last := last - 1
      let value := l.getD last d
      let l := l.set last (l.getD first d)
      sortHeap lt d first fuel (adjustHeap lt d l first 0 (last - first) value) last
    else l

/-- `std::__partial_sort(first, last, last, comp)`: heap sort of the range. -/
def heapSortRange (lt : α → α → Bool) (d : α) (l : List α) (first last : Nat) : List α :=
  sortHeap lt d first l.length (makeHeap lt d l first last) last

/-- `std::__introsort_loop(first, last, depth_limit, comp)`. -/
def introsortLoop (lt : α → α → Bool) (d : α) :
    Nat → List α → Nat → Nat → Nat → List α
  | 0, l, _, _, _ => l
  | fuel + 1, l, first, last, depth_limit =>
    if 16 < last - first then
      if depth_limit = 0 then heapSortRange lt d l first last
      else
        let (l, cut) := unguardedPartitionPivot lt d l first last
        let l := introsortLoop lt d fuel l cut last (depth_limit - 1)
        introsortLoop lt d fuel l first cut (depth_limit - 1)
    else l

/-- `std::__unguarded_linear_insert(last, comp)` for the value `val` taken
from the position `last`. -/
def unguardedLinearInsert (lt : α → α → Bool) (d : α) (val : α) : Nat → List α → Nat → List α
  | 0, l, last => l.set last val
  | fuel + 1, l, last =>
    if lt val (l.getD (last - 1) d) then
      unguardedLinearInsert lt d val fuel (l.set last (l.getD (last - 1) d)) (last - 1)
    else l.set last val

/-- Body of the loop of `std::__insertion_sort` for the position `i` of the
range that starts at `first`. -/
def insertionStep (lt : α → α → Bool) (d : α) (first : Nat) (l : List α) (i : Nat) : List α :=
  if lt (l.getD i d) (l.getD first d) then
    l.take first ++ l.getD i d :: (l.drop first).take (i - first) ++ l.drop (i + 1)
  else unguardedLinearInsert lt d (l.getD i d) l.length l i

/-- `std::__insertion_sort(first, last, comp)`. -/
def insertionSortRange (lt : α → α → Bool) (d : α) (l : List α) (first last : Nat) : List α :=
  ((List.range (last - first)).drop 1).foldl
    (fun l k => insertionStep lt d first l (first + k)) l

/-- `std::__unguarded_insertion_sort(first, last, comp)`. -/
def unguardedInsertionSortRange (lt : α → α → Bool) (d : α) (l : List α) (first last : Nat) :
    List α :=
  (List.range (last - first)).foldl
    (fun l k => unguardedLinearInsert lt d (l.getD (first + k) d) l.length l (first + k)) l

/-- `std::__final_insertion_sort(first, last, comp)`. -/
def finalInsertionSort (lt : α → α → Bool) (d : α) (l : List α) (first last : Nat) : List α :=
  if 16 < last - first then
    unguardedInsertionSortRange lt d (insertionSortRange lt d l first (first + 16))
      (first + 16) last
  else insertionSortRange lt d l first last

/-- `std::sort(first, last, comp)` of libstdc++ on the whole sequence. -/
def gnuSort (lt : α → α → Bool) (l : List α) : List α :=
  match l with
  | [] => []
  | d :: _ =>
    finalInsertionSort lt d
      (introsortLoop lt d l.length l 0 l.length (2 * lgFuel l.length l.length)) 0 l.length

end StdSort

/-! ## k-nearest neighbours (`knn_iris.cpp`) -/

section KNN

variable {R : Type} [LinearOrderedField R]

/-- The loop of `euclideanDistance`: `diff = a[i]-b[i]; sum += diff*diff` for
`i < a.size()`, in the arithmetic `arith`; reading `b[i]` past the end of `b`
is undefined behaviour. -/
def sumSqDiff (arith : DoubleArith R) : R → List R → List R → Option R
  | sum, [], _ => some sum
  | _, _ :: _, [] => none
  | sum, x :: a, y :: b =>
    sumSqDiff arith (arith.add sum (arith.mul (arith.sub x y) (arith.sub x y))) a b

/-- Method `KNNClassifier::euclideanDistance`. -/
def euclideanDistance (arith : DoubleArith R) (a b : List R) : Option R :=
  (sumSqDiff arith 0 a b).map arith.sqrt

/-- Class `KNNClassifier`: members `K` and `data`. -/
structure KNNClassifier (R : Type) where
  K : Int
  data : List (IrisSample R)

/-- Constructor `KNNClassifier(int k)`. -/
def KNNClassifier.new (k : Int) : KNNClassifier R := { K := k, data := [] }

/-- Method `KNNClassifier::fit`: `data = training_data`. -/
def KNNClassifier.fit (knn : KNNClassifier R) (training_data : List (IrisSample R)) :
    KNNClassifier R :=
  { knn with data := training_data }

/-- First loop of `predict`: the pairs `{dist, train_pt.label}` in the order
of the training data. -/
def distancesTo (arith : DoubleArith R) (sample : IrisSample R) :
    List (IrisSample R) → Option (List (R × String))
  | [] => some []
  | train_pt :: rest =>
    match euclideanDistance arith sample.features train_pt.features with
    | none => none
    | some dist =>
      match distancesTo arith sample rest with
      | none => none
      | some distances => some ((dist, train_pt.label) :: distances)

/-- What the C++ standard guarantees of `std::sort` with the comparator
`a.first < b.first`: the result is a permutation of the input in which no
later element compares less than an earlier one.  The relative order of
elements with equal distance is unspecified. -/
def IsStdSort (sort : List (R × String) → List (R × String)) : Prop :=
  ∀ l, (sort l).Perm l ∧ (sort l).Pairwise (fun a b => ¬ b.1 < a.1)

/-- The loop `for (int i = 0; i < K; ++i) countMap[distances[i].second]++`
over the listed values of `i`.  The source reads `distances[i]` without a
check: a read past the end is undefined behaviour, `none` here. -/
def voteLoop (distances : List (R × String)) : List Nat → StdMap Int → Option (StdMap Int)
  | [], countMap => some countMap
  | i :: rest, countMap =>
    match distances[i]? with
    | none => none
    | some d => voteLoop distances rest (StdMap.update countMap d.2 (fun c => c.getD 0 + 1))

/-- Method `KNNClassifier::predict`, for the arithmetic `arith` and a given
behaviour `sort` of `std::sort`. -/
def KNNClassifier.predict (arith : DoubleArith R)
    (sort : List (R × String) → List (R × String))
    (knn : KNNClassifier R) (sample : IrisSample R) : Option String :=
  match distancesTo arith sample knn.data with
  | none => none
  | some distances =>
    match voteLoop (sort distances) (List.range knn.K.toNat) [] with
    | none => none
    | some countMap => some (bestLabel countMap)

/-- The comparator `a.first < b.first` of `predict`. -/
def distanceLess (a b : R × String) : Bool := decide (a.1 < b.1)

/-- The distance that `euclideanDistance` computes in the arithmetic `arith`
for vectors of one length. -/
def computedDistance (arith : DoubleArith R) (a b : List R) : R :=
  arith.sqrt ((a.zip b).foldl
    (fun sum p => arith.add sum (arith.mul (arith.sub p.1 p.2) (arith.sub p.1 p.2))) 0)

/-- Squared Euclidean distance as the specification writes it:
the sum over `i` of `(a_i - b_i)^2`. -/
def sqDist (a b : List R) : R :=
  (List.zipWith (fun x y => (x - y) * (x - y)) a b).sum

/-- Stability of a sort by distance: entries at one distance keep their
relative order (every list of equidistant entries that is a sublist of the
input is a sublist of the output). -/
def IsStableSort (sort : List (R × String) → List (R × String)) : Prop :=
  ∀ (l c : List (R × String)) (d : R), (∀ x ∈ c, x.1 = d) → c.Sublist l → c.Sublist (sort l)

/-- A stable ascending sort by distance (insertion sort). -/
def stableSort (l : List (R × String)) : List (R × String) :=
  l.insertionSort (fun a b => a.1 ≤ b.1)

/-- Training set of the tie-break scenario: five samples `(v, A)` followed
by two samples `(v, B)`. -/
def fiveATwoB (v : List R) : List (IrisSample R) :=
  List.replicate 5 { features := v, label := "A" } ++
    List.replicate 2 { features := v, label := "B" }

/-- Seventeen samples with the features `v`: eight `(v, A)`, one `(v, B)`
and eight `(v, A)`. -/
def seventeenSamples (v : List R) : List (IrisSample R) :=
  List.replicate 8 { features := v, label := "A" } ++
    { features := v, label := "B" } :: List.replicate 8 { features := v, label := "A" }

/-- Two samples whose squared distances from `[1, 2^-30]` are `1 + 2^-60`
and `1`: `([0, 0], A)` and `([0, 2^-30], B)`. -/
def nearTieData (R : Type) [LinearOrderedField R] : List (IrisSample R) :=
  [{ features := [0, 0], label := "A" }, { features := [0, 1 / 2 ^ 30], label := "B" }]

/-- Two samples whose squared difference underflows: `([0], B)` and
`([2^-600], A)`. -/
def underflowData (R : Type) [LinearOrderedField R] : List (IrisSample R) :=
  [{ features := [0], label := "B" }, { features := [1 / 2 ^ 600], label := "A" }]

end KNN

/-! ## Split search of the decision tree in `double` arithmetic -/

section RoundedDecisionTree

variable {R : Type} [LinearOrderedField R]

/-- Function `entropy`, with the operators of `double` given by `arith`:
`p = kv.second / total` and `ent -= p * log2(p)`. -/
def roundedEntropy (arith : DoubleArith R) (log2 : R → R) (data : List (IrisSample R)) : R :=
  let counts := countLabels (data.map (fun d => d.label))
  let total : R := (data.length : R)
  counts.foldl (fun ent kv =>
    let p : R := arith.div (kv.2 : R) total
    arith.sub ent (arith.mul p (log2 p))) 0

/-- Body of the inner loop of `findBestSplit` for one threshold, with the
operators of `double` given by `arith`. -/
def roundedCandidateStep (arith : DoubleArith R) (log2 : R → R) (data : List (IrisSample R))
    (base_entropy : R) (f : Nat) (best : SplitResult R) (threshold : R) :
    Option (SplitResult R) :=
  match splitData data (f : Int) threshold with
  | none => none
  | some (left_data, right_data) =>
    if left_data.isEmpty || right_data.isEmpty then some best
    else
      let p_left : R := arith.div (left_data.length : R) (data.length : R)
      let p_right : R := arith.sub 1 p_left
      let new_entropy := arith.add (arith.mul p_left (roundedEntropy arith log2 left_data))
        (arith.mul p_right (roundedEntropy arith log2 right_data))
      let info_gain := arith.sub base_entropy new_entropy
      if info_gain > best.info_gain then
        some { feature_index := (f : Int), threshold := threshold, info_gain := info_gain }
      else some best

/-- Body of the outer loop of `findBestSplit` for feature `f`, with the
operators of `double` given by `arith`: the threshold is the computed
`(vals[i] + vals[i+1]) / 2.0`. -/
def roundedFeatureStep (arith : DoubleArith R) (log2 : R → R) (data : List (IrisSample R))
    (base_entropy : R) (best : SplitResult R) (f : Nat) : Option (SplitResult R) :=
  match featureColumn data f with
  | none => none
  | some vals =>
    let vals := unique (vals.insertionSort (fun a b => a ≤ b))
    if vals.length = 1 then some best
    else
      (vals.zip vals.tail).foldlM
        (fun best p => roundedCandidateStep arith log2 data base_entropy f best
          (arith.div (arith.add p.1 p.2) 2)) best

/-- Function `findBestSplit`, with the operators of `double` given by
`arith`.  `data[0]` is read, so an empty `data` is undefined behaviour. -/
def roundedFindBestSplit (arith : DoubleArith R) (log2 : R → R) (data : List (IrisSample R)) :
    Option (SplitResult R) :=
  match data with
  | [] => none
  | d0 :: _ =>
    (List.range d0.features.length).foldlM
      (roundedFeatureStep arith log2 data (roundedEntropy arith log2 data))
      { feature_index := -1, threshold := 0, info_gain := 0 }

/-- The candidates `(f, tau)` of feature `f` as the machine forms them: `tau`
is the computed midpoint of each consecutive pair of distinct sorted values
of the feature. -/
def computedFeatureCandidates (arith : DoubleArith R) (data : List (IrisSample R)) (f : Nat) :
    List (Nat × R) :=
  let vals := distinctSorted (data.filterMap (fun d => d.features[f]?))
  (vals.zip vals.tail).map (fun p => (f, arith.div (arith.add p.1 p.2) 2))

/-- All computed candidates, features ascending in `[0, F)` and the pairs of
values ascending within a feature. -/
def computedCandidates (arith : DoubleArith R) (data : List (IrisSample R)) (F : Nat) :
    List (Nat × R) :=
  (List.range F).flatMap (computedFeatureCandidates arith data)

/-- Both sides of the split of `data` by the candidate `c` are non-empty. -/
def bothSides (data : List (IrisSample R)) (c : Nat × R) : Bool :=
  !(data.filter (goesLeft c.1 c.2)).isEmpty &&
    !(data.filter (fun s => !goesLeft c.1 c.2 s)).isEmpty

/-- The information gain of the candidate `c = (f, tau)` as the machine
computes it: `H(D) - (p_left * H(L) + p_right * H(R))` with
`p_left = |L| / |D|` and `p_right = 1 - p_left`, every operation one of
`arith`. -/
def computedGain (arith : DoubleArith R) (log2 : R → R) (data : List (IrisSample R))
    (c : Nat × R) : R :=
  let left_part := data.filter (goesLeft c.1 c.2)
  let right_part := data.filter (fun s => !goesLeft c.1 c.2 s)
  let p_left : R := arith.div (left_part.length : R) (data.length : R)
  arith.sub (roundedEntropy arith log2 data)
    (arith.add (arith.mul p_left (roundedEntropy arith log2 left_part))
      (arith.mul (arith.sub 1 p_left) (roundedEntropy arith log2 right_part)))

/-- Keep `best` unless the candidate `c` has a strictly larger value of
`gain`. -/
def pickBy (gain : Nat × R → R) (best : SplitResult R) (c : Nat × R) : SplitResult R :=
  if gain c > best.info_gain then
    { feature_index := (c.1 : Int), threshold := c.2, info_gain := gain c }
  else best

/-- Two samples of different classes whose only feature takes two adjacent
values of type `double`, `1 + 2^-52` and `1 + 2^-51`. -/
def adjacentData (R : Type) [LinearOrderedField R] : List (IrisSample R) :=
  [{ features := [1 + 1 / 2 ^ 52], label := "A" },
   { features := [1 + 1 / 2 ^ 51], label := "B" }]

/-- Eleven samples with eleven different labels. -/
def elevenLabelData (R : Type) [LinearOrderedField R] : List (IrisSample R) :=
  ["A", "B", "C", "D", "E", "F", "G", "H", "I", "J", "K"].map
    (fun c => { features := [0], label := c })

end RoundedDecisionTree

/-! ## Gaussian naive Bayes (`nb_iris.cpp`) -/

section NaiveBayes

variable {R : Type} [LinearOrderedField R]

/-- Macro `M_PI` as `nb_iris.cpp` defines it. -/
def M_PI : R := 3.14159265358979323846

/-- Record `ClassStats`. -/
structure ClassStats (R : Type) where
  means : List (Dbl R)
  variances : List (Dbl R)

/-- Class `NaiveBayes`: its three member maps. -/
structure NaiveBayes (R : Type) where
  class_stats : StdMap (ClassStats R)
  class_counts : StdMap Int
  class_priors : StdMap (Dbl R)

/-- The implicit default constructor: three empty maps. -/
def NaiveBayes.new : NaiveBayes R :=
  { class_stats := [], class_counts := [], class_priors := [] }

/-- First loop of `fit`: `class_data[sample.label].push_back(sample.features)`. -/
def groupByLabel (data : List (IrisSample R)) : StdMap (List (List R)) :=
  data.foldl (fun class_data sample =>
    StdMap.update class_data sample.label (fun o => o.getD [] ++ [sample.features])) []

/-- The accumulation `means[i] += feat_vec[i]` over the samples of a class. -/
def columnSum : Dbl R → List (List R) → Nat → Option (Dbl R)
  | acc, [], _ => some acc
  | acc, feat_vec :: rest, i =>
    match feat_vec[i]? with
    | none => none
    | some x => columnSum (Dbl.add acc (Dbl.fin x)) rest i

/-- The accumulation `diff = feat_vec[i] - means[i]; variances[i] += diff*diff`
over the samples of a class. -/
def sumSqDev : Dbl R → List (List R) → Nat → Dbl R → Option (Dbl R)
  | acc, [], _, _ => some acc
  | acc, feat_vec :: rest, i, mean =>
    match feat_vec[i]? with
    | none => none
    | some x =>
      let diff := Dbl.sub (Dbl.fin x) mean
      sumSqDev (Dbl.add acc (Dbl.mul diff diff)) rest i mean

/-- What `fit` computes for feature `i` of a class with `n` samples: the mean
`means[i] / n`, and the variance `variances[i] / (n - 1)` replaced by `1e-9`
when the test `variances[i] < 1e-9` succeeds. -/
def featureStats (samples : List (List R)) (n : Int) (i : Nat) : Option (Dbl R × Dbl R) :=
  match columnSum (Dbl.fin 0) samples i with
  | none => none
  | some sum =>
    let mean := Dbl.div sum (Dbl.fin (n : R))
    match sumSqDev (Dbl.fin 0) samples i mean with
    | none => none
    | some sq =>
      let variance := Dbl.div sq (Dbl.fin ((n - 1 : Int) : R))
      if Dbl.lt variance (Dbl.fin 1e-9) then some (mean, Dbl.fin 1e-9)
      else some (mean, variance)

/-- All results of a list of computations, or `none` if one of them failed. -/
def allSome {α : Type} : List (Option α) → Option (List α)
  | [] => some []
  | none :: _ => none
  | some x :: rest =>
    match allSome rest with
    | none => none
    | some xs => some (x :: xs)

/-- The vectors `means` and `variances` of one class. -/
def classStats (samples : List (List R)) (feature_count : Nat) : Option (ClassStats R) :=
  match allSome ((List.range feature_count).map
      (featureStats samples (samples.length : Int))) with
  | none => none
  | some stats =>
    some { means := stats.map (fun p => p.1), variances := stats.map (fun p => p.2) }

/-- Second loop of `fit`, over `class_data` in key order: stores the
statistics and the count of every class. -/
def fitClasses : StdMap (List (List R)) → Nat → StdMap (ClassStats R) × StdMap Int →
    Option (StdMap (ClassStats R) × StdMap Int)
  | [], _, state => some state
  | (c, samples) :: rest, feature_count, (class_stats, class_counts) =>
    match classStats samples feature_count with
    | none => none
    | some stats =>
      fitClasses rest feature_count
        (StdMap.update class_stats c (fun _ => stats),
         StdMap.update class_counts c (fun _ => (samples.length : Int)))

/-- Method `NaiveBayes::fit`.  The member maps are not cleared: the loops
insert into, or overwrite entries of, the maps of `nb`. -/
def NaiveBayes.fit (nb : NaiveBayes R) (data : List (IrisSample R)) : Option (NaiveBayes R) :=
  match data with
  | [] => none
  | d0 :: _ =>
    match fitClasses (groupByLabel data) d0.features.length
        (nb.class_stats, nb.class_counts) with
    | none => none
    | some (class_stats, class_counts) =>
      let total_samples : Int := (data.length : Int)
      let class_priors := class_counts.foldl (fun priors kv =>
        StdMap.update priors kv.1
          (fun _ => Dbl.div (Dbl.fin (kv.2 : R)) (Dbl.fin (total_samples : R))))
        nb.class_priors
      some { class_stats := class_stats, class_counts := class_counts,
             class_priors := class_priors }

/-- The term `-0.5*log(2*M_PI*var) - (diff*diff)/(2*var)` of `predict`. -/
def logDensity (log : R → R) (mean var : Dbl R) (x : R) : Dbl R :=
  let diff := Dbl.sub (Dbl.fin x) mean
  Dbl.sub
    (Dbl.mul (Dbl.fin (-0.5)) (Dbl.log log (Dbl.mul (Dbl.mul (Dbl.fin 2) (Dbl.fin M_PI)) var)))
    (Dbl.div (Dbl.mul diff diff) (Dbl.mul (Dbl.fin 2) var))

/-- Inner loop of `predict` over `i < stats.means.size()`, reading
`stats.variances[i]` and `sample.features[i]`. -/
def scoreLoop (log : R → R) : Dbl R → List (Dbl R) → List (Dbl R) → List R → Option (Dbl R)
  | log_prob, [], _, _ => some log_prob
  | log_prob, mean :: means, var :: variances, x :: features =>
    scoreLoop log (Dbl.add log_prob (logDensity log mean var x)) means variances features
  | _, _ :: _, _, _ => none

/-- Outer loop of `predict` over `class_stats` in key order;
`class_priors.at(c)` fails when `c` has no prior. -/
def predictLoop (log : R → R) (class_priors : StdMap (Dbl R)) (features : List R) :
    StdMap (ClassStats R) → String × Dbl R → Option (String × Dbl R)
  | [], best => some best
  | (c, stats) :: rest, best =>
    match StdMap.find? class_priors c with
    | none => none
    | some prior =>
      match scoreLoop log (Dbl.log log prior) stats.means stats.variances features with
      | none => none
      | some log_prob =>
        predictLoop log class_priors features rest
          (if Dbl.lt best.2 log_prob then (c, log_prob) else best)

/-- Method `NaiveBayes::predict`: `best_class` starts empty and
`best_log_prob` at `-INFINITY`. -/
def NaiveBayes.predict (log : R → R) (nb : NaiveBayes R) (sample : IrisSample R) :
    Option String :=
  (predictLoop log nb.class_priors sample.features nb.class_stats ("", Dbl.ninf)).map
    (fun best => best.1)

/-- Sum over the features of the Gaussian log-density terms of the
specification, `-1/2 log(2 pi var_i) - (x_i - mean_i)^2 / (2 var_i)`, with
`M_PI` for `pi`. -/
def specLogLikelihood (log : R → R) : List R → List R → List R → R
  | mean :: means, var :: variances, x :: features =>
    (-0.5 * log (2 * M_PI * var) - (x - mean) * (x - mean) / (2 * var)) +
      specLogLikelihood log means variances features
  | _, _, _ => 0

/-- Score of the specification for a class given by its prior, means and
variances: `log(prior) + sum_i [...]`. -/
def specScore (log : R → R) (x : List R) (cls : String × R × List R × List R) : R :=
  log cls.2.1 + specLogLikelihood log cls.2.2.1 cls.2.2.2 x

/-- A dataset with one class of two samples. -/
def twoSampleClassData (R : Type) [LinearOrderedField R] : List (IrisSample R) :=
  [{ features := [0], label := "A" }, { features := [2], label := "A" }]

/-- A dataset with a single sample. -/
def oneSampleData (R : Type) [LinearOrderedField R] : List (IrisSample R) :=
  [{ features := [5], label := "A" }]

/-- Training set of scenario 1 of the specification: one sample per class. -/
def scenarioOneData (R : Type) [LinearOrderedField R] : List (IrisSample R) :=
  [{ features := [0, 0, 0, 0], label := "A" }, { features := [1, 1, 1, 1], label := "B" }]

/-- A dataset with two samples of class `A` and one sample of class `B`. -/
def singletonClassData (R : Type) [LinearOrderedField R] : List (IrisSample R) :=
  [{ features := [0], label := "A" }, { features := [2], label := "A" },
   { features := [10], label := "B" }]

/-- A dataset with one class `B` of two samples. -/
def twoSampleClassDataB (R : Type) [LinearOrderedField R] : List (IrisSample R) :=
  [{ features := [0], label := "B" }, { features := [2], label := "B" }]

/-- The class sizes and the third loop of `NaiveBayes::fit` on a freshly
constructed learner: `class_counts[label] = n` for every class, then
`class_priors[kv.first] = (double)kv.second / total_samples`, with `div` the
division of `double`. -/
def fitPriors (div : R → R → R) (data : List (IrisSample R)) : StdMap R :=
  let class_counts := (groupByLabel data).foldl
    (fun m kv => StdMap.update m kv.1 (fun _ => (kv.2.length : Int))) []
  let total_samples : Int := (data.length : Int)
  class_counts.foldl (fun priors kv =>
    StdMap.update priors kv.1 (fun _ => div (kv.2 : R) (total_samples : R))) []

/-- Twelve samples in six classes of two. -/
def sixClassData (R : Type) [LinearOrderedField R] : List (IrisSample R) :=
  [{ features := [0], label := "A" }, { features := [1], label := "A" },
   { features := [0], label := "B" }, { features := [1], label := "B" },
   { features := [0], label := "C" }, { features := [1], label := "C" },
   { features := [0], label := "D" }, { features := [1], label := "D" },
   { features := [0], label := "E" }, { features := [1], label := "E" },
   { features := [0], label := "F" }, { features := [1], label := "F" }]

end NaiveBayes

/-! ## Cross-validation harness (the three copies of `kFoldCrossValidation`) -/

section CrossValidation

variable {R : Type} [LinearOrderedField R] {M : Type}

/-- The loop `for (idx = 0; idx < size; idx++)` that sends `shuffled[idx]` to
`test_data` when `idx >= start && idx < end` and to `train_data` otherwise;
the result is `(train_data, test_data)`. -/
def splitFoldFrom : Nat → List (IrisSample R) → Int → Int →
    List (IrisSample R) × List (IrisSample R)
  | _, [], _, _ => ([], [])
  | idx, x :: rest, start, end_ =>
    let (train_data, test_data) := splitFoldFrom (idx + 1) rest start end_
    if start ≤ (idx : Int) ∧ (idx : Int) < end_ then (train_data, x :: test_data)
    else (x :: train_data, test_data)

/-- The bounds `start` and `end` of fold `i`. -/
def foldBounds (size : Nat) (folds i : Int) : Int × Int :=
  let fold_size := Int.tdiv (size : Int) folds
  (i * fold_size, if i = folds - 1 then (size : Int) else (i + 1) * fold_size)

/-- The pair `(train_data, test_data)` of fold `i`. -/
def foldParts (shuffled : List (IrisSample R)) (folds i : Int) :
    List (IrisSample R) × List (IrisSample R) :=
  splitFoldFrom 0 shuffled (foldBounds shuffled.length folds i).1
    (foldBounds shuffled.length folds i).2

/-- The loop `for (sample : test_data) if (predict(sample) == sample.label) correct++`. -/
def countCorrect (predict : M → IrisSample R → Option String) (model : M) :
    List (IrisSample R) → Option Int
  | [] => some 0
  | sample :: rest =>
    match predict model sample with
    | none => none
    | some pred =>
      match countCorrect predict model rest with
      | none => none
      | some correct => some (if pred = sample.label then correct + 1 else correct)

/-- Body of the fold loop: the accuracy `(double)correct / test_data.size()`
of fold `i`, for a learner given by `fit` (on a fresh object) and `predict`. -/
def foldAccuracy (fit : List (IrisSample R) → Option M)
    (predict : M → IrisSample R → Option String)
    (shuffled : List (IrisSample R)) (folds i : Int) : Option (Dbl R) :=
  let parts := foldParts shuffled folds i
  match fit parts.1 with
  | none => none
  | some model =>
    match countCorrect predict model parts.2 with
    | none => none
    | some correct =>
      some (Dbl.div (Dbl.fin (correct : R)) (Dbl.fin ((parts.2.length : Nat) : R)))

/-- The accumulation `total_accuracy += accuracy` over the folds listed. -/
def sumAccuracies (fit : List (IrisSample R) → Option M)
    (predict : M → IrisSample R → Option String)
    (shuffled : List (IrisSample R)) (folds : Int) : Dbl R → List Nat → Option (Dbl R)
  | total_accuracy, [] => some total_accuracy
  | total_accuracy, i :: rest =>
    match foldAccuracy fit predict shuffled folds (i : Int) with
    | none => none
    | some accuracy =>
      sumAccuracies fit predict shuffled folds (Dbl.add total_accuracy accuracy) rest

/-- Function `kFoldCrossValidation` after the shuffle: `shuffled` is the
permuted copy of the data.  `folds = 0` is an integer division by zero. -/
def kFoldCrossValidation (fit : List (IrisSample R) → Option M)
    (predict : M → IrisSample R → Option String)
    (shuffled : List (IrisSample R)) (folds : Int) : Option (Dbl R) :=
  if folds = 0 then none
  else
    match sumAccuracies fit predict shuffled folds (Dbl.fin 0) (List.range folds.toNat) with
    | none => none
    | some total_accuracy => some (Dbl.div total_accuracy (Dbl.fin (folds : R)))

/-- Nine samples, for five folds. -/
def nineSamples (R : Type) [LinearOrderedField R] : List (IrisSample R) :=
  List.replicate 9 { features := [0], label := "A" }

/-- Specification: the training set and the test set of fold `i` of `folds`.
With `fs = N / folds`, the test set is the block `[i*fs, (i+1)*fs)`, for the
last fold the block `[(folds-1)*fs, N)`; the training set is what remains of
the sequence, in order. -/
def specFold (shuffled : List (IrisSample R)) (folds i : Nat) :
    List (IrisSample R) × List (IrisSample R) :=
  let fs := shuffled.length / folds
  if i + 1 = folds then (shuffled.take (i * fs), shuffled.drop (i * fs))
  else (shuffled.take (i * fs) ++ shuffled.drop ((i + 1) * fs),
    (shuffled.drop (i * fs)).take fs)

/-- Specification: the accuracy `correct / |test|` of a freshly constructed
learner trained on `train` and asked for every sample of `test`. -/
def specAccuracy (fit : List (IrisSample R) → Option M)
    (predict : M → IrisSample R → Option String)
    (train test : List (IrisSample R)) : Option (Dbl R) :=
  match fit train with
  | none => none
  | some model =>
    match countCorrect predict model test with
    | none => none
    | some correct =>
      some (Dbl.div (Dbl.fin (correct : R)) (Dbl.fin ((test.length : Nat) : R)))

/-- Specification: the sum of the accuracies over the listed pairs of a
training set and a test set, in order. -/
def specSum (fit : List (IrisSample R) → Option M)
    (predict : M → IrisSample R → Option String) :
    Dbl R → List (List (IrisSample R) × List (IrisSample R)) → Option (Dbl R)
  | total, [] => some total
  | total, p :: rest =>
    match specAccuracy fit predict p.1 p.2 with
    | none => none
    | some accuracy => specSum fit predict (Dbl.add total accuracy) rest

/-- Specification: the mean, over the folds `0, ..., folds - 1` in this
order, of the accuracy on the test set of the fold of a learner trained on the
training set of the fold. -/
def specCrossValidation (fit : List (IrisSample R) → Option M)
    (predict : M → IrisSample R → Option String)
    (shuffled : List (IrisSample R)) (folds : Nat) : Option (Dbl R) :=
  match specSum fit predict (Dbl.fin 0) ((List.range folds).map (specFold shuffled folds)) with
  | none => none
  | some total => some (Dbl.div total (Dbl.fin (folds : R)))

end CrossValidation

/-! ## Properties of the map model -/

section StdMapProofs

variable {V : Type}

theorem StdMap.mem_update_key (m : StdMap V) (k : String) (f : Option V → V)
    (p : String × V) (hp : p ∈ StdMap.update m k f) : p.1 = k ∨ ∃ q ∈ m, q.1 = p.1 := by
  induction m with
  | nil =>
    simp only [StdMap.update, List.mem_singleton] at hp
    left; rw [hp]
  | cons hd rest ih =>
    obtain ⟨k', v⟩ := hd
    simp only [StdMap.update] at hp
    split at hp
    · rcases List.mem_cons.mp hp with h | h
      · left; rw [h]
      · right; exact ⟨p, h, rfl⟩
    · split at hp
      · rename_i heq
        rcases List.mem_cons.mp hp with h | h
        · left; rw [h]; exact heq.symm
        · right; exact ⟨p, List.mem_cons_of_mem _ h, rfl⟩
      · rcases List.mem_cons.mp hp with h | h
        · right; exact ⟨(k', v), List.mem_cons_self _ _, by rw [h]⟩
        · rcases ih h with h1 | ⟨q, hq, hq1⟩
          · left; exact h1
          · right; exact ⟨q, List.mem_cons_of_mem _ hq, hq1⟩

theorem StdMap.update_sorted (m : StdMap V) (k : String) (f : Option V → V)
    (h : m.Pairwise (fun a b => a.1 < b.1)) :
    (StdMap.update m k f).Pairwise (fun a b => a.1 < b.1) := by
  induction m with
  | nil => simp [StdMap.update]
  | cons hd rest ih =>
    obtain ⟨k', v⟩ := hd
    rw [List.pairwise_cons] at h
    simp only [StdMap.update]
    split
    · rename_i hlt
      refine List.pairwise_cons.mpr ⟨?_, List.pairwise_cons.mpr h⟩
      intro q hq
      rcases List.mem_cons.mp hq with rfl | hq
      · exact hlt
      · exact lt_trans hlt (h.1 q hq)
    · split
      · exact List.pairwise_cons.mpr ⟨h.1, h.2⟩
      · rename_i hnlt hne
        refine List.pairwise_cons.mpr ⟨?_, ih h.2⟩
        intro q hq
        rcases StdMap.mem_update_key rest k f q hq with h1 | ⟨q', hq', hq1⟩
        · rw [h1]
          exact lt_of_le_of_ne (not_lt.mp hnlt) (fun e => hne e.symm)
        · rw [← hq1]; exact h.1 q' hq'

theorem StdMap.find?_eq_none (m : StdMap V) (k : String) (h : ∀ p ∈ m, p.1 ≠ k) :
    StdMap.find? m k = none := by
  induction m with
  | nil => rfl
  | cons hd rest ih =>
    obtain ⟨k', v⟩ := hd
    simp only [StdMap.find?]
    rw [if_neg (h (k', v) (List.mem_cons_self _ _))]
    exact ih (fun p hp => h p (List.mem_cons_of_mem _ hp))

theorem StdMap.find?_update_other (m : StdMap V) (k k2 : String) (f : Option V → V)
    (hne : k2 ≠ k) : StdMap.find? (StdMap.update m k f) k2 = StdMap.find? m k2 := by
  induction m with
  | nil => simp [StdMap.update, StdMap.find?, Ne.symm hne]
  | cons hd rest ih =>
    obtain ⟨k', v⟩ := hd
    simp only [StdMap.update]
    split
    · simp only [StdMap.find?]
      rw [if_neg (Ne.symm hne)]
    · split
      · rename_i heq
        simp only [StdMap.find?]
        rw [if_neg (fun e => hne (by rw [← e, heq])), if_neg (fun e => hne (by rw [← e, heq]))]
      · simp only [StdMap.find?, ih]

theorem StdMap.find?_update_self (m : StdMap V) (k : String) (f : Option V → V)
    (h : m.Pairwise (fun a b => a.1 < b.1)) :
    StdMap.find? (StdMap.update m k f) k = some (f (StdMap.find? m k)) := by
  induction m with
  | nil => simp [StdMap.update, StdMap.find?]
  | cons hd rest ih =>
    obtain ⟨k', v⟩ := hd
    rw [List.pairwise_cons] at h
    simp only [StdMap.update]
    split
    · rename_i hlt
      have hnone : StdMap.find? ((k', v) :: rest) k = none := by
        apply StdMap.find?_eq_none
        intro p hp
        rcases List.mem_cons.mp hp with rfl | hp
        · exact ne_of_gt hlt
        · exact ne_of_gt (lt_trans hlt (h.1 p hp))
      rw [hnone]
      simp [StdMap.find?]
    · split
      · rename_i heq
        simp [StdMap.find?, heq]
      · rename_i hne
        simp only [StdMap.find?]
        rw [if_neg (fun e => hne e.symm), if_neg (fun e => hne e.symm)]
        exact ih h.2

theorem StdMap.mem_iff_find? (m : StdMap V) (k : String) (v : V)
    (h : m.Pairwise (fun a b => a.1 < b.1)) :
    (k, v) ∈ m ↔ StdMap.find? m k = some v := by
  induction m with
  | nil => simp [StdMap.find?]
  | cons hd rest ih =>
    obtain ⟨k', v'⟩ := hd
    rw [List.pairwise_cons] at h
    simp only [StdMap.find?, List.mem_cons, Prod.mk.injEq]
    by_cases hk : k' = k
    · rw [if_pos hk]
      constructor
      · rintro (⟨-, rfl⟩ | hmem)
        · rfl
        · exact absurd (h.1 _ hmem) (by rw [hk]; exact lt_irrefl _)
      · intro hv
        left
        exact ⟨hk.symm, (Option.some.inj hv).symm⟩
    · rw [if_neg hk]
      constructor
      · rintro (⟨rfl, -⟩ | hmem)
        · exact absurd rfl hk
        · exact (ih h.2).mp hmem
      · intro hv
        right
        exact (ih h.2).mpr hv

theorem StdMap.update_of_lt (m : StdMap V) (k : String) (f : Option V → V)
    (h : ∀ p ∈ m, p.1 < k) : StdMap.update m k f = m ++ [(k, f none)] := by
  induction m with
  | nil => rfl
  | cons hd rest ih =>
    obtain ⟨k', v⟩ := hd
    have hlt : k' < k := h (k', v) (List.mem_cons_self _ _)
    simp only [StdMap.update]
    rw [if_neg (not_lt.mpr (le_of_lt hlt)), if_neg (ne_of_gt hlt),
      ih (fun p hp => h p (List.mem_cons_of_mem _ hp))]
    rfl

/-- Storing one value per entry of a key-ordered list, in order, into a map
whose keys are all smaller, appends the entries. -/
theorem StdMap.foldl_update_sorted {α : Type} (key : α → String) (g : α → V) (l : List α)
    (hl : l.Pairwise (fun a b => key a < key b)) (m : StdMap V)
    (hm : ∀ p ∈ m, ∀ a ∈ l, p.1 < key a) :
    l.foldl (fun m a => StdMap.update m (key a) (fun _ => g a)) m =
      m ++ l.map (fun a => (key a, g a)) := by
  induction l generalizing m with
  | nil => simp
  | cons a rest ih =>
    rw [List.pairwise_cons] at hl
    rw [List.foldl_cons,
      StdMap.update_of_lt m (key a) _ (fun p hp => hm p hp a (List.mem_cons_self _ _)),
      ih hl.2]
    · simp
    · intro p hp b hb
      rcases List.mem_append.mp hp with hp | hp
      · exact hm p hp b (List.mem_cons_of_mem _ hb)
      · rw [List.mem_singleton.mp hp]
        exact hl.1 b hb

end StdMapProofs

section CountProofs

theorem countLabels_fold (ls : List String) (m : StdMap Int)
    (h : m.Pairwise (fun a b => a.1 < b.1)) :
    (ls.foldl (fun counts l => StdMap.update counts l (fun c => c.getD 0 + 1)) m).Pairwise
        (fun a b => a.1 < b.1) ∧
    ∀ k, StdMap.find?
        (ls.foldl (fun counts l => StdMap.update counts l (fun c => c.getD 0 + 1)) m) k =
      if ls.count k = 0 then StdMap.find? m k
      else some ((StdMap.find? m k).getD 0 + (ls.count k : Int)) := by
  induction ls generalizing m with
  | nil => exact ⟨h, fun k => by simp⟩
  | cons l ls ih =>
    have hs := StdMap.update_sorted m l (fun c => c.getD 0 + 1) h
    obtain ⟨ih1, ih2⟩ := ih _ hs
    refine ⟨ih1, ?_⟩
    intro k
    rw [List.foldl_cons, ih2 k]
    by_cases hk : k = l
    · subst hk
      rw [StdMap.find?_update_self m k _ h]
      simp only [List.count_cons_self, Option.getD_some]
      by_cases hc : ls.count k = 0
      · simp [hc]
      · simp only [hc, if_false, Nat.add_eq_zero, one_ne_zero, and_false, Option.some.injEq]
        push_cast
        ring
    · rw [StdMap.find?_update_other m l k _ hk]
      have hcount : (l :: ls).count k = ls.count k := by
        rw [List.count_cons]
        simp [Ne.symm hk]
      rw [hcount]

theorem countLabels_sorted (ls : List String) :
    (countLabels ls).Pairwise (fun a b => a.1 < b.1) :=
  (countLabels_fold ls [] List.Pairwise.nil).1

/-- The map built by the counting loop holds exactly the labels that occur,
each with its number of occurrences. -/
theorem mem_countLabels (ls : List String) (k : String) (v : Int) :
    (k, v) ∈ countLabels ls ↔ (k ∈ ls ∧ v = (ls.count k : Int)) := by
  rw [StdMap.mem_iff_find? _ _ _ (countLabels_sorted ls)]
  have h := (countLabels_fold ls [] List.Pairwise.nil).2 k
  unfold countLabels
  rw [h]
  by_cases hc : ls.count k = 0
  · have hk : k ∉ ls := List.count_eq_zero.mp hc
    simp [hc, hk, StdMap.find?]
  · have hk : k ∈ ls := by
      by_contra hk
      exact hc (List.count_eq_zero.mpr hk)
    simp only [hc, if_false, StdMap.find?, Option.getD_none, zero_add, Option.some.injEq, hk,
      true_and]
    exact eq_comm

/-- The selection loop returns the first entry that attains the largest
count, unless no count exceeds the initial `max_count`. -/
theorem bestLabel_fold (m : StdMap Int) (b : Int × String) :
    (m.foldl (fun (best : Int × String) kv =>
        if kv.2 > best.1 then (kv.2, kv.1) else best) b = b ∧ ∀ kv ∈ m, kv.2 ≤ b.1) ∨
    ∃ pre post k v, m = pre ++ (k, v) :: post ∧
      m.foldl (fun (best : Int × String) kv =>
        if kv.2 > best.1 then (kv.2, kv.1) else best) b = (v, k) ∧
      b.1 < v ∧ (∀ kv ∈ pre, kv.2 < v) ∧ (∀ kv ∈ post, kv.2 ≤ v) := by
  induction m generalizing b with
  | nil => left; exact ⟨rfl, fun kv hkv => by simp at hkv⟩
  | cons hd rest ih =>
    rw [List.foldl_cons]
    by_cases hgt : hd.2 > b.1
    · rw [if_pos hgt]
      right
      rcases ih (hd.2, hd.1) with ⟨heq, hall⟩ | ⟨pre, post, k, v, hm, hres, hlt, hpre, hpost⟩
      · exact ⟨[], rest, hd.1, hd.2, rfl, heq, hgt, fun kv hkv => by simp at hkv, hall⟩
      · refine ⟨hd :: pre, post, k, v, by rw [hm]; rfl, hres, lt_trans hgt hlt, ?_, hpost⟩
        intro kv hkv
        rcases List.mem_cons.mp hkv with rfl | hkv
        · exact hlt
        · exact hpre kv hkv
    · rw [if_neg hgt]
      rcases ih b with ⟨heq, hall⟩ | ⟨pre, post, k, v, hm, hres, hlt, hpre, hpost⟩
      · left
        refine ⟨heq, ?_⟩
        intro kv hkv
        rcases List.mem_cons.mp hkv with rfl | hkv
        · exact not_lt.mp hgt
        · exact hall kv hkv
      · right
        refine ⟨hd :: pre, post, k, v, by rw [hm]; rfl, hres, hlt, ?_, hpost⟩
        intro kv hkv
        rcases List.mem_cons.mp hkv with rfl | hkv
        · exact lt_of_le_of_lt (not_lt.mp hgt) hlt
        · exact hpre kv hkv

/-- Majority vote: on a non-empty list of labels, the counting loop followed
by the selection loop returns a label of the list with the highest count, and
the lexicographically smallest one among those with that count. -/
theorem bestLabel_countLabels (ls : List String) (hne : ls ≠ []) :
    bestLabel (countLabels ls) ∈ ls ∧
    (∀ l, ls.count l ≤ ls.count (bestLabel (countLabels ls))) ∧
    (∀ l, ls.count l = ls.count (bestLabel (countLabels ls)) →
      bestLabel (countLabels ls) ≤ l) := by
  have hsorted := countLabels_sorted ls
  obtain ⟨l0, hl0⟩ := List.exists_mem_of_ne_nil ls hne
  have hmem0 : (l0, (ls.count l0 : Int)) ∈ countLabels ls :=
    (mem_countLabels ls l0 _).mpr ⟨hl0, rfl⟩
  rcases bestLabel_fold (countLabels ls) (-1, "") with
    ⟨-, hall⟩ | ⟨pre, post, k, v, hm, hres, -, hpre, hpost⟩
  · have := hall _ hmem0
    simp only at this
    omega
  · have hb : bestLabel (countLabels ls) = k := by
      unfold bestLabel
      rw [hres]
    have hkv : (k, v) ∈ countLabels ls := by
      rw [hm]; exact List.mem_append_right _ (List.mem_cons_self _ _)
    obtain ⟨hk, hv⟩ := (mem_countLabels ls k v).mp hkv
    rw [hb]
    have hle : ∀ l, l ∈ ls → ((ls.count l : Int) ≤ v ∧ ((ls.count l : Int) = v → k ≤ l)) := by
      intro l hl
      have hlm : (l, (ls.count l : Int)) ∈ countLabels ls :=
        (mem_countLabels ls l _).mpr ⟨hl, rfl⟩
      rw [hm] at hlm hsorted
      rcases List.mem_append.mp hlm with hin | hin
      · have := hpre _ hin
        simp only at this
        exact ⟨le_of_lt this, fun e => absurd e (ne_of_lt this)⟩
      · rcases List.mem_cons.mp hin with heq | hin
        · simp only [Prod.mk.injEq] at heq
          exact ⟨le_of_eq heq.2, fun _ => le_of_eq heq.1.symm⟩
        · have h1 := hpost _ hin
          have h2 := (List.pairwise_cons.mp (List.pairwise_append.mp hsorted).2.1).1 _ hin
          exact ⟨h1, fun _ => le_of_lt h2⟩
    refine ⟨hk, ?_, ?_⟩
    · intro l
      by_cases hl : l ∈ ls
      · have := (hle l hl).1
        rw [hv] at this
        exact_mod_cast this
      · rw [List.count_eq_zero.mpr hl]
        exact Nat.zero_le _
    · intro l hcount
      have hpos : 0 < ls.count k := List.count_pos_iff.mpr hk
      have hl : l ∈ ls := by
        apply List.count_pos_iff.mp
        omega
      apply (hle l hl).2
      rw [hv, hcount]

end CountProofs

/-! ## Properties of naive Bayes -/

section GroupProofs

variable {R : Type}

theorem groupByLabel_fold (data : List (IrisSample R)) (m : StdMap (List (List R)))
    (h : m.Pairwise (fun a b => a.1 < b.1)) :
    (data.foldl (fun class_data sample => StdMap.update class_data sample.label
        (fun o => o.getD [] ++ [sample.features])) m).Pairwise (fun a b => a.1 < b.1) ∧
    ∀ c, StdMap.find? (data.foldl (fun class_data sample =>
        StdMap.update class_data sample.label
          (fun o => o.getD [] ++ [sample.features])) m) c =
      if (data.filter (fun s => decide (s.label = c))).isEmpty then StdMap.find? m c
      else some ((StdMap.find? m c).getD [] ++
        (data.filter (fun s => decide (s.label = c))).map (fun s => s.features)) := by
  induction data generalizing m with
  | nil => exact ⟨h, fun c => by simp⟩
  | cons s rest ih =>
    have hs := StdMap.update_sorted m s.label (fun o => o.getD [] ++ [s.features]) h
    obtain ⟨ih1, ih2⟩ := ih _ hs
    refine ⟨ih1, ?_⟩
    intro c
    rw [List.foldl_cons, ih2 c]
    by_cases hc : c = s.label
    · subst hc
      rw [StdMap.find?_update_self m _ _ h]
      have hf : (s :: rest).filter (fun t => decide (t.label = s.label)) =
          s :: rest.filter (fun t => decide (t.label = s.label)) := by
        simp [List.filter_cons]
      rw [hf]
      cases hr : rest.filter (fun t => decide (t.label = s.label)) with
      | nil => simp
      | cons x xs => simp
    · rw [StdMap.find?_update_other m _ _ _ hc]
      have hf : (s :: rest).filter (fun t => decide (t.label = c)) =
          rest.filter (fun t => decide (t.label = c)) := by
        simp [List.filter_cons, Ne.symm hc]
      rw [hf]

theorem groupByLabel_sorted (data : List (IrisSample R)) :
    (groupByLabel data).Pairwise (fun a b => a.1 < b.1) :=
  (groupByLabel_fold data [] List.Pairwise.nil).1

/-- The first loop of `fit` groups the feature vectors by label: the entry of
`c` holds the features of the samples labelled `c`, in order, and only labels
that occur have an entry. -/
theorem mem_groupByLabel (data : List (IrisSample R)) (c : String) (g : List (List R)) :
    (c, g) ∈ groupByLabel data ↔
      (g = (data.filter (fun s => decide (s.label = c))).map (fun s => s.features) ∧
        g ≠ []) := by
  rw [StdMap.mem_iff_find? _ _ _ (groupByLabel_sorted data)]
  have h := (groupByLabel_fold data [] List.Pairwise.nil).2 c
  unfold groupByLabel
  rw [h]
  cases hf : data.filter (fun s => decide (s.label = c)) with
  | nil =>
    simp only [List.isEmpty_nil, if_true, StdMap.find?, List.map_nil]
    constructor
    · intro h0; exact absurd h0 (by simp)
    · rintro ⟨rfl, h1⟩; exact absurd rfl h1
  | cons x xs =>
    simp only [List.isEmpty_cons, Bool.false_eq_true, if_false, StdMap.find?,
      Option.getD_none, List.nil_append, Option.some.injEq, List.map_cons]
    constructor
    · intro h0
      exact ⟨h0.symm, by rw [← h0]; simp⟩
    · rintro ⟨h0, -⟩; exact h0.symm

theorem sum_length_update {α : Type} (m : StdMap (List α)) (k : String) (x : α) :
    ((StdMap.update m k (fun o => o.getD [] ++ [x])).map (fun kv => kv.2.length)).sum =
      (m.map (fun kv => kv.2.length)).sum + 1 := by
  induction m with
  | nil => simp [StdMap.update]
  | cons hd rest ih =>
    obtain ⟨k', v⟩ := hd
    simp only [StdMap.update]
    split
    · simp
      omega
    · split
      · simp
        omega
      · simp only [List.map_cons, List.sum_cons, ih]
        omega

/-- The groups partition the dataset: their sizes add up to its size. -/
theorem sum_length_groupByLabel (data : List (IrisSample R)) :
    ((groupByLabel data).map (fun kv => kv.2.length)).sum = data.length := by
  have key : ∀ (d : List (IrisSample R)) (m : StdMap (List (List R))),
      ((d.foldl (fun class_data sample => StdMap.update class_data sample.label
        (fun o => o.getD [] ++ [sample.features])) m).map (fun kv => kv.2.length)).sum =
      (m.map (fun kv => kv.2.length)).sum + d.length := by
    intro d
    induction d with
    | nil => intro m; simp
    | cons s rest ih =>
      intro m
      rw [List.foldl_cons, ih, sum_length_update, List.length_cons]
      omega
  have := key data []
  simpa [groupByLabel] using this

end GroupProofs

/-! ## Properties of IEEE-754 arithmetic -/

section DoubleArithmeticProofs

theorem int_log_two_eq (q : ℚ) (e : ℤ) (h1 : (2 : ℚ) ^ e ≤ q) (h2 : q < (2 : ℚ) ^ (e + 1)) :
    Int.log 2 q = e := by
  have hq : 0 < q := lt_of_lt_of_le (by positivity) h1
  apply le_antisymm
  · have := (Int.lt_zpow_iff_log_lt (b := 2) (by norm_num) hq (x := e + 1)).mp
      (by exact_mod_cast h2)
    omega
  · exact (Int.zpow_le_iff_le_log (b := 2) (by norm_num) hq).mp (by exact_mod_cast h1)

/-- Rounding in the normal range: `2^e <= |q| < 2^(e+1)` with `e >= -1022`. -/
theorem roundDouble_normal (q : ℚ) (e : ℤ) (h1 : (2 : ℚ) ^ e ≤ |q|)
    (h2 : |q| < (2 : ℚ) ^ (e + 1)) (he : -1022 ≤ e) :
    roundDouble q = (roundHalfEven (q / 2 ^ (e - 52)) : ℚ) * 2 ^ (e - 52) := by
  simp only [roundDouble, int_log_two_eq _ e h1 h2, max_eq_left he]

theorem roundDouble_zero : roundDouble 0 = 0 := by
  simp [roundDouble, roundHalfEven]

/-- Rounding in the subnormal range: `|q| < 2^-1022`. -/
theorem roundDouble_subnormal (q : ℚ) (h : |q| < (2 : ℚ) ^ (-1022 : ℤ)) :
    roundDouble q = (roundHalfEven (q / 2 ^ (-1074 : ℤ)) : ℚ) * 2 ^ (-1074 : ℤ) := by
  rcases eq_or_lt_of_le (abs_nonneg q) with h0 | hpos
  · have hq : q = 0 := abs_eq_zero.mp h0.symm
    rw [hq, roundDouble_zero]
    simp [roundHalfEven]
  · have hlog : Int.log 2 |q| ≤ -1022 := by
      have := (Int.lt_zpow_iff_log_lt (b := 2) (by norm_num) hpos (x := -1022)).mp
        (by exact_mod_cast h)
      omega
    simp only [roundDouble, max_eq_right hlog]
    norm_num

theorem roundDouble_one : roundDouble 1 = 1 := by
  rw [roundDouble_normal 1 0 (by norm_num) (by norm_num) (by decide)]
  norm_num [roundHalfEven]

theorem roundHalfEven_nonneg (x : ℚ) (h : 0 ≤ x) : 0 ≤ roundHalfEven x := by
  have hf : 0 ≤ ⌊x⌋ := Int.floor_nonneg.mpr h
  simp only [roundHalfEven]
  split
  · exact hf
  · split
    · omega
    · split
      · exact hf
      · omega

theorem roundDouble_nonneg (q : ℚ) (h : 0 ≤ q) : 0 ≤ roundDouble q := by
  simp only [roundDouble]
  apply mul_nonneg
  · exact_mod_cast roundHalfEven_nonneg _ (div_nonneg h (by positivity))
  · positivity

theorem sqrtDouble_nonneg (q : ℚ) : 0 ≤ sqrtDouble q := by
  simp only [sqrtDouble]
  split
  · exact le_refl _
  · split
    · exact roundDouble_nonneg _ (by positivity)
    · exact roundDouble_nonneg _ (by positivity)

theorem sqrtDouble_zero : sqrtDouble 0 = 0 := by
  simp [sqrtDouble]

theorem sqrtDouble_one : sqrtDouble 1 = 1 := by
  have hs : Nat.sqrt (4 ^ 64) = 2 ^ 64 := by
    have : (4 : Nat) ^ 64 = (2 ^ 64) ^ 2 := by norm_num
    rw [this, Nat.sqrt_eq']
  have hfl : ⌊(1 : ℚ) * 4 ^ (64 + lgFuel (1 : ℚ).den (1 : ℚ).den)⌋.toNat = 4 ^ 64 := by
    have : lgFuel (1 : ℚ).den (1 : ℚ).den = 0 := rfl
    rw [this]
    norm_num
    rfl
  have hk : lgFuel (1 : ℚ).den (1 : ℚ).den = 0 := rfl
  simp only [sqrtDouble, hfl, hs]
  rw [hk]
  norm_num [roundDouble_one]

/-- The facts about zero hold of IEEE-754 arithmetic. -/
theorem ieee754_zeroSound : ieee754.ZeroSound := by
  refine ⟨fun x => ?_, ?_, ?_, sqrtDouble_zero, sqrtDouble_nonneg⟩
  · simp [ieee754, roundDouble_zero]
  · simp [ieee754, roundDouble_zero]
  · simp [ieee754, roundDouble_zero]

/-- Rounding of a positive number in the normal range. -/
theorem roundDouble_pos (q : ℚ) (e : ℤ) (h1 : (2 : ℚ) ^ e ≤ q)
    (h2 : q < (2 : ℚ) ^ (e + 1)) (he : -1022 ≤ e) :
    roundDouble q = (roundHalfEven (q / 2 ^ (e - 52)) : ℚ) * 2 ^ (e - 52) := by
  have hq : 0 < q := lt_of_lt_of_le (by positivity) h1
  exact roundDouble_normal q e (by rwa [abs_of_pos hq]) (by rwa [abs_of_pos hq]) he

theorem ieee754_add (a b : ℚ) : ieee754.add a b = roundDouble (a + b) := rfl

theorem ieee754_sub (a b : ℚ) : ieee754.sub a b = roundDouble (a - b) := rfl

theorem ieee754_mul (a b : ℚ) : ieee754.mul a b = roundDouble (a * b) := rfl

theorem ieee754_div (a b : ℚ) : ieee754.div a b = roundDouble (a / b) := rfl

theorem ieee754_sqrt (a : ℚ) : ieee754.sqrt a = sqrtDouble a := rfl

theorem floor_le_roundHalfEven (x : ℚ) : ⌊x⌋ ≤ roundHalfEven x := by
  simp only [roundHalfEven]
  split
  · exact le_refl _
  · split
    · omega
    · split
      · exact le_refl _
      · omega

theorem roundHalfEven_le (x : ℚ) (N : ℤ) (h : x ≤ (N : ℚ)) : roundHalfEven x ≤ N := by
  have hf : ⌊x⌋ ≤ N := Int.floor_le_floor h |>.trans (by simp)
  rcases eq_or_lt_of_le hf with heq | hlt
  · have hx : x - (⌊x⌋ : ℚ) < 1 / 2 := by
      rw [heq]
      have : x - (N : ℚ) ≤ 0 := by linarith
      linarith
    simp only [roundHalfEven, hx, if_true]
    exact hf
  · simp only [roundHalfEven]
    split
    · exact hf
    · split
      · omega
      · split
        · exact hf
        · omega

/-- The rounded quotient of two sizes `0 < a <= b < 2^31` is in `(0, 1]`. -/
theorem roundDouble_quotient_bounds (a b : Nat) (ha : 0 < a) (hab : a ≤ b)
    (hb : b < 2 ^ 31) :
    0 < roundDouble ((a : ℚ) / (b : ℚ)) ∧ roundDouble ((a : ℚ) / (b : ℚ)) ≤ 1 := by
  have hbpos : (0 : ℚ) < (b : ℚ) := by exact_mod_cast (by omega : 0 < b)
  have hapos : (0 : ℚ) < (a : ℚ) := by exact_mod_cast ha
  have hx : (0 : ℚ) < (a : ℚ) / (b : ℚ) := div_pos hapos hbpos
  have hx1 : (a : ℚ) / (b : ℚ) ≤ 1 := by
    rw [div_le_one hbpos]
    exact_mod_cast hab
  have hxlow : (2 : ℚ) ^ (-31 : ℤ) < (a : ℚ) / (b : ℚ) := by
    rw [lt_div_iff₀ hbpos]
    have h1 : ((b : ℚ)) < 2 ^ 31 := by exact_mod_cast hb
    have h2 : (1 : ℚ) ≤ (a : ℚ) := by exact_mod_cast ha
    have h3 : (2 : ℚ) ^ (-31 : ℤ) * 2 ^ 31 = 1 := by norm_num
    nlinarith
  have hlog1 := Int.zpow_log_le_self (b := 2) (by norm_num) hx
  have hlog2 := Int.lt_zpow_succ_log_self (b := 2) (by norm_num) ((a : ℚ) / (b : ℚ))
  have he0 : Int.log 2 ((a : ℚ) / (b : ℚ)) ≤ 0 := by
    by_contra hcon
    have h1 : (1 : ℤ) ≤ Int.log 2 ((a : ℚ) / (b : ℚ)) := by omega
    have h2 : ((2 : ℕ) : ℚ) ^ (1 : ℤ) ≤ ((2 : ℕ) : ℚ) ^ Int.log 2 ((a : ℚ) / (b : ℚ)) :=
      zpow_le_zpow_right₀ (by norm_num) h1
    have h3 : ((2 : ℕ) : ℚ) ^ (1 : ℤ) = 2 := by norm_num
    linarith
  have he31 : -31 ≤ Int.log 2 ((a : ℚ) / (b : ℚ)) := by
    by_contra hcon
    have h1 : Int.log 2 ((a : ℚ) / (b : ℚ)) + 1 ≤ -31 := by omega
    have h2 : ((2 : ℕ) : ℚ) ^ (Int.log 2 ((a : ℚ) / (b : ℚ)) + 1) ≤
        ((2 : ℕ) : ℚ) ^ (-31 : ℤ) := zpow_le_zpow_right₀ (by norm_num) h1
    have h3 : ((2 : ℕ) : ℚ) ^ (-31 : ℤ) = (2 : ℚ) ^ (-31 : ℤ) := by norm_num
    linarith
  generalize he : Int.log 2 ((a : ℚ) / (b : ℚ)) = e at hlog1 hlog2 he0 he31
  have hmax : max e (-1022) = e := max_eq_left (by omega)
  have hu : (0 : ℚ) < 2 ^ (e - 52) := by positivity
  simp only [roundDouble, abs_of_pos hx, he, hmax]
  have hcast : ((2 : ℕ) : ℚ) = 2 := by norm_num
  rw [hcast] at hlog1 hlog2
  constructor
  · apply mul_pos _ hu
    have h52 : (1 : ℚ) ≤ (a : ℚ) / (b : ℚ) / 2 ^ (e - 52) := by
      rw [le_div_iff₀ hu, one_mul]
      have : (2 : ℚ) ^ (e - 52) ≤ 2 ^ e := zpow_le_zpow_right₀ (by norm_num) (by omega)
      linarith
    have hfl : (1 : ℤ) ≤ ⌊(a : ℚ) / (b : ℚ) / 2 ^ (e - 52)⌋ := Int.le_floor.mpr (by simpa using h52)
    have := floor_le_roundHalfEven ((a : ℚ) / (b : ℚ) / 2 ^ (e - 52))
    exact_mod_cast (by omega : (0 : ℤ) < roundHalfEven ((a : ℚ) / (b : ℚ) / 2 ^ (e - 52)))
  · have hN : ((2 : ℤ) ^ (52 - e).toNat : ℤ) = (2 : ℤ) ^ (52 - e).toNat := rfl
    have hNq : (((2 : ℤ) ^ (52 - e).toNat : ℤ) : ℚ) = (2 : ℚ) ^ (52 - e) := by
      push_cast
      rw [← zpow_natCast, Int.toNat_of_nonneg (by omega)]
    have hle : (a : ℚ) / (b : ℚ) / 2 ^ (e - 52) ≤ (((2 : ℤ) ^ (52 - e).toNat : ℤ) : ℚ) := by
      rw [hNq, div_le_iff₀ hu, ← zpow_add₀ (by norm_num : (2 : ℚ) ≠ 0)]
      have : 52 - e + (e - 52) = 0 := by ring
      rw [this, zpow_zero]
      exact hx1
    have hr := roundHalfEven_le _ _ hle
    have hrq : (roundHalfEven ((a : ℚ) / (b : ℚ) / 2 ^ (e - 52)) : ℚ) ≤ (2 : ℚ) ^ (52 - e) := by
      rw [← hNq]
      exact_mod_cast hr
    calc (roundHalfEven ((a : ℚ) / (b : ℚ) / 2 ^ (e - 52)) : ℚ) * 2 ^ (e - 52)
        ≤ (2 : ℚ) ^ (52 - e) * 2 ^ (e - 52) := mul_le_mul_of_nonneg_right hrq hu.le
      _ = 1 := by
        rw [← zpow_add₀ (by norm_num : (2 : ℚ) ≠ 0)]
        have : 52 - e + (e - 52) = 0 := by ring
        rw [this, zpow_zero]

theorem roundDouble_nonpos (q : ℚ) (h : q ≤ 0) : roundDouble q ≤ 0 := by
  simp only [roundDouble]
  apply mul_nonpos_of_nonpos_of_nonneg
  · have h0 : q / 2 ^ (max (Int.log 2 |q|) (-1022) - 52) ≤ ((0 : ℤ) : ℚ) := by
      rw [Int.cast_zero]
      exact div_nonpos_of_nonpos_of_nonneg h (by positivity)
    exact_mod_cast roundHalfEven_le _ 0 h0
  · positivity

/-- Rounding a negative number in the normal range. -/
theorem roundDouble_negative (q : ℚ) (e : ℤ) (h1 : (2 : ℚ) ^ e ≤ -q)
    (h2 : -q < (2 : ℚ) ^ (e + 1)) (he : -1022 ≤ e) :
    roundDouble q = (roundHalfEven (q / 2 ^ (e - 52)) : ℚ) * 2 ^ (e - 52) := by
  have hq : q < 0 := by
    have : (0 : ℚ) < 2 ^ e := by positivity
    linarith
  exact roundDouble_normal q e (by rwa [abs_of_neg hq]) (by rwa [abs_of_neg hq]) he

/-- The natural logarithm of `2` to twenty digits. -/
theorem log_two_bounds :
    (51145234580810622638 / 2 ^ 66 : ℝ) < Real.log 2 ∧
      Real.log 2 < (51145234580810622641 / 2 ^ 66 : ℝ) := by
  have hx : |(1 / 2 : ℝ)| < 1 := by rw [abs_of_pos (by norm_num)]; norm_num
  have h := Real.abs_log_sub_add_sum_range_le hx 70
  have hl : Real.log (1 - 1 / 2) = -Real.log 2 := by
    rw [show (1 - 1 / 2 : ℝ) = 2⁻¹ by norm_num, Real.log_inv]
  rw [hl, abs_of_pos (by norm_num : (0 : ℝ) < 1 / 2), abs_le] at h
  obtain ⟨h1, h2⟩ := h
  simp only [Finset.sum_range_succ, Finset.sum_range_zero] at h1 h2
  constructor
  · norm_num at h2 ⊢
    linarith
  · norm_num at h1 ⊢
    linarith

/-- The natural logarithm of `11/8` to twenty digits. -/
theorem log_eleven_eighths_bounds :
    (23497737909046093775 / 2 ^ 66 : ℝ) < Real.log (11 / 8) ∧
      Real.log (11 / 8) < (23497737909046093778 / 2 ^ 66 : ℝ) := by
  have hx : |(3 / 11 : ℝ)| < 1 := by rw [abs_of_pos (by norm_num)]; norm_num
  have h := Real.abs_log_sub_add_sum_range_le hx 40
  have hl : Real.log (1 - 3 / 11) = -Real.log (11 / 8) := by
    rw [show (1 - 3 / 11 : ℝ) = (11 / 8)⁻¹ by norm_num, Real.log_inv]
  rw [hl, abs_of_pos (by norm_num : (0 : ℝ) < 3 / 11), abs_le] at h
  obtain ⟨h1, h2⟩ := h
  simp only [Finset.sum_range_succ, Finset.sum_range_zero] at h1 h2
  constructor
  · norm_num at h2 ⊢
    linarith
  · norm_num at h1 ⊢
    linarith

theorem log_eleven_eq : Real.log 11 = 3 * Real.log 2 + Real.log (11 / 8) := by
  have h : (11 : ℝ) = 2 ^ 3 * (11 / 8) := by norm_num
  rw [h, Real.log_mul (by norm_num) (by norm_num), Real.log_pow]
  norm_num

/-- The double `3894973737152161 / 2^50` exceeds the binary logarithm of
`11`. -/
theorem logb_two_eleven_lt : Real.logb 2 11 < (3894973737152161 / 2 ^ 50 : ℝ) := by
  obtain ⟨ha, -⟩ := log_two_bounds
  obtain ⟨-, hb⟩ := log_eleven_eighths_bounds
  have hl2 : 0 < Real.log 2 := Real.log_pos (by norm_num)
  rw [Real.logb, div_lt_iff₀ hl2, log_eleven_eq]
  norm_num at ha hb ⊢
  linarith

/-- The double `-3894973737152161 / 2^50` is within half a unit in the last
place, `2^-52`, of the binary logarithm of the double nearest to `1/11`. -/
theorem logb_two_rounded_eleventh :
    |(-3894973737152161 / 2 ^ 50 : ℝ) - Real.logb 2 (3275345183542179 / 2 ^ 55)| <
      1 / 2 ^ 52 := by
  obtain ⟨ha1, ha2⟩ := log_two_bounds
  obtain ⟨hb1, hb2⟩ := log_eleven_eighths_bounds
  have hl2 : 0 < Real.log 2 := Real.log_pos (by norm_num)
  have hP : (3275345183542179 / 2 ^ 55 : ℝ) = (1 + 1 / 2 ^ 55) / 11 := by norm_num
  have hc1 : Real.log (1 + 1 / 2 ^ 55) ≤ 1 / 2 ^ 55 := by
    have := Real.log_le_sub_one_of_pos (by positivity : (0 : ℝ) < 1 + 1 / 2 ^ 55)
    linarith
  have hc2 : 1 - (1 + 1 / 2 ^ 55 : ℝ)⁻¹ ≤ Real.log (1 + 1 / 2 ^ 55) :=
    Real.one_sub_inv_le_log_of_pos (by positivity)
  have hlog : Real.log (3275345183542179 / 2 ^ 55) =
      Real.log (1 + 1 / 2 ^ 55) - (3 * Real.log 2 + Real.log (11 / 8)) := by
    rw [hP, Real.log_div (by positivity) (by norm_num), log_eleven_eq]
  have h1 : Real.logb 2 (3275345183542179 / 2 ^ 55) <
      -3894973737152161 / 2 ^ 50 + 1 / 2 ^ 52 := by
    rw [Real.logb, div_lt_iff₀ hl2, hlog]
    norm_num at ha1 ha2 hb1 hb2 hc1 hc2 ⊢
    linarith
  have h2 : (-3894973737152161 / 2 ^ 50 : ℝ) - 1 / 2 ^ 52 <
      Real.logb 2 (3275345183542179 / 2 ^ 55) := by
    rw [Real.logb, lt_div_iff₀ hl2, hlog]
    norm_num at ha1 ha2 hb1 hb2 hc1 hc2 ⊢
    linarith
  rw [abs_lt]
  constructor <;> linarith

/-- The binary logarithm of the double nearest to `1/11` lies strictly between
the consecutive doubles `-7789947474304322 / 2^51` and
`-7789947474304321 / 2^51`. -/
theorem logb_two_rounded_eleventh_between :
    (-3894973737152161 / 2 ^ 50 : ℝ) < Real.logb 2 (3275345183542179 / 2 ^ 55) ∧
      Real.logb 2 (3275345183542179 / 2 ^ 55) < (-7789947474304321 / 2 ^ 51 : ℝ) := by
  obtain ⟨ha1, ha2⟩ := log_two_bounds
  obtain ⟨hb1, hb2⟩ := log_eleven_eighths_bounds
  have hl2 : 0 < Real.log 2 := Real.log_pos (by norm_num)
  have hP : (3275345183542179 / 2 ^ 55 : ℝ) = (1 + 1 / 2 ^ 55) / 11 := by norm_num
  have hc1 : Real.log (1 + 1 / 2 ^ 55) ≤ 1 / 2 ^ 55 := by
    have := Real.log_le_sub_one_of_pos (by positivity : (0 : ℝ) < 1 + 1 / 2 ^ 55)
    linarith
  have hc2 : 1 - (1 + 1 / 2 ^ 55 : ℝ)⁻¹ ≤ Real.log (1 + 1 / 2 ^ 55) :=
    Real.one_sub_inv_le_log_of_pos (by positivity)
  have hlog : Real.log (3275345183542179 / 2 ^ 55) =
      Real.log (1 + 1 / 2 ^ 55) - (3 * Real.log 2 + Real.log (11 / 8)) := by
    rw [hP, Real.log_div (by positivity) (by norm_num), log_eleven_eq]
  constructor
  · rw [Real.logb, lt_div_iff₀ hl2, hlog]
    norm_num at ha1 ha2 hb1 hb2 hc1 hc2 ⊢
    linarith
  · rw [Real.logb, div_lt_iff₀ hl2, hlog]
    norm_num at ha1 ha2 hb1 hb2 hc1 hc2 ⊢
    linarith

end DoubleArithmeticProofs

section NaiveBayesProofs

variable {R : Type} [LinearOrderedField R]

theorem columnSum_isSome (acc : Dbl R) (samples : List (List R)) (i : Nat)
    (h : ∀ fv ∈ samples, i < fv.length) : ∃ r, columnSum acc samples i = some r := by
  induction samples generalizing acc with
  | nil => exact ⟨acc, rfl⟩
  | cons fv rest ih =>
    have hi := h fv (List.mem_cons_self _ _)
    simp only [columnSum, List.getElem?_eq_getElem hi]
    exact ih _ (fun fv' hfv => h fv' (List.mem_cons_of_mem _ hfv))

theorem sumSqDev_isSome (acc : Dbl R) (samples : List (List R)) (i : Nat) (mean : Dbl R)
    (h : ∀ fv ∈ samples, i < fv.length) : ∃ r, sumSqDev acc samples i mean = some r := by
  induction samples generalizing acc with
  | nil => exact ⟨acc, rfl⟩
  | cons fv rest ih =>
    have hi := h fv (List.mem_cons_self _ _)
    simp only [sumSqDev, List.getElem?_eq_getElem hi]
    exact ih _ (fun fv' hfv => h fv' (List.mem_cons_of_mem _ hfv))

theorem featureStats_isSome (samples : List (List R)) (n : Int) (i : Nat)
    (h : ∀ fv ∈ samples, i < fv.length) : ∃ r, featureStats samples n i = some r := by
  obtain ⟨sum, hsum⟩ := columnSum_isSome (Dbl.fin 0) samples i h
  obtain ⟨sq, hsq⟩ := sumSqDev_isSome (Dbl.fin 0) samples i
    (Dbl.div sum (Dbl.fin (n : R))) h
  simp only [featureStats, hsum, hsq]
  split
  · exact ⟨_, rfl⟩
  · exact ⟨_, rfl⟩

theorem allSome_map_isSome {α β : Type} (l : List α) (f : α → Option β)
    (h : ∀ a ∈ l, ∃ r, f a = some r) : ∃ rs, allSome (l.map f) = some rs := by
  induction l with
  | nil => exact ⟨[], rfl⟩
  | cons a rest ih =>
    obtain ⟨r, hr⟩ := h a (List.mem_cons_self _ _)
    obtain ⟨rs, hrs⟩ := ih (fun b hb => h b (List.mem_cons_of_mem _ hb))
    exact ⟨r :: rs, by simp only [List.map_cons, hr, allSome, hrs]⟩

theorem classStats_isSome (samples : List (List R)) (feature_count : Nat)
    (h : ∀ fv ∈ samples, feature_count ≤ fv.length) :
    ∃ cs, classStats samples feature_count = some cs := by
  obtain ⟨rs, hrs⟩ := allSome_map_isSome (List.range feature_count)
    (featureStats samples (samples.length : Int))
    (fun i hi => featureStats_isSome samples _ i
      (fun fv hfv => lt_of_lt_of_le (List.mem_range.mp hi) (h fv hfv)))
  refine ⟨{ means := rs.map (fun p => p.1), variances := rs.map (fun p => p.2) }, ?_⟩
  simp only [classStats, hrs]

/-- When the statistics of every class can be computed, the second loop of
`fit` stores them, and the class sizes, under the class labels. -/
theorem fitClasses_eq (l : StdMap (List (List R))) (feature_count : Nat)
    (class_stats : StdMap (ClassStats R)) (class_counts : StdMap Int)
    (hok : ∀ kv ∈ l, ∃ cs, classStats kv.2 feature_count = some cs) :
    fitClasses l feature_count (class_stats, class_counts) =
      some (l.foldl (fun m kv => StdMap.update m kv.1
              (fun _ => (classStats kv.2 feature_count).getD { means := [], variances := [] }))
              class_stats,
            l.foldl (fun m kv => StdMap.update m kv.1 (fun _ => (kv.2.length : Int)))
              class_counts) := by
  induction l generalizing class_stats class_counts with
  | nil => rfl
  | cons hd rest ih =>
    obtain ⟨c, samples⟩ := hd
    obtain ⟨cs, hcs⟩ := hok (c, samples) (List.mem_cons_self _ _)
    simp only at hcs
    simp only [fitClasses, hcs, List.foldl_cons, Option.getD_some]
    exact ih _ _ (fun kv hkv => hok kv (List.mem_cons_of_mem _ hkv))

/-- The state of a freshly constructed learner after `fit` on a non-empty
dataset whose samples have one arity: one entry per observed label, in label
order, holding the statistics, the size and the relative frequency of the
class. -/
theorem fit_new_eq (data : List (IrisSample R)) (hne : data ≠ [])
    (harity : ∀ a ∈ data, ∀ b ∈ data, a.features.length = b.features.length) :
    ∃ feature_count, (∀ a ∈ data, a.features.length = feature_count) ∧
    NaiveBayes.fit NaiveBayes.new data =
      some { class_stats := (groupByLabel data).map (fun kv =>
               (kv.1, (classStats kv.2 feature_count).getD { means := [], variances := [] })),
             class_counts := (groupByLabel data).map (fun kv => (kv.1, (kv.2.length : Int))),
             class_priors := (groupByLabel data).map (fun kv =>
               (kv.1, Dbl.fin ((kv.2.length : R) / (data.length : R)))) } := by
  cases data with
  | nil => exact absurd rfl hne
  | cons d0 rest =>
    refine ⟨d0.features.length, fun a ha => harity a ha d0 (List.mem_cons_self _ _), ?_⟩
    have hok : ∀ kv ∈ groupByLabel (d0 :: rest),
        ∃ cs, classStats kv.2 d0.features.length = some cs := by
      intro kv hkv
      apply classStats_isSome
      intro fv hfv
      obtain ⟨hg, -⟩ := (mem_groupByLabel (d0 :: rest) kv.1 kv.2).mp hkv
      rw [hg] at hfv
      obtain ⟨t, ht, rfl⟩ := List.mem_map.mp hfv
      exact le_of_eq (harity d0 (List.mem_cons_self _ _) t (List.mem_of_mem_filter ht))
    have hsorted := groupByLabel_sorted (d0 :: rest)
    have hlen : ((d0 :: rest).length : R) ≠ 0 := by
      simp only [List.length_cons, Nat.cast_add, Nat.cast_one]
      positivity
    have h1 := StdMap.foldl_update_sorted (fun kv : String × List (List R) => kv.1)
      (fun kv => (classStats kv.2 d0.features.length).getD { means := [], variances := [] })
      (groupByLabel (d0 :: rest)) hsorted [] (by simp)
    have h2 := StdMap.foldl_update_sorted (fun kv : String × List (List R) => kv.1)
      (fun kv => (kv.2.length : Int)) (groupByLabel (d0 :: rest)) hsorted [] (by simp)
    have hs2 : ((groupByLabel (d0 :: rest)).map (fun kv => (kv.1, (kv.2.length : Int)))).Pairwise
        (fun a b => a.1 < b.1) := by
      rw [List.pairwise_map]
      exact hsorted
    have h3 := StdMap.foldl_update_sorted (fun kv : String × Int => kv.1)
      (fun kv => Dbl.div (Dbl.fin (kv.2 : R)) (Dbl.fin (((d0 :: rest).length : Int) : R)))
      ((groupByLabel (d0 :: rest)).map (fun kv => (kv.1, (kv.2.length : Int)))) hs2 []
      (by simp)
    simp only [List.nil_append] at h1 h2 h3
    simp only [NaiveBayes.fit, NaiveBayes.new, fitClasses_eq _ _ _ _ hok, h1, h2, h3]
    simp only [List.map_map, Option.some.injEq, NaiveBayes.mk.injEq, true_and]
    apply List.map_congr_left
    intro kv _
    simp only [Function.comp_apply, Dbl.div, Int.cast_natCast]
    rw [if_neg hlen]

theorem foldl_add_fin (l : List R) (a : R) :
    (l.map Dbl.fin).foldl Dbl.add (Dbl.fin a) = Dbl.fin (a + l.sum) := by
  induction l generalizing a with
  | nil => simp
  | cons x rest ih =>
    simp only [List.map_cons, List.foldl_cons, Dbl.add, ih, List.sum_cons, add_assoc]

theorem sum_length_div {α : Type} (l : StdMap (List α)) (N : R) :
    (l.map (fun kv => (kv.2.length : R) / N)).sum =
      (((l.map (fun kv => kv.2.length)).sum : Nat) : R) / N := by
  induction l with
  | nil => simp
  | cons hd rest ih =>
    simp only [List.map_cons, List.sum_cons, ih, Nat.cast_add, add_div]

omit [LinearOrderedField R] in
theorem mem_labels_iff_filter (data : List (IrisSample R)) (c : String) :
    c ∈ data.map (fun s => s.label) ↔
      (data.filter (fun s => decide (s.label = c))).map (fun s => s.features) ≠ [] := by
  rw [List.mem_map, Ne, List.map_eq_nil_iff, List.filter_eq_nil_iff]
  simp

theorem M_PI_pos : (0 : R) < M_PI := by
  unfold M_PI
  norm_num

theorem logDensity_nan (log : R → R) (m : Dbl R) (x : R) :
    logDensity log m Dbl.nan x = Dbl.nan := by
  simp [logDensity, Dbl.mul, Dbl.log, Dbl.sub, Dbl.add]

theorem logDensity_fin (log : R → R) (m v x : R) (hv : 0 < v) :
    logDensity log (Dbl.fin m) (Dbl.fin v) x =
      Dbl.fin (-0.5 * log (2 * M_PI * v) - (x - m) * (x - m) / (2 * v)) := by
  have h1 : (0 : R) < 2 * M_PI * v := mul_pos (mul_pos two_pos M_PI_pos) hv
  have h2 : (2 : R) * v ≠ 0 := ne_of_gt (mul_pos two_pos hv)
  simp [logDensity, Dbl.mul, Dbl.log, Dbl.sub, Dbl.add, Dbl.neg, Dbl.div, h1, h2]
  ring

theorem fit_oneSampleData :
    NaiveBayes.fit NaiveBayes.new (oneSampleData R) =
      some { class_stats := [("A", { means := [Dbl.fin 5], variances := [Dbl.nan] })],
             class_counts := [("A", 1)],
             class_priors := [("A", Dbl.fin 1)] } := by
  simp [NaiveBayes.fit, oneSampleData, groupByLabel, StdMap.update, fitClasses, classStats,
    allSome, featureStats, columnSum, sumSqDev, Dbl.add, Dbl.sub, Dbl.mul, Dbl.div, Dbl.neg,
    Dbl.lt, NaiveBayes.new, List.range_succ]

theorem fit_singletonClassData :
    NaiveBayes.fit NaiveBayes.new (singletonClassData R) =
      some { class_stats := [("A", { means := [Dbl.fin 1], variances := [Dbl.fin 2] }),
                             ("B", { means := [Dbl.fin 10], variances := [Dbl.nan] })],
             class_counts := [("A", 2), ("B", 1)],
             class_priors := [("A", Dbl.fin (2 / 3)), ("B", Dbl.fin (1 / 3))] } := by
  have hAB : "A" < "B" := by rw [String.lt_iff_toList_lt]; decide
  have hBA : ¬ "B" < "A" := by rw [String.lt_iff_toList_lt]; decide
  have h9 : ¬ ((2 : R) < 1e-9) := by norm_num
  simp +decide [NaiveBayes.fit, singletonClassData, groupByLabel, StdMap.update, fitClasses,
    classStats, allSome, featureStats, columnSum, sumSqDev, Dbl.add, Dbl.sub, Dbl.mul, Dbl.div,
    Dbl.neg, Dbl.lt, NaiveBayes.new, List.range_succ, hAB, hBA]
  norm_num [h9]
  simp +decide [allSome, StdMap.update, hAB, hBA]

theorem fit_scenarioOneData :
    NaiveBayes.fit NaiveBayes.new (scenarioOneData R) =
      some { class_stats :=
               [("A", { means := [Dbl.fin 0, Dbl.fin 0, Dbl.fin 0, Dbl.fin 0],
                        variances := [Dbl.nan, Dbl.nan, Dbl.nan, Dbl.nan] }),
                ("B", { means := [Dbl.fin 1, Dbl.fin 1, Dbl.fin 1, Dbl.fin 1],
                        variances := [Dbl.nan, Dbl.nan, Dbl.nan, Dbl.nan] })],
             class_counts := [("A", 1), ("B", 1)],
             class_priors := [("A", Dbl.fin (1 / 2)), ("B", Dbl.fin (1 / 2))] } := by
  have hAB : "A" < "B" := by rw [String.lt_iff_toList_lt]; decide
  have hBA : ¬ "B" < "A" := by rw [String.lt_iff_toList_lt]; decide
  simp +decide [NaiveBayes.fit, scenarioOneData, groupByLabel, StdMap.update, fitClasses,
    classStats, allSome, featureStats, columnSum, sumSqDev, Dbl.add, Dbl.sub, Dbl.mul, Dbl.div,
    Dbl.neg, Dbl.lt, NaiveBayes.new, List.range_succ, hAB, hBA]

/-! ### Classes with at least two samples: all stored statistics are finite -/

theorem columnSum_fin (a : R) (samples : List (List R)) (i : Nat)
    (h : ∀ fv ∈ samples, i < fv.length) :
    ∃ r, columnSum (Dbl.fin a) samples i = some (Dbl.fin r) := by
  induction samples generalizing a with
  | nil => exact ⟨a, rfl⟩
  | cons fv rest ih =>
    have hi := h fv (List.mem_cons_self _ _)
    simp only [columnSum, List.getElem?_eq_getElem hi, Dbl.add]
    exact ih _ (fun fv' hfv => h fv' (List.mem_cons_of_mem _ hfv))

theorem sumSqDev_fin (a : R) (samples : List (List R)) (i : Nat) (m : R)
    (h : ∀ fv ∈ samples, i < fv.length) :
    ∃ r, sumSqDev (Dbl.fin a) samples i (Dbl.fin m) = some (Dbl.fin r) := by
  induction samples generalizing a with
  | nil => exact ⟨a, rfl⟩
  | cons fv rest ih =>
    have hi := h fv (List.mem_cons_self _ _)
    simp only [sumSqDev, List.getElem?_eq_getElem hi, Dbl.sub, Dbl.neg, Dbl.add, Dbl.mul]
    exact ih _ (fun fv' hfv => h fv' (List.mem_cons_of_mem _ hfv))

/-- For a class of at least two samples the mean and the variance of a
feature are finite, and the variance is at least `1e-9`. -/
theorem featureStats_fin (samples : List (List R)) (n : Int) (hn : 2 ≤ n) (i : Nat)
    (h : ∀ fv ∈ samples, i < fv.length) :
    ∃ m v, featureStats samples n i = some (Dbl.fin m, Dbl.fin v) ∧ (1e-9 : R) ≤ v := by
  obtain ⟨sum, hsum⟩ := columnSum_fin 0 samples i h
  have hn0 : (n : R) ≠ 0 := by
    have : (0 : R) < (n : R) := by exact_mod_cast (by omega : (0 : Int) < n)
    exact ne_of_gt this
  have hn1 : ((n - 1 : Int) : R) ≠ 0 := by
    have : (0 : R) < ((n - 1 : Int) : R) := by exact_mod_cast (by omega : (0 : Int) < n - 1)
    exact ne_of_gt this
  obtain ⟨sq, hsq⟩ := sumSqDev_fin 0 samples i (sum / (n : R)) h
  simp only [featureStats, hsum, Dbl.div, if_neg hn0, hsq, if_neg hn1, Dbl.lt,
    decide_eq_true_eq]
  by_cases hlt : sq / ((n - 1 : Int) : R) < 1e-9
  · exact ⟨sum / (n : R), 1e-9, by rw [if_pos hlt], le_refl _⟩
  · exact ⟨sum / (n : R), sq / ((n - 1 : Int) : R), by rw [if_neg hlt], not_lt.mp hlt⟩

theorem allSome_map_fin {α : Type} (l : List α) (f : α → Option (Dbl R × Dbl R))
    (h : ∀ a ∈ l, ∃ m v, f a = some (Dbl.fin m, Dbl.fin v) ∧ (1e-9 : R) ≤ v) :
    ∃ ps : List (R × R), allSome (l.map f) = some (ps.map (fun p => (Dbl.fin p.1, Dbl.fin p.2))) ∧
      ps.length = l.length ∧ ∀ p ∈ ps, (1e-9 : R) ≤ p.2 := by
  induction l with
  | nil => exact ⟨[], rfl, rfl, fun p hp => by simp at hp⟩
  | cons a rest ih =>
    obtain ⟨m, v, hmv, hv⟩ := h a (List.mem_cons_self _ _)
    obtain ⟨ps, hps, hlen, hall⟩ := ih (fun b hb => h b (List.mem_cons_of_mem _ hb))
    refine ⟨(m, v) :: ps, ?_, by simp [hlen], ?_⟩
    · simp only [List.map_cons, hmv, allSome, hps]
    · intro p hp
      rcases List.mem_cons.mp hp with rfl | hp
      · exact hv
      · exact hall p hp

/-- The statistics of a class of at least two samples are finite vectors of
length `feature_count`, with every variance at least `1e-9`. -/
theorem classStats_fin (samples : List (List R)) (feature_count : Nat)
    (hn : 2 ≤ samples.length) (h : ∀ fv ∈ samples, feature_count ≤ fv.length) :
    ∃ means variances : List R,
      classStats samples feature_count =
        some { means := means.map Dbl.fin, variances := variances.map Dbl.fin } ∧
      means.length = feature_count ∧ variances.length = feature_count ∧
      ∀ v ∈ variances, (1e-9 : R) ≤ v := by
  obtain ⟨ps, hps, hlen, hall⟩ := allSome_map_fin (List.range feature_count)
    (featureStats samples (samples.length : Int))
    (fun i hi => featureStats_fin samples _ (by exact_mod_cast hn) i
      (fun fv hfv => lt_of_lt_of_le (List.mem_range.mp hi) (h fv hfv)))
  refine ⟨ps.map (fun p => p.1), ps.map (fun p => p.2), ?_, ?_, ?_, ?_⟩
  · simp only [classStats, hps, List.map_map]
    rfl
  · rw [List.length_map, hlen, List.length_range]
  · rw [List.length_map, hlen, List.length_range]
  · intro v hv
    obtain ⟨p, hp, rfl⟩ := List.mem_map.mp hv
    exact hall p hp

/-- On finite statistics with positive variances and a query with enough
features, the inner loop of `predict` adds the log-density terms of the
specification to `log_prob`. -/
theorem scoreLoop_fin (log : R → R) (lp : R) (means variances features : List R)
    (hlen : means.length = variances.length) (hx : means.length ≤ features.length)
    (hv : ∀ v ∈ variances, 0 < v) :
    scoreLoop log (Dbl.fin lp) (means.map Dbl.fin) (variances.map Dbl.fin) features =
      some (Dbl.fin (lp + specLogLikelihood log means variances features)) := by
  induction means generalizing lp variances features with
  | nil => simp [scoreLoop, specLogLikelihood]
  | cons m ms ih =>
    cases variances with
    | nil => simp at hlen
    | cons v vs =>
      cases features with
      | nil => simp at hx
      | cons x xs =>
        simp only [List.length_cons, Nat.add_right_cancel_iff] at hlen
        simp only [List.length_cons, Nat.add_le_add_iff_right] at hx
        have hv0 : 0 < v := hv v (List.mem_cons_self _ _)
        simp only [List.map_cons, scoreLoop, logDensity_fin log m v x hv0, Dbl.add]
        rw [ih _ vs xs hlen hx (fun w hw => hv w (List.mem_cons_of_mem _ hw))]
        simp only [specLogLikelihood, add_assoc]

/-- On classes with finite statistics, the outer loop of `predict` is the
selection loop over the scores of the specification. -/
theorem predictLoop_fin (log : R → R) (class_priors : StdMap (Dbl R)) (x : List R)
    (classes : List (String × R × List R × List R)) (best : String × Dbl R)
    (h : ∀ t ∈ classes, StdMap.find? class_priors t.1 = some (Dbl.fin t.2.1) ∧ 0 < t.2.1 ∧
      t.2.2.1.length = t.2.2.2.length ∧ t.2.2.1.length ≤ x.length ∧ ∀ v ∈ t.2.2.2, 0 < v) :
    predictLoop log class_priors x
        (classes.map (fun t => (t.1, { means := t.2.2.1.map Dbl.fin,
                                       variances := t.2.2.2.map Dbl.fin }))) best =
      some ((classes.map (fun t => (t.1, specScore log x t))).foldl
        (fun (b : String × Dbl R) (p : String × R) =>
          if Dbl.lt b.2 (Dbl.fin p.2) then (p.1, Dbl.fin p.2) else b) best) := by
  induction classes generalizing best with
  | nil => rfl
  | cons t rest ih =>
    obtain ⟨hfind, hpos, hlen, hx, hv⟩ := h t (List.mem_cons_self _ _)
    simp only [List.map_cons, predictLoop, hfind, Dbl.log, if_pos hpos,
      scoreLoop_fin log _ _ _ x hlen hx hv, List.foldl_cons]
    exact ih _ (fun u hu => h u (List.mem_cons_of_mem _ hu))

/-- The selection loop of `predict`, started from a finite `best_log_prob`,
returns the first entry that attains the largest score, unless no score
exceeds the initial one. -/
theorem argmax_fold (scores : List (String × R)) (c : String) (b : R) :
    (scores.foldl (fun (best : String × Dbl R) (p : String × R) =>
        if Dbl.lt best.2 (Dbl.fin p.2) then (p.1, Dbl.fin p.2) else best) (c, Dbl.fin b) =
        (c, Dbl.fin b) ∧ ∀ p ∈ scores, p.2 ≤ b) ∨
    ∃ pre post k v, scores = pre ++ (k, v) :: post ∧
      scores.foldl (fun (best : String × Dbl R) (p : String × R) =>
        if Dbl.lt best.2 (Dbl.fin p.2) then (p.1, Dbl.fin p.2) else best) (c, Dbl.fin b) =
        (k, Dbl.fin v) ∧
      b < v ∧ (∀ p ∈ pre, p.2 < v) ∧ (∀ p ∈ post, p.2 ≤ v) := by
  induction scores generalizing c b with
  | nil => left; exact ⟨rfl, fun p hp => by simp at hp⟩
  | cons hd rest ih =>
    rw [List.foldl_cons]
    by_cases hgt : b < hd.2
    · have hstep : (if Dbl.lt (c, Dbl.fin b).2 (Dbl.fin hd.2) then (hd.1, Dbl.fin hd.2)
          else (c, Dbl.fin b)) = (hd.1, Dbl.fin hd.2) := by
        simp [Dbl.lt, hgt]
      rw [hstep]
      right
      rcases ih hd.1 hd.2 with ⟨heq, hall⟩ | ⟨pre, post, k, v, hm, hres, hlt, hpre, hpost⟩
      · exact ⟨[], rest, hd.1, hd.2, rfl, heq, hgt, fun p hp => by simp at hp, hall⟩
      · refine ⟨hd :: pre, post, k, v, by rw [hm]; rfl, hres, lt_trans hgt hlt, ?_, hpost⟩
        intro p hp
        rcases List.mem_cons.mp hp with rfl | hp
        · exact hlt
        · exact hpre p hp
    · have hstep : (if Dbl.lt (c, Dbl.fin b).2 (Dbl.fin hd.2) then (hd.1, Dbl.fin hd.2)
          else (c, Dbl.fin b)) = (c, Dbl.fin b) := by
        simp [Dbl.lt, hgt]
      rw [hstep]
      rcases ih c b with ⟨heq, hall⟩ | ⟨pre, post, k, v, hm, hres, hlt, hpre, hpost⟩
      · left
        refine ⟨heq, ?_⟩
        intro p hp
        rcases List.mem_cons.mp hp with rfl | hp
        · exact not_lt.mp hgt
        · exact hall p hp
      · right
        refine ⟨hd :: pre, post, k, v, by rw [hm]; rfl, hres, hlt, ?_, hpost⟩
        intro p hp
        rcases List.mem_cons.mp hp with rfl | hp
        · exact lt_of_le_of_lt (not_lt.mp hgt) hlt
        · exact hpre p hp

/-- Started from `best_log_prob = -INFINITY` on a non-empty list of finite
scores, the selection loop returns the first entry with the largest score. -/
theorem argmax_fold_ninf (scores : List (String × R)) (hne : scores ≠ []) (c : String) :
    ∃ pre post k v, scores = pre ++ (k, v) :: post ∧
      scores.foldl (fun (best : String × Dbl R) (p : String × R) =>
        if Dbl.lt best.2 (Dbl.fin p.2) then (p.1, Dbl.fin p.2) else best) (c, Dbl.ninf) =
        (k, Dbl.fin v) ∧
      (∀ p ∈ pre, p.2 < v) ∧ (∀ p ∈ post, p.2 ≤ v) := by
  cases scores with
  | nil => exact absurd rfl hne
  | cons hd rest =>
    rw [List.foldl_cons]
    have hstep : (if Dbl.lt (c, (Dbl.ninf : Dbl R)).2 (Dbl.fin hd.2) then (hd.1, Dbl.fin hd.2)
        else (c, Dbl.ninf)) = (hd.1, Dbl.fin hd.2) := by
      simp [Dbl.lt]
    rw [hstep]
    rcases argmax_fold rest hd.1 hd.2 with
      ⟨heq, hall⟩ | ⟨pre, post, k, v, hm, hres, hlt, hpre, hpost⟩
    · exact ⟨[], rest, hd.1, hd.2, rfl, heq, fun p hp => by simp at hp, hall⟩
    · refine ⟨hd :: pre, post, k, v, by rw [hm]; rfl, hres, ?_, hpost⟩
      intro p hp
      rcases List.mem_cons.mp hp with rfl | hp
      · exact hlt
      · exact hpre p hp

/-- The entries that `fit` stores for groups of at least two samples each,
as finite numbers: label, prior, means, variances. -/
theorem exists_finite_classes (groups : StdMap (List (List R))) (feature_count : Nat) (N : R)
    (h : ∀ kv ∈ groups, 2 ≤ kv.2.length ∧ ∀ fv ∈ kv.2, feature_count ≤ fv.length) :
    ∃ classes : List (String × R × List R × List R),
      groups.map (fun kv => (kv.1,
          (classStats kv.2 feature_count).getD { means := [], variances := [] })) =
        classes.map (fun t => (t.1, { means := t.2.2.1.map Dbl.fin,
                                      variances := t.2.2.2.map Dbl.fin })) ∧
      groups.map (fun kv => (kv.1, Dbl.fin ((kv.2.length : R) / N))) =
        classes.map (fun t => (t.1, Dbl.fin t.2.1)) ∧
      classes.map (fun t => t.1) = groups.map (fun kv => kv.1) ∧
      ∀ t ∈ classes, (∃ kv ∈ groups, kv.1 = t.1 ∧ t.2.1 = (kv.2.length : R) / N) ∧
        t.2.2.1.length = feature_count ∧ t.2.2.2.length = feature_count ∧
        ∀ v ∈ t.2.2.2, (1e-9 : R) ≤ v := by
  induction groups with
  | nil => exact ⟨[], rfl, rfl, rfl, fun t ht => by simp at ht⟩
  | cons kv rest ih =>
    obtain ⟨hn, hfv⟩ := h kv (List.mem_cons_self _ _)
    obtain ⟨means, variances, hcs, hml, hvl, hv⟩ := classStats_fin kv.2 feature_count hn hfv
    obtain ⟨classes, h1, h2, h3, h4⟩ := ih (fun kv' hkv' => h kv' (List.mem_cons_of_mem _ hkv'))
    refine ⟨(kv.1, (kv.2.length : R) / N, means, variances) :: classes, ?_, ?_, ?_, ?_⟩
    · simp only [List.map_cons, hcs, Option.getD_some, h1]
    · simp only [List.map_cons, h2]
    · simp only [List.map_cons, h3]
    · intro t ht
      rcases List.mem_cons.mp ht with rfl | ht
      · exact ⟨⟨kv, List.mem_cons_self _ _, rfl, rfl⟩, hml, hvl, hv⟩
      · obtain ⟨⟨kv', hkv', hk⟩, hrest⟩ := h4 t ht
        exact ⟨⟨kv', List.mem_cons_of_mem _ hkv', hk⟩, hrest⟩

/-- When every class has at least two samples, `fit` on a fresh learner
stores finite statistics with variances of at least `1e-9`, and `predict`
returns the class with the largest score of the specification, the
lexicographically smallest one among classes of equal score. -/
theorem predict_argmax_of_finite (log : R → R) (data : List (IrisSample R)) (hne : data ≠ [])
    (harity : ∀ a ∈ data, ∀ b ∈ data, a.features.length = b.features.length)
    (htwo : ∀ s ∈ data, 2 ≤ (data.filter (fun t => decide (t.label = s.label))).length)
    (x : IrisSample R) (hx : ∀ a ∈ data, a.features.length = x.features.length) :
    ∃ (nb : NaiveBayes R) (classes : List (String × R × List R × List R)),
      NaiveBayes.fit NaiveBayes.new data = some nb ∧
      nb.class_stats = classes.map (fun t => (t.1, { means := t.2.2.1.map Dbl.fin,
                                                     variances := t.2.2.2.map Dbl.fin })) ∧
      nb.class_priors = classes.map (fun t => (t.1, Dbl.fin t.2.1)) ∧
      (∀ c, c ∈ classes.map (fun t => t.1) ↔ c ∈ data.map (fun s => s.label)) ∧
      (∀ t ∈ classes,
        t.2.1 = ((data.filter (fun s => decide (s.label = t.1))).length : R) /
          (data.length : R) ∧
        ∀ v ∈ t.2.2.2, (1e-9 : R) ≤ v) ∧
      ∃ best ∈ classes, nb.predict log x = some best.1 ∧
        ∀ t ∈ classes, specScore log x.features t ≤ specScore log x.features best ∧
          (specScore log x.features t = specScore log x.features best → best.1 ≤ t.1) := by
  obtain ⟨fc, hfc, hfit⟩ := fit_new_eq data hne harity
  have hN : (0 : R) < (data.length : R) := by exact_mod_cast List.length_pos.mpr hne
  have hgroups : ∀ kv ∈ groupByLabel data, 2 ≤ kv.2.length ∧ ∀ fv ∈ kv.2, fc ≤ fv.length := by
    intro kv hkv
    obtain ⟨hg, hgne⟩ := (mem_groupByLabel data kv.1 kv.2).mp hkv
    have hex : ∃ s ∈ data, s.label = kv.1 := by
      have := (mem_labels_iff_filter data kv.1).mpr (by rw [← hg]; exact hgne)
      obtain ⟨s, hs, hl⟩ := List.mem_map.mp this
      exact ⟨s, hs, hl⟩
    obtain ⟨s, hs, hl⟩ := hex
    constructor
    · rw [hg, List.length_map, ← hl]
      exact htwo s hs
    · intro fv hfv
      rw [hg] at hfv
      obtain ⟨t, ht, rfl⟩ := List.mem_map.mp hfv
      exact le_of_eq (hfc t (List.mem_of_mem_filter ht)).symm
  obtain ⟨classes, h1, h2, h3, h4⟩ := exists_finite_classes (groupByLabel data) fc
    (data.length : R) hgroups
  have hsorted : classes.Pairwise (fun a b => a.1 < b.1) := by
    have := groupByLabel_sorted data
    rw [← List.pairwise_map (f := fun kv : String × List (List R) => kv.1)
      (R := fun a b => a < b), ← h3, List.pairwise_map] at this
    exact this
  have hkeys : ∀ c, c ∈ classes.map (fun t => t.1) ↔ c ∈ data.map (fun s => s.label) := by
    intro c
    rw [h3, mem_labels_iff_filter]
    constructor
    · intro hc
      obtain ⟨kv, hkv, rfl⟩ := List.mem_map.mp hc
      obtain ⟨hg, hgne⟩ := (mem_groupByLabel data kv.1 kv.2).mp hkv
      rw [← hg]; exact hgne
    · intro hc
      exact List.mem_map.mpr ⟨(c, _), (mem_groupByLabel data c _).mpr ⟨rfl, hc⟩, rfl⟩
  have hprior : ∀ t ∈ classes,
      t.2.1 = ((data.filter (fun s => decide (s.label = t.1))).length : R) /
        (data.length : R) := by
    intro t ht
    obtain ⟨⟨kv, hkv, hk, hp⟩, -⟩ := h4 t ht
    obtain ⟨hg, -⟩ := (mem_groupByLabel data kv.1 kv.2).mp hkv
    rw [hp, hg, List.length_map, hk]
  have hcne : classes ≠ [] := by
    obtain ⟨s, hs⟩ := List.exists_mem_of_ne_nil data hne
    have := (hkeys s.label).mpr (List.mem_map.mpr ⟨s, hs, rfl⟩)
    intro h0
    rw [h0] at this
    simp at this
  have heps : (0 : R) < 1e-9 := by norm_num
  obtain ⟨d0, hd0⟩ := List.exists_mem_of_ne_nil data hne
  have hloop := predictLoop_fin log (classes.map (fun t => (t.1, Dbl.fin t.2.1))) x.features
    classes ("", Dbl.ninf) (by
      intro t ht
      obtain ⟨⟨kv, hkv, hk, hp⟩, hml, hvl, hv⟩ := h4 t ht
      refine ⟨?_, ?_, by rw [hml, hvl], ?_, fun v hvv => lt_of_lt_of_le heps (hv v hvv)⟩
      · rw [← StdMap.mem_iff_find?]
        · exact List.mem_map.mpr ⟨t, ht, rfl⟩
        · rw [List.pairwise_map]; exact hsorted
      · rw [hp]
        have h2le := (hgroups kv hkv).1
        have : (0 : R) < (kv.2.length : R) := by exact_mod_cast (by omega : 0 < kv.2.length)
        exact div_pos this hN
      · rw [hml, ← hx d0 hd0, hfc d0 hd0])
  obtain ⟨pre, post, k, v, hsplit, hres, hpre, hpost⟩ := argmax_fold_ninf
    (classes.map (fun t => (t.1, specScore log x.features t))) (by simpa using hcne) ""
  obtain ⟨cpre, crest, hc1, hc2, hc3⟩ := List.map_eq_append_iff.mp hsplit
  obtain ⟨best, cpost, hc4, hc5, hc6⟩ := List.map_eq_cons_iff.mp hc3
  simp only [Prod.mk.injEq] at hc5
  have hbest : best ∈ classes := by
    rw [hc1, hc4]; exact List.mem_append_right _ (List.mem_cons_self _ _)
  refine ⟨_, classes, hfit, h1, h2, hkeys, fun t ht => ⟨hprior t ht, (h4 t ht).2.2.2⟩,
    best, hbest, ?_, ?_⟩
  · simp only [NaiveBayes.predict]
    rw [h1, h2, hloop, hres, Option.map_some', hc5.1]
  · intro t ht
    rw [hc1, hc4] at ht hsorted
    rcases List.mem_append.mp ht with hin | hin
    · have hlt := hpre (t.1, specScore log x.features t)
        (by rw [← hc2]; exact List.mem_map.mpr ⟨t, hin, rfl⟩)
      simp only at hlt
      rw [hc5.2]
      exact ⟨le_of_lt hlt, fun e => absurd e (ne_of_lt hlt)⟩
    · rcases List.mem_cons.mp hin with rfl | hin
      · exact ⟨le_refl _, fun _ => le_refl _⟩
      · have hle := hpost (t.1, specScore log x.features t)
          (by rw [← hc6]; exact List.mem_map.mpr ⟨t, hin, rfl⟩)
        simp only at hle
        rw [hc5.2]
        have hkey := (List.pairwise_cons.mp (List.pairwise_append.mp hsorted).2.1).1 t hin
        exact ⟨hle, fun _ => le_of_lt hkey⟩

/-- Naive Bayes away from the single-sample defect: when every class of a
non-empty dataset of one arity has at least two samples, `fit` on a fresh learner stores, for each observed label,
the prior `n_c / |D|` and finite means and variances with every variance at
least `1e-9`, and `predict` on a query of that arity returns a class of
largest score `log(prior) + sum_i [-0.5 log(2 M_PI var_i) - (x_i - mean_i)^2 /
(2 var_i)]`, the lexicographically smallest one among classes of equal
score. -/
theorem nb_predict_argmax_two_samples (log : R → R) (data : List (IrisSample R))
    (hne : data ≠ [])
    (harity : ∀ a ∈ data, ∀ b ∈ data, a.features.length = b.features.length)
    (htwo : ∀ s ∈ data, 2 ≤ (data.filter (fun t => decide (t.label = s.label))).length)
    (x : IrisSample R) (hx : ∀ a ∈ data, a.features.length = x.features.length) :
    ∃ (nb : NaiveBayes R) (classes : List (String × R × List R × List R)),
      NaiveBayes.fit NaiveBayes.new data = some nb ∧
      nb.class_stats = classes.map (fun t => (t.1, { means := t.2.2.1.map Dbl.fin,
                                                     variances := t.2.2.2.map Dbl.fin })) ∧
      nb.class_priors = classes.map (fun t => (t.1, Dbl.fin t.2.1)) ∧
      (∀ c, c ∈ classes.map (fun t => t.1) ↔ c ∈ data.map (fun s => s.label)) ∧
      (∀ t ∈ classes,
        t.2.1 = ((data.filter (fun s => decide (s.label = t.1))).length : R) /
          (data.length : R) ∧
        ∀ v ∈ t.2.2.2, (1e-9 : R) ≤ v) ∧
      ∃ best ∈ classes, nb.predict log x = some best.1 ∧
        ∀ t ∈ classes, specScore log x.features t ≤ specScore log x.features best ∧
          (specScore log x.features t = specScore log x.features best → best.1 ≤ t.1) :=
  predict_argmax_of_finite log data hne harity htwo x hx

/-- An instance of `nb_predict_argmax_two_samples`: one class of two
samples, the query `[1]`, the real logarithm. -/
theorem nb_predict_argmax_two_samples_witness :
    ∃ (nb : NaiveBayes ℝ) (classes : List (String × ℝ × List ℝ × List ℝ)),
      NaiveBayes.fit NaiveBayes.new (twoSampleClassData ℝ) = some nb ∧
      nb.class_stats = classes.map (fun t => (t.1, { means := t.2.2.1.map Dbl.fin,
                                                     variances := t.2.2.2.map Dbl.fin })) ∧
      nb.class_priors = classes.map (fun t => (t.1, Dbl.fin t.2.1)) ∧
      (∀ c, c ∈ classes.map (fun t => t.1) ↔
        c ∈ (twoSampleClassData ℝ).map (fun s => s.label)) ∧
      (∀ t ∈ classes,
        t.2.1 = (((twoSampleClassData ℝ).filter (fun s => decide (s.label = t.1))).length : ℝ) /
          ((twoSampleClassData ℝ).length : ℝ) ∧
        ∀ v ∈ t.2.2.2, (1e-9 : ℝ) ≤ v) ∧
      ∃ best ∈ classes,
        nb.predict Real.log { features := [1], label := "A" } = some best.1 ∧
        ∀ t ∈ classes, specScore Real.log [1] t ≤ specScore Real.log [1] best ∧
          (specScore Real.log [1] t = specScore Real.log [1] best → best.1 ≤ t.1) :=
  nb_predict_argmax_two_samples Real.log (twoSampleClassData ℝ) (by simp [twoSampleClassData])
    (by simp [twoSampleClassData]) (by simp [twoSampleClassData])
    { features := [1], label := "A" } (by simp [twoSampleClassData])

/-! ### Claims C5 and C7: a class with one sample -/

/-- C7 (the code at the failing input): on the dataset of the single sample
`([5], A)` `fit` succeeds but stores the variance `NaN` (`0.0 / 0` is `NaN`, and
`NaN < 1e-9` is false, so the floor is not applied), and `predict` then returns
the empty string for every query, whatever `log` computes. -/
theorem nb_single_sample_variance_nan (log : R → R) (x : R) (lbl : String) :
    ∃ nb, NaiveBayes.fit NaiveBayes.new (oneSampleData R) = some nb ∧
      nb.class_stats = [("A", { means := [Dbl.fin 5], variances := [Dbl.nan] })] ∧
      nb.predict log { features := [x], label := lbl } = some "" := by
  refine ⟨_, fit_oneSampleData, rfl, ?_⟩
  simp [NaiveBayes.predict, predictLoop, StdMap.find?, scoreLoop, logDensity_nan, Dbl.log,
    Dbl.add, Dbl.lt]

/-- C5 (the code at the failing inputs): on the training set of scenario 1,
`([0,0,0,0], A), ([1,1,1,1], B)`, every stored variance is `NaN` and `predict`
returns the empty string, which is no class, for every query of arity four;
on `([0], A), ([2], A), ([10], B)` the class `B` has one sample, its stored
variance is `NaN`, its score never compares greater, and `predict` returns `A`
for every query, the query `[10]` included. -/
theorem nb_singleton_class_never_predicted (log : R → R) (x1 x2 x3 x4 : R) (lbl : String) :
    (∃ nb, NaiveBayes.fit NaiveBayes.new (scenarioOneData R) = some nb ∧
      nb.predict log { features := [x1, x2, x3, x4], label := lbl } = some "") ∧
    (∃ nb, NaiveBayes.fit NaiveBayes.new (singletonClassData R) = some nb ∧
      nb.class_stats = [("A", { means := [Dbl.fin 1], variances := [Dbl.fin 2] }),
                        ("B", { means := [Dbl.fin 10], variances := [Dbl.nan] })] ∧
      nb.predict log { features := [x1], label := lbl } = some "A") := by
  constructor
  · refine ⟨_, fit_scenarioOneData, ?_⟩
    have h2 : (0 : R) < 2⁻¹ := by norm_num
    simp +decide [NaiveBayes.predict, predictLoop, StdMap.find?, scoreLoop, logDensity_nan,
      Dbl.log, Dbl.add, Dbl.lt, h2]
  · refine ⟨_, fit_singletonClassData, rfl, ?_⟩
    have h23 : (0 : R) < 2 / 3 := by norm_num
    have h13 : (0 : R) < 1 / 3 := by norm_num
    have h3 : (0 : R) < 3⁻¹ := by norm_num
    simp +decide [NaiveBayes.predict, predictLoop, StdMap.find?, scoreLoop, logDensity_nan,
      logDensity_fin log 1 2 x1 two_pos, Dbl.log, Dbl.add, Dbl.lt, h23, h13, h3]

/-! ### Claim C6 -/

/-- The priors `fit` stores on a fresh learner: one per group of the first
loop, in label order, the computed quotient of the group size by the dataset
size. -/
theorem fitPriors_eq (div : R → R → R) (data : List (IrisSample R)) :
    fitPriors div data = (groupByLabel data).map (fun kv =>
      (kv.1, div (kv.2.length : R) (data.length : R))) := by
  have hsorted := groupByLabel_sorted data
  have h1 := StdMap.foldl_update_sorted (fun kv : String × List (List R) => kv.1)
    (fun kv => (kv.2.length : Int)) (groupByLabel data) hsorted []
    (fun p hp => absurd hp (List.not_mem_nil _))
  have hsorted2 : ((groupByLabel data).map
      (fun kv => (kv.1, (kv.2.length : Int)))).Pairwise (fun a b => a.1 < b.1) := by
    rw [List.pairwise_map]
    exact hsorted
  have h2 := StdMap.foldl_update_sorted (fun kv : String × Int => kv.1)
    (fun kv => div (kv.2 : R) (((data.length : Int)) : R))
    ((groupByLabel data).map (fun kv => (kv.1, (kv.2.length : Int)))) hsorted2 []
    (fun p hp => absurd hp (List.not_mem_nil _))
  simp only [fitPriors]
  rw [h1, List.nil_append, h2, List.nil_append, List.map_map]
  apply List.map_congr_left
  intro kv _
  simp only [Function.comp, Int.cast_natCast]

/-- With exact division, `fitPriors` is the map of priors that `fit` stores. -/
theorem fit_class_priors_eq (data : List (IrisSample R)) (hne : data ≠ [])
    (harity : ∀ a ∈ data, ∀ b ∈ data, a.features.length = b.features.length) :
    ∃ nb, NaiveBayes.fit NaiveBayes.new data = some nb ∧
      nb.class_priors = (fitPriors (fun a b => a / b) data).map
        (fun kv => (kv.1, Dbl.fin kv.2)) := by
  obtain ⟨fc, -, hfit⟩ := fit_new_eq data hne harity
  refine ⟨_, hfit, ?_⟩
  rw [fitPriors_eq, List.map_map]
  rfl

theorem roundDouble_sixth : roundDouble ((2 : ℚ) / 12) = 6004799503160661 / 2 ^ 55 := by
  rw [roundDouble_pos _ (-3) (by norm_num) (by norm_num) (by norm_num)]
  norm_num [roundHalfEven]

theorem fitPriors_sixClassData :
    fitPriors ieee754.div (sixClassData ℚ) =
      [("A", 6004799503160661 / 2 ^ 55), ("B", 6004799503160661 / 2 ^ 55),
       ("C", 6004799503160661 / 2 ^ 55), ("D", 6004799503160661 / 2 ^ 55),
       ("E", 6004799503160661 / 2 ^ 55), ("F", 6004799503160661 / 2 ^ 55)] := by
  have hg : groupByLabel (sixClassData ℚ) =
      [("A", [[0], [1]]), ("B", [[0], [1]]), ("C", [[0], [1]]), ("D", [[0], [1]]),
       ("E", [[0], [1]]), ("F", [[0], [1]])] := by
    simp +decide [groupByLabel, sixClassData, StdMap.update]
  have hl : (sixClassData ℚ).length = 12 := rfl
  rw [fitPriors_eq, hg, hl]
  simp only [List.map_cons, List.map_nil, List.length_cons, List.length_nil, ieee754_div]
  have h2 : (((0 + 1 + 1 : Nat) : ℚ)) / ((12 : Nat) : ℚ) = 2 / 12 := by norm_num
  rw [h2, roundDouble_sixth]

/-- C6 (counterexample): twelve samples in six classes of two.  The prior
stored for every class is the double nearest to `2/12`, which is
`6004799503160661 / 2^55` and not `1/6`; the six stored priors add up to
`1 - 2^-54`, and added in `double` arithmetic in map order they give
`1 - 2^-53`: in neither sense is their sum `1`. -/
theorem nb_priors_sum_counterexample :
    sixClassData ℚ ≠ [] ∧
    (∀ a ∈ sixClassData ℚ, ∀ b ∈ sixClassData ℚ, a.features.length = b.features.length) ∧
    fitPriors ieee754.div (sixClassData ℚ) =
      [("A", 6004799503160661 / 2 ^ 55), ("B", 6004799503160661 / 2 ^ 55),
       ("C", 6004799503160661 / 2 ^ 55), ("D", 6004799503160661 / 2 ^ 55),
       ("E", 6004799503160661 / 2 ^ 55), ("F", 6004799503160661 / 2 ^ 55)] ∧
    (6004799503160661 / 2 ^ 55 : ℚ) ≠
      (((sixClassData ℚ).filter (fun s => decide (s.label = "A"))).length : ℚ) /
        ((sixClassData ℚ).length : ℚ) ∧
    ((fitPriors ieee754.div (sixClassData ℚ)).map (fun kv => kv.2)).sum = 1 - 1 / 2 ^ 54 ∧
    ((fitPriors ieee754.div (sixClassData ℚ)).map (fun kv => kv.2)).foldl ieee754.add 0 =
      1 - 1 / 2 ^ 53 ∧
    ((fitPriors ieee754.div (sixClassData ℚ)).map (fun kv => kv.2)).sum ≠ 1 ∧
    ((fitPriors ieee754.div (sixClassData ℚ)).map (fun kv => kv.2)).foldl ieee754.add 0 ≠ 1 := by
  have hsum : ((fitPriors ieee754.div (sixClassData ℚ)).map (fun kv => kv.2)).sum =
      1 - 1 / 2 ^ 54 := by
    rw [fitPriors_sixClassData]
    norm_num
  have hfold : ((fitPriors ieee754.div (sixClassData ℚ)).map (fun kv => kv.2)).foldl
      ieee754.add 0 = 1 - 1 / 2 ^ 53 := by
    rw [fitPriors_sixClassData]
    simp only [List.map_cons, List.map_nil, List.foldl_cons, List.foldl_nil, ieee754_add]
    have s1 : roundDouble ((0 : ℚ) + 6004799503160661 / 2 ^ 55) = 6004799503160661 / 2 ^ 55 := by
      rw [roundDouble_pos _ (-3) (by norm_num) (by norm_num) (by norm_num)]
      norm_num [roundHalfEven]
    have s2 : roundDouble ((6004799503160661 : ℚ) / 2 ^ 55 + 6004799503160661 / 2 ^ 55) =
        6004799503160661 / 2 ^ 54 := by
      rw [roundDouble_pos _ (-2) (by norm_num) (by norm_num) (by norm_num)]
      norm_num [roundHalfEven]
    have s3 : roundDouble ((6004799503160661 : ℚ) / 2 ^ 54 + 6004799503160661 / 2 ^ 55) =
        1 / 2 := by
      rw [roundDouble_pos _ (-2) (by norm_num) (by norm_num) (by norm_num)]
      norm_num [roundHalfEven]
    have s4 : roundDouble ((1 : ℚ) / 2 + 6004799503160661 / 2 ^ 55) =
        6004799503160661 / 2 ^ 53 := by
      rw [roundDouble_pos _ (-1) (by norm_num) (by norm_num) (by norm_num)]
      norm_num [roundHalfEven]
    have s5 : roundDouble ((6004799503160661 : ℚ) / 2 ^ 53 + 6004799503160661 / 2 ^ 55) =
        7505999378950826 / 2 ^ 53 := by
      rw [roundDouble_pos _ (-1) (by norm_num) (by norm_num) (by norm_num)]
      norm_num [roundHalfEven]
    have s6 : roundDouble ((7505999378950826 : ℚ) / 2 ^ 53 + 6004799503160661 / 2 ^ 55) =
        9007199254740991 / 2 ^ 53 := by
      rw [roundDouble_pos _ (-1) (by norm_num) (by norm_num) (by norm_num)]
      norm_num [roundHalfEven]
    rw [s1, s2, s3, s4, s5, s6]
    norm_num
  refine ⟨by simp [sixClassData], by simp [sixClassData], fitPriors_sixClassData, ?_,
    hsum, hfold, ?_, ?_⟩
  · have hl : (sixClassData ℚ).length = 12 := rfl
    have hf : ((sixClassData ℚ).filter (fun s => decide (s.label = "A"))).length = 2 := by
      decide
    rw [hl, hf]
    norm_num
  · rw [hsum]
    norm_num
  · rw [hfold]
    norm_num

/-- C6 (amended): `fit` on a freshly constructed learner and a non-empty
dataset of one arity with fewer than `2^31` samples succeeds.  For every
division `div` of the machine, the stored priors are exactly one per observed
label `c`, equal to the computed quotient `div n_c |D|` with `n_c` the number
of samples labelled `c`; when `div` sends sizes `0 < a <= b < 2^31` into
`(0, 1]`, every stored prior lies in `(0, 1]`; the class sizes `n_c` sum to
`|D|`, so the exact quotients `n_c / |D|` sum to `1`. -/
theorem nb_priors_are_computed_quotients (div : R → R → R) (data : List (IrisSample R))
    (hne : data ≠ [])
    (harity : ∀ a ∈ data, ∀ b ∈ data, a.features.length = b.features.length)
    (hlen : data.length < 2 ^ 31)
    (hdiv : ∀ a b : Nat, 0 < a → a ≤ b → b < 2 ^ 31 →
      0 < div (a : R) (b : R) ∧ div (a : R) (b : R) ≤ 1) :
    (∃ nb, NaiveBayes.fit NaiveBayes.new data = some nb ∧
      nb.class_priors = (fitPriors (fun a b => a / b) data).map
        (fun kv => (kv.1, Dbl.fin kv.2))) ∧
    (∀ c p, (c, p) ∈ fitPriors div data ↔
      (c ∈ data.map (fun s => s.label) ∧
        p = div ((data.filter (fun s => decide (s.label = c))).length : R)
          (data.length : R))) ∧
    (∀ c p, (c, p) ∈ fitPriors div data → 0 < p ∧ p ≤ 1) ∧
    ((fitPriors div data).map (fun kv => kv.1)).Pairwise (fun a b => a < b) ∧
    (((fitPriors div data).map (fun kv => kv.1)).map (fun c =>
      (data.filter (fun s => decide (s.label = c))).length)).sum = data.length ∧
    ((fitPriors (fun a b => a / b) data).map (fun kv => kv.2)).sum = 1 := by
  have hN : (0 : R) < (data.length : R) := by
    exact_mod_cast List.length_pos.mpr hne
  have hmem : ∀ c p, (c, p) ∈ fitPriors div data ↔
      (c ∈ data.map (fun s => s.label) ∧
        p = div ((data.filter (fun s => decide (s.label = c))).length : R)
          (data.length : R)) := by
    intro c p
    rw [fitPriors_eq]
    simp only [List.mem_map, Prod.mk.injEq]
    constructor
    · rintro ⟨⟨k, g⟩, hkg, rfl, rfl⟩
      obtain ⟨hg, hgne⟩ := (mem_groupByLabel data k g).mp hkg
      refine ⟨?_, ?_⟩
      · have := (mem_labels_iff_filter data k).mpr (by rw [← hg]; exact hgne)
        simpa using this
      · simp only [hg, List.length_map]
    · rintro ⟨⟨s, hs, rfl⟩, rfl⟩
      refine ⟨(s.label, (data.filter (fun t => decide (t.label = s.label))).map
        (fun t => t.features)), ?_, rfl, ?_⟩
      · rw [mem_groupByLabel]
        exact ⟨rfl, (mem_labels_iff_filter data s.label).mp (List.mem_map.mpr ⟨s, hs, rfl⟩)⟩
      · simp only [List.length_map]
  refine ⟨fit_class_priors_eq data hne harity, hmem, ?_, ?_, ?_, ?_⟩
  · intro c p hcp
    obtain ⟨hc, rfl⟩ := (hmem c p).mp hcp
    have hpos : 0 < (data.filter (fun s => decide (s.label = c))).length := by
      rw [List.length_pos]
      intro h0
      exact (mem_labels_iff_filter data c).mp hc (by rw [h0]; rfl)
    exact hdiv _ _ hpos (List.length_filter_le _ _) hlen
  · rw [fitPriors_eq, List.map_map]
    have := groupByLabel_sorted data
    rw [List.pairwise_map]
    exact this
  · rw [fitPriors_eq, List.map_map, List.map_map]
    have hcongr : (groupByLabel data).map (((fun c =>
        (data.filter (fun s => decide (s.label = c))).length) ∘ (fun kv => kv.1)) ∘
          (fun kv : String × List (List R) =>
            (kv.1, div (kv.2.length : R) (data.length : R)))) =
        (groupByLabel data).map (fun kv => kv.2.length) := by
      apply List.map_congr_left
      intro kv hkv
      obtain ⟨hg, -⟩ := (mem_groupByLabel data kv.1 kv.2).mp hkv
      simp only [Function.comp]
      rw [hg, List.length_map]
    rw [hcongr, sum_length_groupByLabel]
  · rw [fitPriors_eq, List.map_map]
    have hmap : (fun kv : String × R => kv.2) ∘
        (fun kv : String × List (List R) =>
          (kv.1, (kv.2.length : R) / (data.length : R))) =
        (fun kv : String × List (List R) => (kv.2.length : R) / (data.length : R)) := rfl
    rw [hmap, sum_length_div, sum_length_groupByLabel, div_self (ne_of_gt hN)]

/-- C6 (witness): the six-class dataset with the division of `double`. -/
theorem nb_priors_are_computed_quotients_witness :
    (sixClassData ℚ ≠ [] ∧ (sixClassData ℚ).length < 2 ^ 31) ∧
    ((∃ nb, NaiveBayes.fit NaiveBayes.new (sixClassData ℚ) = some nb ∧
      nb.class_priors = (fitPriors (fun a b => a / b) (sixClassData ℚ)).map
        (fun kv => (kv.1, Dbl.fin kv.2))) ∧
    (∀ c p, (c, p) ∈ fitPriors ieee754.div (sixClassData ℚ) ↔
      (c ∈ (sixClassData ℚ).map (fun s => s.label) ∧
        p = ieee754.div (((sixClassData ℚ).filter (fun s => decide (s.label = c))).length : ℚ)
          ((sixClassData ℚ).length : ℚ))) ∧
    (∀ c p, (c, p) ∈ fitPriors ieee754.div (sixClassData ℚ) → 0 < p ∧ p ≤ 1) ∧
    ((fitPriors ieee754.div (sixClassData ℚ)).map (fun kv => kv.1)).Pairwise
      (fun a b => a < b) ∧
    (((fitPriors ieee754.div (sixClassData ℚ)).map (fun kv => kv.1)).map (fun c =>
      ((sixClassData ℚ).filter (fun s => decide (s.label = c))).length)).sum =
        (sixClassData ℚ).length ∧
    ((fitPriors (fun a b => a / b) (sixClassData ℚ)).map (fun kv => kv.2)).sum = 1) :=
  ⟨⟨by simp [sixClassData], by simp [sixClassData]⟩,
    nb_priors_are_computed_quotients ieee754.div (sixClassData ℚ) (by simp [sixClassData])
      (by simp [sixClassData]) (by simp [sixClassData])
      (fun a b ha hab hb => roundDouble_quotient_bounds a b ha hab hb)⟩

/-! ### Claim C20 -/

theorem fit_twoSampleClassData (nb : NaiveBayes R) (hs : nb.class_stats = [])
    (hc : nb.class_counts = []) (hp : nb.class_priors = []) :
    NaiveBayes.fit nb (twoSampleClassData R) =
      some { class_stats := [("A", { means := [Dbl.fin 1], variances := [Dbl.fin 2] })],
             class_counts := [("A", 2)],
             class_priors := [("A", Dbl.fin 1)] } := by
  have h9 : ¬ ((2 : R) < 1e-9) := by norm_num
  simp +decide [NaiveBayes.fit, twoSampleClassData, groupByLabel, StdMap.update, fitClasses,
    classStats, allSome, featureStats, columnSum, sumSqDev, Dbl.add, Dbl.sub, Dbl.mul, Dbl.div,
    Dbl.neg, Dbl.lt, List.range_succ, hs, hc, hp]
  norm_num [h9]
  simp +decide [allSome, StdMap.update]

theorem fit_twoSampleClassDataB_fresh :
    NaiveBayes.fit NaiveBayes.new (twoSampleClassDataB R) =
      some { class_stats := [("B", { means := [Dbl.fin 1], variances := [Dbl.fin 2] })],
             class_counts := [("B", 2)],
             class_priors := [("B", Dbl.fin 1)] } := by
  have h9 : ¬ ((2 : R) < 1e-9) := by norm_num
  simp +decide [NaiveBayes.fit, twoSampleClassDataB, groupByLabel, StdMap.update, fitClasses,
    classStats, allSome, featureStats, columnSum, sumSqDev, Dbl.add, Dbl.sub, Dbl.mul, Dbl.div,
    Dbl.neg, Dbl.lt, List.range_succ, NaiveBayes.new]
  norm_num [h9]
  simp +decide [allSome, StdMap.update]

theorem fit_twoSampleClassDataB_refit :
    NaiveBayes.fit
        ({ class_stats := [("A", { means := [Dbl.fin 1], variances := [Dbl.fin 2] })],
           class_counts := [("A", 2)],
           class_priors := [("A", Dbl.fin 1)] } : NaiveBayes R) (twoSampleClassDataB R) =
      some { class_stats := [("A", { means := [Dbl.fin 1], variances := [Dbl.fin 2] }),
                             ("B", { means := [Dbl.fin 1], variances := [Dbl.fin 2] })],
             class_counts := [("A", 2), ("B", 2)],
             class_priors := [("A", Dbl.fin 1), ("B", Dbl.fin 1)] } := by
  have hAB : "A" < "B" := by rw [String.lt_iff_toList_lt]; decide
  have hBA : ¬ "B" < "A" := by rw [String.lt_iff_toList_lt]; decide
  have h9 : ¬ ((2 : R) < 1e-9) := by norm_num
  simp +decide [NaiveBayes.fit, twoSampleClassDataB, groupByLabel, StdMap.update, fitClasses,
    classStats, allSome, featureStats, columnSum, sumSqDev, Dbl.add, Dbl.sub, Dbl.mul, Dbl.div,
    Dbl.neg, Dbl.lt, List.range_succ, hAB, hBA]
  norm_num [h9]
  simp +decide [allSome, StdMap.update, hAB, hBA, Dbl.div]

/-- C20 (the code at the failing input): `fit` on `([0], A), ([2], A)` and
then on `([0], B), ([2], B)` leaves the class `A` in all three maps, with the
prior `2/2 = 1` next to the prior `1` of `B`; a fresh learner fitted on the
second dataset holds `B` only.  After the refit `predict` answers `A`, a label
that does not occur in the second dataset, for every query; the fresh learner
answers `B`. -/
theorem nb_refit_keeps_stale_classes (log : R → R) (x : R) (lbl : String) :
    (∃ nb1 nb2 fresh,
      NaiveBayes.fit NaiveBayes.new (twoSampleClassData R) = some nb1 ∧
      NaiveBayes.fit nb1 (twoSampleClassDataB R) = some nb2 ∧
      NaiveBayes.fit NaiveBayes.new (twoSampleClassDataB R) = some fresh ∧
      nb2.class_counts = [("A", 2), ("B", 2)] ∧
      nb2.class_priors = [("A", Dbl.fin 1), ("B", Dbl.fin 1)] ∧
      fresh.class_counts = [("B", 2)] ∧
      fresh.class_priors = [("B", Dbl.fin 1)] ∧
      nb2.predict log { features := [x], label := lbl } = some "A" ∧
      fresh.predict log { features := [x], label := lbl } = some "B") := by
  refine ⟨_, _, _, fit_twoSampleClassData NaiveBayes.new rfl rfl rfl,
    fit_twoSampleClassDataB_refit, fit_twoSampleClassDataB_fresh, rfl, rfl, rfl, rfl, ?_, ?_⟩
  · simp +decide [NaiveBayes.predict, predictLoop, StdMap.find?, scoreLoop,
      logDensity_fin log 1 2 x two_pos, Dbl.log, Dbl.add, Dbl.lt]
  · simp +decide [NaiveBayes.predict, predictLoop, StdMap.find?, scoreLoop,
      logDensity_fin log 1 2 x two_pos, Dbl.log, Dbl.add, Dbl.lt]

end NaiveBayesProofs

/-! ## Properties of the cross-validation harness -/

section CrossValidationProofs

variable {R : Type} {M : Type}

/-- The index loop cuts the block `[a, b)` out of the sequence. -/
theorem splitFoldFrom_eq (l : List (IrisSample R)) (idx a b : Nat) (hab : a ≤ b) :
    splitFoldFrom idx l (a : Int) (b : Int) =
      (l.take (a - idx) ++ l.drop (b - idx), (l.take (b - idx)).drop (a - idx)) := by
  induction l generalizing idx with
  | nil => simp [splitFoldFrom]
  | cons x rest ih =>
    simp only [splitFoldFrom, ih (idx + 1)]
    by_cases h1 : a ≤ idx
    · by_cases h2 : idx < b
      · have hc : (a : Int) ≤ (idx : Int) ∧ (idx : Int) < (b : Int) := by omega
        rw [if_pos hc]
        have ha : a - idx = 0 := by omega
        have ha1 : a - (idx + 1) = 0 := by omega
        have hb : b - idx = (b - (idx + 1)) + 1 := by omega
        rw [ha, ha1, hb]
        simp
      · have hc : ¬ ((a : Int) ≤ (idx : Int) ∧ (idx : Int) < (b : Int)) := by omega
        rw [if_neg hc]
        have ha : a - idx = 0 := by omega
        have ha1 : a - (idx + 1) = 0 := by omega
        have hb : b - idx = 0 := by omega
        have hb1 : b - (idx + 1) = 0 := by omega
        rw [ha, ha1, hb, hb1]
        simp
    · have hc : ¬ ((a : Int) ≤ (idx : Int) ∧ (idx : Int) < (b : Int)) := by omega
      rw [if_neg hc]
      have ha : a - idx = (a - (idx + 1)) + 1 := by omega
      rw [ha]
      by_cases h2 : idx < b
      · have hb : b - idx = (b - (idx + 1)) + 1 := by omega
        rw [hb]
        simp
      · omega

theorem tdiv_natCast (N : Nat) (folds : Int) (h : 1 ≤ folds) :
    Int.tdiv (N : Int) folds = ((N / folds.toNat : Nat) : Int) := by
  rw [Int.tdiv_eq_ediv (by omega) (by omega)]
  have : folds = (folds.toNat : Int) := (Int.toNat_of_nonneg (by omega)).symm
  rw [this, Int.toNat_ofNat]
  norm_cast

/-- The parts of a fold before the last. -/
theorem foldParts_inner (shuffled : List (IrisSample R)) (folds : Int) (i : Nat)
    (hf : 1 ≤ folds) (hi : (i : Int) < folds - 1) :
    foldParts shuffled folds (i : Int) =
      (shuffled.take (i * (shuffled.length / folds.toNat)) ++
         shuffled.drop ((i + 1) * (shuffled.length / folds.toNat)),
       (shuffled.drop (i * (shuffled.length / folds.toNat))).take
         (shuffled.length / folds.toNat)) := by
  have hne : ¬ ((i : Int) = folds - 1) := by omega
  simp only [foldParts, foldBounds, tdiv_natCast _ _ hf, if_neg hne]
  have h1 : (i : Int) * ((shuffled.length / folds.toNat : Nat) : Int) =
      ((i * (shuffled.length / folds.toNat) : Nat) : Int) := by push_cast; ring
  have h2 : ((i : Int) + 1) * ((shuffled.length / folds.toNat : Nat) : Int) =
      (((i + 1) * (shuffled.length / folds.toNat) : Nat) : Int) := by push_cast; ring
  rw [h1, h2, splitFoldFrom_eq _ _ _ _ (Nat.mul_le_mul_right _ (Nat.le_succ i))]
  simp only [Nat.sub_zero, List.drop_take]
  congr 2
  rw [Nat.succ_mul, Nat.add_sub_cancel_left]

/-- The parts of the last fold. -/
theorem foldParts_last (shuffled : List (IrisSample R)) (folds : Int) (hf : 1 ≤ folds) :
    foldParts shuffled folds (folds - 1) =
      (shuffled.take ((folds.toNat - 1) * (shuffled.length / folds.toNat)),
       shuffled.drop ((folds.toNat - 1) * (shuffled.length / folds.toNat))) := by
  simp only [foldParts, foldBounds, tdiv_natCast _ _ hf, if_true]
  have h1 : (folds - 1) * ((shuffled.length / folds.toNat : Nat) : Int) =
      (((folds.toNat - 1) * (shuffled.length / folds.toNat) : Nat) : Int) := by
    have : folds - 1 = ((folds.toNat - 1 : Nat) : Int) := by omega
    rw [this]; push_cast; ring
  have hle : (folds.toNat - 1) * (shuffled.length / folds.toNat) ≤ shuffled.length :=
    le_trans (Nat.mul_le_mul_right _ (Nat.sub_le _ _)) (Nat.mul_div_le _ _)
  rw [h1, splitFoldFrom_eq _ _ _ _ hle]
  simp only [Nat.sub_zero, List.drop_length, List.append_nil, List.take_length]

theorem flatMap_blocks {α : Type} (l : List α) (fs k : Nat) :
    (List.range k).flatMap (fun i => (l.drop (i * fs)).take fs) = l.take (k * fs) := by
  induction k with
  | zero => simp
  | succ k ih =>
    rw [List.range_succ, List.flatMap_append, ih, Nat.add_mul, Nat.one_mul, List.take_add]
    simp

/-! ### Claim C8 -/

/-- The parts of fold `i` are the training set and the test set of the
specification. -/
theorem foldParts_eq_specFold (shuffled : List (IrisSample R)) (folds : Int) (i : Nat)
    (hf : 1 ≤ folds) (hi : i < folds.toNat) :
    foldParts shuffled folds (i : Int) = specFold shuffled folds.toNat i := by
  by_cases hlast : i + 1 = folds.toNat
  · have hi2 : (i : Int) = folds - 1 := by omega
    have hi3 : i = folds.toNat - 1 := by omega
    rw [hi2, foldParts_last shuffled folds hf]
    simp only [specFold, if_pos hlast, ← hi3]
  · have hi2 : (i : Int) < folds - 1 := by omega
    rw [foldParts_inner shuffled folds i hf hi2]
    simp only [specFold, if_neg hlast]

theorem foldAccuracy_eq_specAccuracy [LinearOrderedField R] (fit : List (IrisSample R) → Option M)
    (predict : M → IrisSample R → Option String)
    (shuffled : List (IrisSample R)) (folds : Int) (i : Nat)
    (hf : 1 ≤ folds) (hi : i < folds.toNat) :
    foldAccuracy fit predict shuffled folds (i : Int) =
      specAccuracy fit predict (specFold shuffled folds.toNat i).1
        (specFold shuffled folds.toNat i).2 := by
  simp only [foldAccuracy, foldParts_eq_specFold shuffled folds i hf hi, specAccuracy]

theorem sumAccuracies_eq_specSum [LinearOrderedField R] (fit : List (IrisSample R) → Option M)
    (predict : M → IrisSample R → Option String)
    (shuffled : List (IrisSample R)) (folds : Int) (hf : 1 ≤ folds) :
    ∀ (is : List Nat) (total : Dbl R), (∀ i ∈ is, i < folds.toNat) →
      sumAccuracies fit predict shuffled folds total is =
        specSum fit predict total (is.map (specFold shuffled folds.toNat)) := by
  intro is
  induction is with
  | nil => intro total _; rfl
  | cons i rest ih =>
    intro total his
    simp only [sumAccuracies, List.map_cons, specSum,
      foldAccuracy_eq_specAccuracy fit predict shuffled folds i hf
        (his i (List.mem_cons_self _ _))]
    cases specAccuracy fit predict (specFold shuffled folds.toNat i).1
        (specFold shuffled folds.toNat i).2 with
    | none => rfl
    | some accuracy => exact ih _ (fun j hj => his j (List.mem_cons_of_mem _ hj))

/-- The test blocks of the folds, concatenated in fold order, are the whole
sequence. -/
theorem flatMap_specFold (shuffled : List (IrisSample R)) (k : Nat) :
    (List.range (k + 1)).flatMap (fun i => (specFold shuffled (k + 1) i).2) = shuffled := by
  rw [List.range_succ, List.flatMap_append]
  have hinner : (List.range k).flatMap (fun i => (specFold shuffled (k + 1) i).2) =
      (List.range k).flatMap (fun i =>
        (shuffled.drop (i * (shuffled.length / (k + 1)))).take (shuffled.length / (k + 1))) := by
    apply List.flatMap_congr
    intro i hi
    have hne : ¬ i + 1 = k + 1 := by
      have := List.mem_range.mp hi
      omega
    simp only [specFold, if_neg hne]
  rw [hinner, flatMap_blocks]
  simp only [List.flatMap_cons, List.flatMap_nil, List.append_nil, specFold, if_true,
    List.take_append_drop]

/-- C8: for `folds >= 1` and every learner, `kFoldCrossValidation` is the
mean over the folds `0, ..., folds - 1` of the accuracy of a learner fitted on
the training set of the fold and asked for each sample of its test set, where
(with `fs = N / folds`) the test set of fold `i < folds - 1` is the block
`[i*fs, (i+1)*fs)`, that of the last fold the block `[(folds-1)*fs, N)`, and
the training set is what remains, in order.  The test sets, concatenated in
fold order, are the whole shuffled sequence. -/
theorem kfold_uses_blocks [LinearOrderedField R] (fit : List (IrisSample R) → Option M)
    (predict : M → IrisSample R → Option String)
    (shuffled : List (IrisSample R)) (folds : Int) (hf : 1 ≤ folds) :
    (∀ i : Nat, i < folds.toNat →
      foldParts shuffled folds (i : Int) = specFold shuffled folds.toNat i ∧
      foldAccuracy fit predict shuffled folds (i : Int) =
        specAccuracy fit predict (specFold shuffled folds.toNat i).1
          (specFold shuffled folds.toNat i).2) ∧
    kFoldCrossValidation fit predict shuffled folds =
      specCrossValidation fit predict shuffled folds.toNat ∧
    (List.range folds.toNat).flatMap (fun i => (specFold shuffled folds.toNat i).2) =
      shuffled := by
  refine ⟨fun i hi => ⟨foldParts_eq_specFold shuffled folds i hf hi,
    foldAccuracy_eq_specAccuracy fit predict shuffled folds i hf hi⟩, ?_, ?_⟩
  · have hne : folds ≠ 0 := by omega
    have hcast : ((folds.toNat : Nat) : R) = (folds : R) := by
      have : ((folds.toNat : Int) : R) = (folds : R) := by
        rw [Int.toNat_of_nonneg (by omega)]
      rw [← this, Int.cast_natCast]
    simp only [kFoldCrossValidation, if_neg hne, specCrossValidation, hcast,
      sumAccuracies_eq_specSum fit predict shuffled folds hf (List.range folds.toNat)
        (Dbl.fin 0) (fun i hi => List.mem_range.mp hi)]
  · obtain ⟨k, hk⟩ : ∃ k, folds.toNat = k + 1 := ⟨folds.toNat - 1, by omega⟩
    rw [hk]
    exact flatMap_specFold shuffled k

/-- C8 (witness): two folds over the two-point dataset, with a learner that
always answers `A`. -/
theorem kfold_uses_blocks_witness :
    (∀ i : Nat, i < (2 : Int).toNat →
      foldParts (twoPointData ℚ) 2 (i : Int) = specFold (twoPointData ℚ) (2 : Int).toNat i ∧
      foldAccuracy (fun _ => some ()) (fun _ _ => some "A") (twoPointData ℚ) 2 (i : Int) =
        specAccuracy (fun _ => some ()) (fun _ _ => some "A")
          (specFold (twoPointData ℚ) (2 : Int).toNat i).1
          (specFold (twoPointData ℚ) (2 : Int).toNat i).2) ∧
    kFoldCrossValidation (fun _ => some ()) (fun _ _ => some "A") (twoPointData ℚ) 2 =
      specCrossValidation (fun _ => some ()) (fun _ _ => some "A") (twoPointData ℚ)
        (2 : Int).toNat ∧
    (List.range (2 : Int).toNat).flatMap
        (fun i => (specFold (twoPointData ℚ) (2 : Int).toNat i).2) = twoPointData ℚ :=
  kfold_uses_blocks (fun _ => some ()) (fun _ _ => some "A") (twoPointData ℚ) 2 (by decide)

/-! ### Claim C18 -/

/-- C18 (counterexample): with nine samples and five folds (`folds >= 2`,
`N >= folds`) the first test block has one sample and the last has five. -/
theorem kfold_block_sizes_counterexample :
    (2 : Int) ≤ 5 ∧ (5 : Int) ≤ ((nineSamples ℚ).length : Int) ∧
    (foldParts (nineSamples ℚ) 5 0).2.length = 1 ∧
    (foldParts (nineSamples ℚ) 5 4).2.length = 5 := by
  refine ⟨by decide, by decide, ?_, ?_⟩
  · have h := foldParts_inner (nineSamples ℚ) 5 0 (by decide) (by decide)
    simp only [Nat.cast_zero] at h
    rw [h]
    decide
  · have h := foldParts_last (nineSamples ℚ) 5 (by decide)
    have h4 : (5 : Int) - 1 = 4 := by decide
    rw [h4] at h
    rw [h]
    decide

/-- C18 (amended): for `folds >= 1` every test block before the last has
`N / folds` samples (integer division) and the last test block has
`N / folds + N mod folds` samples: the last block absorbs the whole
remainder, up to `folds - 1` samples. -/
theorem kfold_block_sizes (shuffled : List (IrisSample R)) (folds : Int) (hf : 1 ≤ folds) :
    (∀ i : Nat, (i : Int) < folds - 1 →
      (foldParts shuffled folds (i : Int)).2.length = shuffled.length / folds.toNat) ∧
    (foldParts shuffled folds (folds - 1)).2.length =
      shuffled.length / folds.toNat + shuffled.length % folds.toNat ∧
    shuffled.length % folds.toNat ≤ folds.toNat - 1 := by
  have hk : 0 < folds.toNat := by omega
  have hdiv := Nat.div_add_mod shuffled.length folds.toNat
  refine ⟨?_, ?_, ?_⟩
  · intro i hi
    rw [foldParts_inner shuffled folds i hf hi]
    simp only [List.length_take, List.length_drop]
    have h1 : (i + 1) * (shuffled.length / folds.toNat) ≤
        folds.toNat * (shuffled.length / folds.toNat) :=
      Nat.mul_le_mul_right _ (by omega)
    rw [Nat.add_mul, Nat.one_mul] at h1
    omega
  · rw [foldParts_last shuffled folds hf]
    simp only [List.length_drop]
    have h1 : (folds.toNat - 1) * (shuffled.length / folds.toNat) +
        shuffled.length / folds.toNat = folds.toNat * (shuffled.length / folds.toNat) := by
      rw [← Nat.succ_mul]
      congr 1
      omega
    generalize (folds.toNat - 1) * (shuffled.length / folds.toNat) = a at h1 ⊢
    generalize folds.toNat * (shuffled.length / folds.toNat) = b at h1 hdiv
    generalize shuffled.length / folds.toNat = c at h1 ⊢
    generalize shuffled.length % folds.toNat = d at hdiv ⊢
    omega
  · have := Nat.mod_lt shuffled.length hk
    omega

/-- C18 (witness): nine samples and five folds. -/
theorem kfold_block_sizes_witness :
    (∀ i : Nat, (i : Int) < (5 : Int) - 1 →
      (foldParts (nineSamples ℚ) 5 (i : Int)).2.length =
        (nineSamples ℚ).length / (5 : Int).toNat) ∧
    (foldParts (nineSamples ℚ) 5 (5 - 1)).2.length =
      (nineSamples ℚ).length / (5 : Int).toNat + (nineSamples ℚ).length % (5 : Int).toNat ∧
    (nineSamples ℚ).length % (5 : Int).toNat ≤ (5 : Int).toNat - 1 :=
  kfold_block_sizes (nineSamples ℚ) 5 (by decide)

end CrossValidationProofs

section AccuracyProofs

variable {R : Type} [LinearOrderedField R] {M : Type}

omit [LinearOrderedField R] in
theorem countCorrect_bounds (predict : M → IrisSample R → Option String) (model : M)
    (test_data : List (IrisSample R))
    (hpred : ∀ s ∈ test_data, ∃ l, predict model s = some l) :
    ∃ c, countCorrect predict model test_data = some c ∧ 0 ≤ c ∧
      c ≤ (test_data.length : Int) := by
  induction test_data with
  | nil => exact ⟨0, rfl, le_refl _, by simp⟩
  | cons s rest ih =>
    obtain ⟨l, hl⟩ := hpred s (List.mem_cons_self _ _)
    obtain ⟨c, hc, h0, h1⟩ := ih (fun t ht => hpred t (List.mem_cons_of_mem _ ht))
    simp only [countCorrect, hl, hc, List.length_cons, Nat.cast_add, Nat.cast_one]
    by_cases hp : l = s.label
    · exact ⟨c + 1, by rw [if_pos hp], by omega, by omega⟩
    · exact ⟨c, by rw [if_neg hp], h0, by omega⟩

omit [LinearOrderedField R] in
/-- With at least as many samples as folds, every test block is non-empty. -/
theorem foldParts_test_ne_nil (shuffled : List (IrisSample R)) (folds : Int) (i : Nat)
    (hf : 1 ≤ folds) (hN : folds ≤ (shuffled.length : Int)) (hi : (i : Int) < folds) :
    (foldParts shuffled folds (i : Int)).2 ≠ [] := by
  have hk : 0 < folds.toNat := by omega
  have hfs : 0 < shuffled.length / folds.toNat := Nat.div_pos (by omega) hk
  have hmul : folds.toNat * (shuffled.length / folds.toNat) ≤ shuffled.length :=
    Nat.mul_div_le _ _
  intro hnil
  have hlen := congrArg List.length hnil
  by_cases hlast : (i : Int) < folds - 1
  · rw [foldParts_inner shuffled folds i hf hlast] at hlen
    simp only [List.length_take, List.length_drop, List.length_nil] at hlen
    have h1 : (i + 1) * (shuffled.length / folds.toNat) ≤
        folds.toNat * (shuffled.length / folds.toNat) :=
      Nat.mul_le_mul_right _ (by omega)
    rw [Nat.add_mul, Nat.one_mul] at h1
    omega
  · have hi2 : (i : Int) = folds - 1 := by omega
    rw [hi2, foldParts_last shuffled folds hf] at hlen
    simp only [List.length_drop, List.length_nil] at hlen
    have h1 : (folds.toNat - 1) * (shuffled.length / folds.toNat) +
        shuffled.length / folds.toNat = folds.toNat * (shuffled.length / folds.toNat) := by
      rw [← Nat.succ_mul]
      congr 1
      omega
    omega

/-- The accuracy of a fold with a non-empty test block is a finite value
between `0` and `1`. -/
theorem foldAccuracy_bounds (fit : List (IrisSample R) → Option M)
    (predict : M → IrisSample R → Option String)
    (shuffled : List (IrisSample R)) (folds : Int) (i : Nat)
    (hf : 1 ≤ folds) (hN : folds ≤ (shuffled.length : Int)) (hi : (i : Int) < folds)
    (hlearn : ∃ model, fit (foldParts shuffled folds (i : Int)).1 = some model ∧
      ∀ s ∈ (foldParts shuffled folds (i : Int)).2, ∃ l, predict model s = some l) :
    ∃ a, foldAccuracy fit predict shuffled folds (i : Int) = some (Dbl.fin a) ∧
      0 ≤ a ∧ a ≤ 1 := by
  obtain ⟨model, hm, hpred⟩ := hlearn
  obtain ⟨c, hc, h0, h1⟩ := countCorrect_bounds predict model
    (foldParts shuffled folds (i : Int)).2 hpred
  have hne := foldParts_test_ne_nil shuffled folds i hf hN hi
  have hpos : (0 : R) < ((foldParts shuffled folds (i : Int)).2.length : R) := by
    exact_mod_cast List.length_pos.mpr hne
  refine ⟨(c : R) / ((foldParts shuffled folds (i : Int)).2.length : R), ?_, ?_, ?_⟩
  · simp only [foldAccuracy, hm, hc, Dbl.div, if_neg (ne_of_gt hpos)]
  · exact div_nonneg (by exact_mod_cast h0) (le_of_lt hpos)
  · rw [div_le_one hpos]
    exact_mod_cast h1

theorem sumAccuracies_bounds (fit : List (IrisSample R) → Option M)
    (predict : M → IrisSample R → Option String)
    (shuffled : List (IrisSample R)) (folds : Int)
    (hf : 1 ≤ folds) (hN : folds ≤ (shuffled.length : Int))
    (hlearn : ∀ i : Nat, (i : Int) < folds →
      ∃ model, fit (foldParts shuffled folds (i : Int)).1 = some model ∧
        ∀ s ∈ (foldParts shuffled folds (i : Int)).2, ∃ l, predict model s = some l)
    (l : List Nat) (hl : ∀ i ∈ l, (i : Int) < folds) (t : R) :
    ∃ s, sumAccuracies fit predict shuffled folds (Dbl.fin t) l = some (Dbl.fin s) ∧
      t ≤ s ∧ s ≤ t + (l.length : R) := by
  induction l generalizing t with
  | nil => exact ⟨t, rfl, le_refl _, by simp⟩
  | cons i rest ih =>
    obtain ⟨a, ha, ha0, ha1⟩ := foldAccuracy_bounds fit predict shuffled folds i hf hN
      (hl i (List.mem_cons_self _ _)) (hlearn i (hl i (List.mem_cons_self _ _)))
    obtain ⟨s, hs, hs0, hs1⟩ := ih (fun j hj => hl j (List.mem_cons_of_mem _ hj)) (t + a)
    refine ⟨s, ?_, by linarith, ?_⟩
    · simp only [sumAccuracies, ha, Dbl.add, hs]
    · simp only [List.length_cons, Nat.cast_add, Nat.cast_one]
      linarith

/-! ### Claim C9 -/

/-- C9: for `folds >= 2` and at least `folds` samples, and a learner whose
`fit` returns on the training part of every fold and whose `predict` returns
a label, whatever label, on every sample of the test block: every test block
is non-empty, every per-fold accuracy is a finite value in `[0, 1]`, and
`kFoldCrossValidation` returns a finite value in `[0, 1]`. -/
theorem kfold_accuracy_in_unit_interval (fit : List (IrisSample R) → Option M)
    (predict : M → IrisSample R → Option String)
    (shuffled : List (IrisSample R)) (folds : Int)
    (hf : 2 ≤ folds) (hN : folds ≤ (shuffled.length : Int))
    (hlearn : ∀ i : Nat, (i : Int) < folds →
      ∃ model, fit (foldParts shuffled folds (i : Int)).1 = some model ∧
        ∀ s ∈ (foldParts shuffled folds (i : Int)).2, ∃ l, predict model s = some l) :
    (∀ i : Nat, (i : Int) < folds →
      (foldParts shuffled folds (i : Int)).2 ≠ [] ∧
      ∃ a, foldAccuracy fit predict shuffled folds (i : Int) = some (Dbl.fin a) ∧
        0 ≤ a ∧ a ≤ 1) ∧
    ∃ x, kFoldCrossValidation fit predict shuffled folds = some (Dbl.fin x) ∧
      0 ≤ x ∧ x ≤ 1 := by
  have hf1 : 1 ≤ folds := by omega
  refine ⟨fun i hi => ⟨foldParts_test_ne_nil shuffled folds i hf1 hN hi,
    foldAccuracy_bounds fit predict shuffled folds i hf1 hN hi (hlearn i hi)⟩, ?_⟩
  obtain ⟨s, hs, hs0, hs1⟩ := sumAccuracies_bounds fit predict shuffled folds hf1 hN hlearn
    (List.range folds.toNat) (fun i hi => by have := List.mem_range.mp hi; omega) 0
  have hfpos : (0 : R) < (folds : R) := by exact_mod_cast (by omega : (0 : Int) < folds)
  have hlen : ((List.range folds.toNat).length : R) = (folds : R) := by
    rw [List.length_range]
    have : ((folds.toNat : Int) : R) = (folds : R) := by
      rw [Int.toNat_of_nonneg (by omega)]
    rw [← this, Int.cast_natCast]
  rw [hlen, zero_add] at hs1
  refine ⟨s / (folds : R), ?_, div_nonneg hs0 (le_of_lt hfpos), ?_⟩
  · have hne : folds ≠ 0 := by omega
    simp only [kFoldCrossValidation, if_neg hne, hs, Dbl.div, if_neg (ne_of_gt hfpos)]
  · rw [div_le_one hfpos]
    exact hs1

/-- C9 (witness): two folds over the two-point dataset, with a learner that
always answers `A`. -/
theorem kfold_accuracy_in_unit_interval_witness :
    (∀ i : Nat, (i : Int) < 2 →
      (foldParts (twoPointData ℚ) 2 (i : Int)).2 ≠ [] ∧
      ∃ a, foldAccuracy (fun _ => some ()) (fun _ _ => some "A") (twoPointData ℚ) 2 (i : Int) =
          some (Dbl.fin a) ∧ 0 ≤ a ∧ a ≤ 1) ∧
    ∃ x, kFoldCrossValidation (fun _ => some ()) (fun _ _ => some "A") (twoPointData ℚ) 2 =
        some (Dbl.fin x) ∧ 0 ≤ x ∧ x ≤ 1 :=
  kfold_accuracy_in_unit_interval (fun _ => some ()) (fun _ _ => some "A") (twoPointData ℚ) 2
    (le_refl _) (by simp [twoPointData]) (fun _ _ => ⟨(), rfl, fun _ _ => ⟨"A", rfl⟩⟩)

end AccuracyProofs

/-! ## Properties of k-nearest neighbours -/

section KNNProofs

variable {R : Type} [LinearOrderedField R]

omit [LinearOrderedField R] in
theorem sumSqDiff_eq_foldl (arith : DoubleArith R) (acc : R) (a b : List R)
    (h : a.length ≤ b.length) :
    sumSqDiff arith acc a b = some ((a.zip b).foldl
      (fun sum p => arith.add sum (arith.mul (arith.sub p.1 p.2) (arith.sub p.1 p.2))) acc) := by
  induction a generalizing acc b with
  | nil => simp [sumSqDiff]
  | cons x a ih =>
    cases b with
    | nil => simp at h
    | cons y b =>
      simp only [List.length_cons, Nat.add_le_add_iff_right] at h
      rw [sumSqDiff, ih _ _ h]
      rfl

/-- With enough features in every training sample, the distance loop yields
the computed distance, paired with the label, for every training sample in
order. -/
theorem distancesTo_eq (arith : DoubleArith R) (sample : IrisSample R)
    (data : List (IrisSample R))
    (h : ∀ t ∈ data, sample.features.length ≤ t.features.length) :
    distancesTo arith sample data =
      some (data.map (fun t =>
        (computedDistance arith sample.features t.features, t.label))) := by
  induction data with
  | nil => rfl
  | cons t rest ih =>
    have h1 := h t (List.mem_cons_self _ _)
    have h2 := ih (fun u hu => h u (List.mem_cons_of_mem _ hu))
    simp only [distancesTo, euclideanDistance, sumSqDiff_eq_foldl arith 0 _ _ h1, h2,
      Option.map_some', List.map_cons, computedDistance]

omit [LinearOrderedField R] in
/-- The vote loop over the positions `s, s+1, ..., s+n-1`, all in bounds,
counts the labels of these entries in order. -/
theorem voteLoop_range' (distances : List (R × String)) (n s : Nat) (m : StdMap Int)
    (h : s + n ≤ distances.length) :
    voteLoop distances (List.range' s n) m =
      some ((((distances.drop s).take n).map (fun d => d.2)).foldl
        (fun counts l => StdMap.update counts l (fun c => c.getD 0 + 1)) m) := by
  induction n generalizing s m with
  | zero => simp [voteLoop]
  | succ n ih =>
    have hs : s < distances.length := by omega
    rw [List.range'_succ, voteLoop, List.getElem?_eq_getElem hs]
    simp only
    rw [ih (s + 1) _ (by omega)]
    rw [List.drop_eq_getElem_cons hs]
    simp only [List.take_succ_cons, List.map_cons, List.foldl_cons]

omit [LinearOrderedField R] in
theorem voteLoop_range (distances : List (R × String)) (K : Nat) (h : K ≤ distances.length) :
    voteLoop distances (List.range K) [] =
      some (countLabels ((distances.take K).map (fun d => d.2))) := by
  rw [List.range_eq_range', voteLoop_range' distances K 0 [] (by omega)]
  rfl

omit [LinearOrderedField R] in
/-- A read past the end stops the vote loop. -/
theorem voteLoop_out_of_bounds (distances : List (R × String)) (is : List Nat)
    (m : StdMap Int) (h : ∃ i ∈ is, distances.length ≤ i) :
    voteLoop distances is m = none := by
  induction is generalizing m with
  | nil => obtain ⟨i, hi, _⟩ := h; simp at hi
  | cons j rest ih =>
    rw [voteLoop]
    cases hj : distances[j]? with
    | none => rfl
    | some d =>
      simp only
      apply ih
      obtain ⟨i, hi, hle⟩ := h
      rcases List.mem_cons.mp hi with rfl | hi
      · rw [List.getElem?_eq_none hle] at hj
        exact absurd hj (by simp)
      · exact ⟨i, hi, hle⟩

/-- The first `K` entries of a sorted permutation are `K` nearest entries. -/
theorem take_sorted_nearest (sort : List (R × String) → List (R × String))
    (hsort : IsStdSort sort) (dists : List (R × String)) (K : Nat) (hK : K ≤ dists.length) :
    (((sort dists).take K) ++ ((sort dists).drop K)).Perm dists ∧
    ((sort dists).take K).length = K ∧
    ∀ a ∈ (sort dists).take K, ∀ b ∈ (sort dists).drop K, a.1 ≤ b.1 := by
  obtain ⟨hperm, hpair⟩ := hsort dists
  refine ⟨?_, ?_, ?_⟩
  · rw [List.take_append_drop]; exact hperm
  · rw [List.length_take, hperm.length_eq]; exact Nat.min_eq_left hK
  · intro a ha b hb
    rw [← List.take_append_drop K (sort dists)] at hpair
    exact not_lt.mp ((List.pairwise_append.mp hpair).2.2 a ha b hb)

theorem predict_eq (arith : DoubleArith R) (sort : List (R × String) → List (R × String))
    (knn : KNNClassifier R) (sample : IrisSample R) (dists : List (R × String))
    (hd : distancesTo arith sample knn.data = some dists)
    (hK : knn.K.toNat ≤ (sort dists).length) :
    knn.predict arith sort sample =
      some (bestLabel (countLabels (((sort dists).take knn.K.toNat).map (fun d => d.2)))) := by
  simp only [KNNClassifier.predict, hd, voteLoop_range _ _ hK]

theorem predict_out_of_bounds (arith : DoubleArith R)
    (sort : List (R × String) → List (R × String))
    (knn : KNNClassifier R) (sample : IrisSample R) (dists : List (R × String))
    (hd : distancesTo arith sample knn.data = some dists)
    (hK : (sort dists).length < knn.K.toNat) :
    knn.predict arith sort sample = none := by
  simp only [KNNClassifier.predict, hd,
    voteLoop_out_of_bounds (sort dists) (List.range knn.K.toNat) []
      ⟨(sort dists).length, List.mem_range.mpr hK, le_refl _⟩]

theorem isStdSort_stableSort : IsStdSort (stableSort : List (R × String) → _) := by
  intro l
  refine ⟨List.perm_insertionSort _ l, ?_⟩
  have hs : List.Sorted (fun a b : R × String => a.1 ≤ b.1)
      (List.insertionSort (fun a b : R × String => a.1 ≤ b.1) l) := by
    haveI : IsTotal (R × String) (fun a b => a.1 ≤ b.1) := ⟨fun a b => le_total a.1 b.1⟩
    haveI : IsTrans (R × String) (fun a b => a.1 ≤ b.1) := ⟨fun a b c => le_trans⟩
    exact List.sorted_insertionSort _ l
  exact List.Pairwise.imp (fun h => not_lt.mpr h) hs

theorem isStableSort_stableSort : IsStableSort (stableSort : List (R × String) → _) := by
  intro l c d hc hsub
  apply List.sublist_insertionSort _ hsub
  rw [List.pairwise_iff_forall_sublist]
  intro a b hab
  have ha : a ∈ c := hab.subset (List.mem_cons_self _ _)
  have hb : b ∈ c := hab.subset (List.mem_cons_of_mem _ (List.mem_cons_self _ _))
  rw [hc a ha, hc b hb]

theorem computedDistance_one (arith : DoubleArith R) (x y : R) :
    computedDistance arith [x] [y] =
      arith.sqrt (arith.add 0 (arith.mul (arith.sub x y) (arith.sub x y))) := rfl

theorem computedDistance_two (arith : DoubleArith R) (x1 x2 y1 y2 : R) :
    computedDistance arith [x1, x2] [y1, y2] =
      arith.sqrt (arith.add (arith.add 0 (arith.mul (arith.sub x1 y1) (arith.sub x1 y1)))
        (arith.mul (arith.sub x2 y2) (arith.sub x2 y2))) := rfl

/-- In IEEE-754 arithmetic the distance between `[1]` and `[0]` is `1`. -/
theorem computedDistance_ieee_one_zero : computedDistance ieee754 [1] [0] = 1 := by
  rw [computedDistance_one]
  simp only [ieee754_add, ieee754_sub, ieee754_mul, ieee754_sqrt, sub_zero, mul_one, zero_add,
    roundDouble_one, sqrtDouble_one]

/-- In IEEE-754 arithmetic the distance of a vector of one feature from
itself is `0`. -/
theorem computedDistance_ieee_self (x : ℚ) : computedDistance ieee754 [x] [x] = 0 := by
  rw [computedDistance_one]
  simp only [ieee754_add, ieee754_sub, ieee754_mul, ieee754_sqrt, sub_self, mul_zero, zero_add,
    roundDouble_zero, sqrtDouble_zero]

/-! ### Claim C11 -/

/-- C11 (counterexample): with `K = 3` and the two training samples
`([0], A), ([1], B)`, the call `predict([1])` raises no failure: the vote loop
counts the two entries of `distances` and then reads `distances[2]`, past the
end of a vector of size 2 (undefined behaviour; `none` in this model). -/
theorem knn_not_enough_data_counterexample :
    ((twoPointData ℚ).length : Int) < 3 ∧
    distancesTo ieee754 { features := [1], label := "B" } (twoPointData ℚ) =
      some [(1, "A"), (0, "B")] ∧
    gnuSort distanceLess [((1 : ℚ), "A"), (0, "B")] = [(0, "B"), (1, "A")] ∧
    voteLoop [((0 : ℚ), "B"), (1, "A")] (List.range 2) [] = some [("A", 1), ("B", 1)] ∧
    [((0 : ℚ), "B"), (1, "A")][2]? = none ∧
    KNNClassifier.predict ieee754 (gnuSort distanceLess) { K := 3, data := twoPointData ℚ }
      { features := [1], label := "B" } = none := by
  have hd : distancesTo ieee754 { features := [1], label := "B" } (twoPointData ℚ) =
      some [(1, "A"), (0, "B")] := by
    rw [distancesTo_eq ieee754 _ _ (by simp [twoPointData])]
    simp only [twoPointData, List.map_cons, List.map_nil, computedDistance_ieee_one_zero,
      computedDistance_ieee_self]
  have hsort : gnuSort distanceLess [((1 : ℚ), "A"), (0, "B")] = [(0, "B"), (1, "A")] := by
    decide
  refine ⟨by decide, hd, hsort, ?_, rfl, ?_⟩
  · simp +decide [voteLoop, StdMap.update, String.lt_iff_toList_lt]
  · apply predict_out_of_bounds ieee754 _ _ _ _ hd
    rw [hsort]
    decide

/-- C11 (amended): for `K >= 1`, a query with no more features than any
training sample, any arithmetic and every behaviour of `std::sort`: the sorted
vector has `|data|` entries; if `|data| >= K`, every read `distances[i]` with
`i < K` is in bounds and `predict` returns a label; if `|data| < K`, the reads
`distances[i]` with `i < |data|` are in bounds and the read
`distances[|data|]`, which the loop performs, is out of bounds: the behaviour
is undefined (`none` in this model) and no failure is raised. -/
theorem knn_predict_reads (arith : DoubleArith R)
    (sort : List (R × String) → List (R × String)) (hsort : IsStdSort sort)
    (knn : KNNClassifier R) (sample : IrisSample R) (hK1 : 1 ≤ knn.K)
    (harity : ∀ t ∈ knn.data, sample.features.length ≤ t.features.length) :
    ∃ distances, distancesTo arith sample knn.data = some distances ∧
      (sort distances).length = knn.data.length ∧
      (∀ i : Nat, i < knn.data.length → ∃ d, (sort distances)[i]? = some d) ∧
      (knn.K ≤ (knn.data.length : Int) →
        (∀ i : Nat, (i : Int) < knn.K → ∃ d, (sort distances)[i]? = some d) ∧
        ∃ label, knn.predict arith sort sample = some label) ∧
      ((knn.data.length : Int) < knn.K →
        (sort distances)[knn.data.length]? = none ∧
        knn.data.length ∈ List.range knn.K.toNat ∧
        voteLoop (sort distances) (List.range knn.K.toNat) [] = none ∧
        knn.predict arith sort sample = none) := by
  have hd := distancesTo_eq arith sample knn.data harity
  have hlen : (sort (knn.data.map (fun t =>
      (computedDistance arith sample.features t.features, t.label)))).length =
      knn.data.length := by
    rw [(hsort _).1.length_eq, List.length_map]
  have hin : ∀ i : Nat, i < knn.data.length → ∃ d, (sort (knn.data.map (fun t =>
      (computedDistance arith sample.features t.features, t.label))))[i]? = some d := by
    intro i hi
    exact ⟨_, List.getElem?_eq_getElem (by rw [hlen]; exact hi)⟩
  refine ⟨_, hd, hlen, hin, ?_, ?_⟩
  · intro hK
    exact ⟨fun i hi => hin i (by omega),
      _, predict_eq arith sort knn sample _ hd (by rw [hlen]; omega)⟩
  · intro hK
    have hlt : (sort (knn.data.map (fun t =>
        (computedDistance arith sample.features t.features, t.label)))).length <
        knn.K.toNat := by
      rw [hlen]; omega
    refine ⟨List.getElem?_eq_none (by rw [hlen]), List.mem_range.mpr (by omega), ?_,
      predict_out_of_bounds arith sort knn sample _ hd hlt⟩
    exact voteLoop_out_of_bounds _ _ _ ⟨_, List.mem_range.mpr hlt, le_refl _⟩

/-- C11 (witness): `K = 1` on the two-point training set, in IEEE-754
arithmetic with insertion sort. -/
theorem knn_predict_reads_witness :
    ∃ distances, distancesTo ieee754 { features := [0], label := "A" }
        (twoPointData ℚ) = some distances ∧
      (stableSort distances).length = (twoPointData ℚ).length ∧
      (∀ i : Nat, i < (twoPointData ℚ).length → ∃ d, (stableSort distances)[i]? = some d) ∧
      ((1 : Int) ≤ ((twoPointData ℚ).length : Int) →
        (∀ i : Nat, (i : Int) < (1 : Int) → ∃ d, (stableSort distances)[i]? = some d) ∧
        ∃ label, KNNClassifier.predict ieee754 stableSort
          { K := 1, data := twoPointData ℚ } { features := [0], label := "A" } = some label) ∧
      (((twoPointData ℚ).length : Int) < (1 : Int) →
        (stableSort distances)[(twoPointData ℚ).length]? = none ∧
        (twoPointData ℚ).length ∈ List.range (1 : Int).toNat ∧
        voteLoop (stableSort distances) (List.range (1 : Int).toNat) [] = none ∧
        KNNClassifier.predict ieee754 stableSort
          { K := 1, data := twoPointData ℚ } { features := [0], label := "A" } = none) :=
  knn_predict_reads ieee754 stableSort isStdSort_stableSort
    { K := 1, data := twoPointData ℚ } { features := [0], label := "A" } (le_refl _)
    (by simp [twoPointData])


/-! ### Claim C2 -/

theorem roundDouble_two_pow_neg30 : roundDouble (2 ^ 30)⁻¹ = (2 ^ 30)⁻¹ := by
  rw [roundDouble_pos _ (-30) (by norm_num) (by norm_num) (by decide)]
  norm_num [roundHalfEven]

theorem roundDouble_two_pow_neg60 : roundDouble ((2 ^ 30)⁻¹ * (2 ^ 30)⁻¹) = (2 ^ 60)⁻¹ := by
  rw [roundDouble_pos _ (-60) (by norm_num) (by norm_num) (by decide)]
  norm_num [roundHalfEven]

/-- In binary64, `1 + 2^-60` rounds to `1`. -/
theorem roundDouble_one_add_two_pow_neg60 : roundDouble (1 + (2 ^ 60)⁻¹) = 1 := by
  rw [roundDouble_pos _ 0 (by norm_num) (by norm_num) (by decide)]
  norm_num [roundHalfEven]

/-- The distances that the code computes in IEEE-754 arithmetic from
`[1, 2^-30]` to the two samples of `nearTieData` are both `1`. -/
theorem distancesTo_nearTieData (lbl : String) :
    distancesTo ieee754 { features := [1, 1 / 2 ^ 30], label := lbl } (nearTieData ℚ) =
      some [(1, "A"), (1, "B")] := by
  rw [distancesTo_eq ieee754 _ _ (by simp [nearTieData])]
  have h1 : computedDistance ieee754 [1, 1 / 2 ^ 30] [0, 0] = 1 := by
    rw [computedDistance_two]
    simp only [ieee754_add, ieee754_sub, ieee754_mul, ieee754_sqrt, sub_zero, mul_one, zero_add,
      roundDouble_one, one_div, roundDouble_two_pow_neg30, roundDouble_two_pow_neg60,
      roundDouble_one_add_two_pow_neg60, sqrtDouble_one]
  have h2 : computedDistance ieee754 [1, 1 / 2 ^ 30] [0, 1 / 2 ^ 30] = 1 := by
    rw [computedDistance_two]
    simp only [ieee754_add, ieee754_sub, ieee754_mul, ieee754_sqrt, sub_zero, mul_one, zero_add,
      roundDouble_one, sub_self, mul_zero, roundDouble_zero, add_zero, sqrtDouble_one]
  simp only [nearTieData, List.map_cons, List.map_nil, h1, h2]

/-- C2 (counterexample): `K = 1`, the training set `([0, 0], A)`,
`([0, 2^-30], B)` and the query `[1, 2^-30]`.  The sample `B` is strictly
nearer in Euclidean distance (squared distances `1` and `1 + 2^-60`), so every
choice of one nearest training sample is `B`; in IEEE-754 arithmetic both
computed distances are `1`, `std::sort` leaves `A` first and `predict` returns
`A`. -/
theorem knn_exact_nearest_counterexample :
    (1 : Int) ≤ ((nearTieData ℚ).length : Int) ∧
    (∀ t ∈ nearTieData ℚ, t.features.length = 2) ∧
    sqDist [1, 1 / 2 ^ 30] [0, 1 / 2 ^ 30] < sqDist [1, 1 / 2 ^ 30] ([0, 0] : List ℚ) ∧
    (∀ sel rest : List (IrisSample ℚ), (sel ++ rest).Perm (nearTieData ℚ) → sel.length = 1 →
      (∀ a ∈ sel, ∀ b ∈ rest,
        sqDist [1, 1 / 2 ^ 30] a.features ≤ sqDist [1, 1 / 2 ^ 30] b.features) →
      sel.map (fun t => t.label) = ["B"]) ∧
    KNNClassifier.predict ieee754 (gnuSort distanceLess) { K := 1, data := nearTieData ℚ }
      { features := [1, 1 / 2 ^ 30], label := "B" } = some "A" := by
  have hlt : sqDist [1, 1 / 2 ^ 30] [0, 1 / 2 ^ 30] <
      sqDist [1, 1 / 2 ^ 30] ([0, 0] : List ℚ) := by
    norm_num [sqDist]
  refine ⟨by decide, by simp [nearTieData], hlt, ?_, ?_⟩
  · intro sel rest hperm hlen hnear
    have hlen2 := hperm.length_eq
    simp only [List.length_append, hlen, nearTieData, List.length_cons, List.length_nil] at hlen2
    obtain ⟨x, rfl⟩ := List.length_eq_one.mp hlen
    obtain ⟨y, rfl⟩ := List.length_eq_one.mp (by omega : rest.length = 1)
    have hA : ({ features := [0, 0], label := "A" } : IrisSample ℚ) ∈ [x] ++ [y] :=
      hperm.mem_iff.mpr (by simp [nearTieData])
    have hB : ({ features := [0, 1 / 2 ^ 30], label := "B" } : IrisSample ℚ) ∈ [x] ++ [y] :=
      hperm.mem_iff.mpr (by simp [nearTieData])
    simp only [List.singleton_append, List.mem_cons, List.mem_singleton, List.not_mem_nil,
      or_false] at hA hB
    have hxy := hnear x (by simp) y (by simp)
    rcases hA with hA | hA
    · rcases hB with hB | hB
      · rw [← hA] at hB
        simp at hB
      · rw [← hA, ← hB] at hxy
        exact absurd hxy (not_le.mpr hlt)
    · rcases hB with hB | hB
      · rw [← hB]
        rfl
      · rw [← hA] at hB
        simp at hB
  · have hsort : gnuSort distanceLess [((1 : ℚ), "A"), (1, "B")] = [(1, "A"), (1, "B")] := by
      decide
    rw [predict_eq ieee754 _ _ _ _ (distancesTo_nearTieData "B") (by rw [hsort]; decide), hsort]
    simp +decide [countLabels, StdMap.update, bestLabel]

/-- C2 (amended): for `1 <= K <= |data|` and a query of the arity of the
training samples, in any arithmetic and whatever order `std::sort` gives to
equal distances, `predict` returns a label with the highest count among `K`
entries `sel` of the list of computed distances that are nearest in computed
distance (every entry of `rest` has a computed distance at least that of every
entry of `sel`), and the lexicographically smallest such label.  The computed
distance is what `euclideanDistance` returns. -/
theorem knn_predict_majority_of_computed_nearest (arith : DoubleArith R)
    (sort : List (R × String) → List (R × String)) (hsort : IsStdSort sort)
    (knn : KNNClassifier R) (sample : IrisSample R)
    (hK1 : 1 ≤ knn.K) (hK2 : knn.K ≤ (knn.data.length : Int))
    (harity : ∀ t ∈ knn.data, t.features.length = sample.features.length) :
    (∀ t ∈ knn.data, euclideanDistance arith sample.features t.features =
      some (computedDistance arith sample.features t.features)) ∧
    ∃ (sel rest : List (R × String)) (label : String),
      (sel ++ rest).Perm
        (knn.data.map (fun t =>
          (computedDistance arith sample.features t.features, t.label))) ∧
      (sel.length : Int) = knn.K ∧
      (∀ a ∈ sel, ∀ b ∈ rest, a.1 ≤ b.1) ∧
      knn.predict arith sort sample = some label ∧
      label ∈ sel.map (fun d => d.2) ∧
      (∀ l, (sel.map (fun d => d.2)).count l ≤ (sel.map (fun d => d.2)).count label) ∧
      (∀ l, (sel.map (fun d => d.2)).count l = (sel.map (fun d => d.2)).count label →
        label ≤ l) := by
  refine ⟨?_, ?_⟩
  · intro t ht
    simp only [euclideanDistance,
      sumSqDiff_eq_foldl arith 0 _ _ (le_of_eq (harity t ht).symm), Option.map_some',
      computedDistance]
  have hd := distancesTo_eq arith sample knn.data (fun t ht => le_of_eq (harity t ht).symm)
  have hlen : knn.K.toNat ≤ (knn.data.map (fun t =>
      (computedDistance arith sample.features t.features, t.label))).length := by
    rw [List.length_map]; omega
  obtain ⟨hperm, hl, hnear⟩ := take_sorted_nearest sort hsort _ _ hlen
  have hlen2 : knn.K.toNat ≤ (sort (knn.data.map (fun t =>
      (computedDistance arith sample.features t.features, t.label)))).length := by
    rw [(hsort _).1.length_eq]; exact hlen
  have hne : ((sort (knn.data.map (fun t =>
      (computedDistance arith sample.features t.features, t.label)))).take knn.K.toNat).map
      (fun d => d.2) ≠ [] := by
    intro h
    have := congrArg List.length h
    rw [List.length_map, hl] at this
    simp only [List.length_nil] at this
    omega
  obtain ⟨h1, h2, h3⟩ := bestLabel_countLabels _ hne
  exact ⟨_, _, _, hperm, by rw [hl]; omega, hnear, predict_eq arith sort knn sample _ hd hlen2,
    h1, h2, h3⟩

/-- C2 (witness): `K = 1`, the two-point training set and the query `[0]`,
in IEEE-754 arithmetic with insertion sort. -/
theorem knn_predict_majority_of_computed_nearest_witness :
    (∀ t ∈ twoPointData ℚ, euclideanDistance ieee754 [0] t.features =
      some (computedDistance ieee754 [0] t.features)) ∧
    ∃ (sel rest : List (ℚ × String)) (label : String),
      (sel ++ rest).Perm
        ((twoPointData ℚ).map (fun t => (computedDistance ieee754 [0] t.features, t.label))) ∧
      (sel.length : Int) = 1 ∧
      (∀ a ∈ sel, ∀ b ∈ rest, a.1 ≤ b.1) ∧
      KNNClassifier.predict ieee754 stableSort { K := 1, data := twoPointData ℚ }
        { features := [0], label := "A" } = some label ∧
      label ∈ sel.map (fun d => d.2) ∧
      (∀ l, (sel.map (fun d => d.2)).count l ≤ (sel.map (fun d => d.2)).count label) ∧
      (∀ l, (sel.map (fun d => d.2)).count l = (sel.map (fun d => d.2)).count label →
        label ≤ l) :=
  knn_predict_majority_of_computed_nearest ieee754 stableSort isStdSort_stableSort
    { K := 1, data := twoPointData ℚ } { features := [0], label := "A" }
    (le_refl _) (by simp [twoPointData]) (by simp [twoPointData])

/-! ### Claim C3 -/

/-- With the facts about zero, the computed distance of a vector from itself
is `0`. -/
theorem computedDistance_self (arith : DoubleArith R) (hzero : arith.ZeroSound)
    (a : List R) : computedDistance arith a a = 0 := by
  obtain ⟨hsub, hmul, hadd, hsqrt, -⟩ := hzero
  have hfold : (a.zip a).foldl
      (fun sum p => arith.add sum (arith.mul (arith.sub p.1 p.2) (arith.sub p.1 p.2))) 0 =
      0 := by
    induction a with
    | nil => rfl
    | cons x a ih =>
      simp only [List.zip_cons_cons, List.foldl_cons, hsub, hmul, hadd]
      exact ih
  rw [computedDistance, hfold, hsqrt]

/-- With `K = 1` the vote is over the single nearest entry, so `predict`
returns the label of the head of the sorted distance list. -/
theorem predict_one (arith : DoubleArith R) (sort : List (R × String) → List (R × String))
    (hsort : IsStdSort sort) (data : List (IrisSample R)) (sample : IrisSample R)
    (hne : data ≠ [])
    (harity : ∀ t ∈ data, sample.features.length ≤ t.features.length) :
    ∃ hd tl,
      sort (data.map (fun t =>
        (computedDistance arith sample.features t.features, t.label))) = hd :: tl ∧
      ((KNNClassifier.new 1).fit data).predict arith sort sample = some hd.2 := by
  have hd := distancesTo_eq arith sample data harity
  obtain ⟨hperm, -⟩ := hsort (data.map (fun t =>
    (computedDistance arith sample.features t.features, t.label)))
  have hlen : (sort (data.map (fun t =>
      (computedDistance arith sample.features t.features, t.label)))).length =
      data.length := by
    rw [hperm.length_eq, List.length_map]
  have hpos : 0 < data.length := List.length_pos.mpr hne
  cases hsorted : sort (data.map (fun t =>
      (computedDistance arith sample.features t.features, t.label))) with
  | nil => rw [hsorted] at hlen; simp only [List.length_nil] at hlen; omega
  | cons h t =>
    refine ⟨h, t, rfl, ?_⟩
    have hK : ((KNNClassifier.new 1 : KNNClassifier R).fit data).K.toNat = 1 := rfl
    rw [predict_eq arith sort _ sample _ hd (by rw [hK, hlen]; exact hpos), hK, hsorted]
    have hb := (bestLabel_countLabels [h.2] (by simp)).1
    simp only [List.take_succ_cons, List.take_zero, List.map_cons, List.map_nil]
    rw [List.mem_singleton.mp hb]

theorem roundDouble_two_pow_neg600 : roundDouble (2 ^ 600)⁻¹ = (2 ^ 600)⁻¹ := by
  rw [roundDouble_pos _ (-600) (by norm_num) (by norm_num) (by decide)]
  norm_num [roundHalfEven]

/-- In binary64, the square of `2^-600` underflows to `0`. -/
theorem roundDouble_two_pow_neg1200 : roundDouble ((2 ^ 600)⁻¹ * (2 ^ 600)⁻¹) = 0 := by
  rw [roundDouble_subnormal _ (by rw [abs_of_pos (by positivity)]; norm_num)]
  norm_num [roundHalfEven]

/-- C3 (counterexample): the training set `([0], B), ([2^-600], A)` has no two
samples with the same features, yet with `K = 1` the training sample
`([2^-600], A)` is classified `B`: in IEEE-754 arithmetic the squared
difference `2^-1200` underflows to `0`, both computed distances are `0`, and
`std::sort` leaves the entry of `B` first. -/
theorem knn_one_underflow_counterexample :
    underflowData ℚ ≠ [] ∧
    (∀ a ∈ underflowData ℚ, ∀ b ∈ underflowData ℚ,
      a.features = b.features → a.label = b.label) ∧
    ({ features := [1 / 2 ^ 600], label := "A" } : IrisSample ℚ) ∈ underflowData ℚ ∧
    distancesTo ieee754 { features := [1 / 2 ^ 600], label := "A" } (underflowData ℚ) =
      some [(0, "B"), (0, "A")] ∧
    ((KNNClassifier.new 1).fit (underflowData ℚ)).predict ieee754 (gnuSort distanceLess)
      { features := [1 / 2 ^ 600], label := "A" } = some "B" := by
  have hd : distancesTo ieee754 { features := [1 / 2 ^ 600], label := "A" }
      (underflowData ℚ) = some [(0, "B"), (0, "A")] := by
    rw [distancesTo_eq ieee754 _ _ (by simp [underflowData])]
    have h1 : computedDistance ieee754 [1 / 2 ^ 600] [0] = 0 := by
      rw [computedDistance_one]
      simp only [ieee754_add, ieee754_sub, ieee754_mul, ieee754_sqrt, sub_zero, one_div,
        roundDouble_two_pow_neg600, roundDouble_two_pow_neg1200, zero_add, roundDouble_zero,
        sqrtDouble_zero]
    simp only [underflowData, List.map_cons, List.map_nil, h1, computedDistance_ieee_self]
  have hsort : gnuSort distanceLess [((0 : ℚ), "B"), (0, "A")] = [(0, "B"), (0, "A")] := by
    decide
  refine ⟨by simp [underflowData], ?_, by simp [underflowData], hd, ?_⟩
  · intro a ha b hb hab
    simp only [underflowData, List.mem_cons, List.mem_singleton, List.not_mem_nil,
      or_false] at ha hb
    have hne : ([0] : List ℚ) ≠ [1 / 2 ^ 600] := by
      intro h
      have h0 : (0 : ℚ) = 1 / 2 ^ 600 := List.head_eq_of_cons_eq h
      have hpos : (0 : ℚ) < 1 / 2 ^ 600 := by positivity
      exact absurd h0 (ne_of_lt hpos)
    rcases ha with rfl | rfl <;> rcases hb with rfl | rfl
    · rfl
    · exact absurd hab hne
    · exact absurd hab.symm hne
    · rfl
  · have hK : ((KNNClassifier.new 1 : KNNClassifier ℚ).fit (underflowData ℚ)).K.toNat = 1 := rfl
    rw [predict_eq ieee754 _ _ _ _ hd (by rw [hsort, hK]; decide), hsort, hK]
    simp +decide [countLabels, StdMap.update, bestLabel]

/-- C3 (amended): in an arithmetic with the facts about zero, on a training
set whose samples have one arity, a classifier with `K = 1` returns the own
label of every training sample `s` from which no training sample with another
label has the computed distance `0`, whatever order `std::sort` gives to equal
distances. -/
theorem knn_one_classifies_separated (arith : DoubleArith R) (hzero : arith.ZeroSound)
    (sort : List (R × String) → List (R × String)) (hsort : IsStdSort sort)
    (data : List (IrisSample R)) (s : IrisSample R) (hs : s ∈ data)
    (harity : ∀ a ∈ data, ∀ b ∈ data, a.features.length = b.features.length)
    (hsep : ∀ t ∈ data, t.label ≠ s.label →
      computedDistance arith s.features t.features ≠ 0) :
    ((KNNClassifier.new 1).fit data).predict arith sort s = some s.label := by
  obtain ⟨hd, tl, hsorted, hpred⟩ := predict_one arith sort hsort data s
    (List.ne_nil_of_mem hs) (fun t ht => le_of_eq (harity s hs t ht))
  rw [hpred]
  obtain ⟨hperm, hpair⟩ := hsort (data.map (fun t =>
    (computedDistance arith s.features t.features, t.label)))
  rw [hsorted] at hperm hpair
  have hself : (computedDistance arith s.features s.features, s.label) ∈ hd :: tl :=
    hperm.mem_iff.mpr (List.mem_map.mpr ⟨s, hs, rfl⟩)
  rw [computedDistance_self arith hzero] at hself
  have hhd : hd ∈ data.map (fun t =>
      (computedDistance arith s.features t.features, t.label)) :=
    hperm.mem_iff.mp (List.mem_cons_self _ _)
  obtain ⟨t, ht, hteq⟩ := List.mem_map.mp hhd
  have hle : hd.1 ≤ 0 := by
    rcases List.mem_cons.mp hself with h | h
    · rw [← h]
    · exact not_lt.mp ((List.pairwise_cons.mp hpair).1 _ h)
  rw [← hteq] at hle ⊢
  simp only at hle ⊢
  have h0 : computedDistance arith s.features t.features = 0 :=
    le_antisymm hle (hzero.2.2.2.2 _)
  by_contra hne
  exact hsep t ht (fun h => hne (by rw [h])) h0

/-- C3 (witness): IEEE-754 arithmetic, the two-point training set, its second
sample and insertion sort. -/
theorem knn_one_classifies_separated_witness :
    ((KNNClassifier.new 1).fit (twoPointData ℚ)).predict ieee754 stableSort
      { features := [1], label := "B" } = some "B" :=
  knn_one_classifies_separated ieee754 ieee754_zeroSound stableSort isStdSort_stableSort
    (twoPointData ℚ) { features := [1], label := "B" } (by simp [twoPointData])
    (by simp [twoPointData])
    (by
      intro t ht hl
      simp only [twoPointData, List.mem_cons, List.mem_singleton, List.not_mem_nil,
        or_false] at ht
      rcases ht with rfl | rfl
      · rw [computedDistance_ieee_one_zero]
        exact one_ne_zero
      · exact absurd rfl hl)

/-! ### Claim C4 -/

/-- A stable sort keeps, for every distance, the entries at that distance in
the order of the input. -/
theorem filter_of_stable (sort : List (R × String) → List (R × String))
    (hsort : IsStdSort sort) (hstable : IsStableSort sort) (l : List (R × String)) (d : R) :
    (sort l).filter (fun x => decide (x.1 = d)) = l.filter (fun x => decide (x.1 = d)) := by
  have hsub : (l.filter (fun x => decide (x.1 = d))).Sublist (sort l) :=
    hstable l _ d (fun x hx => by simpa using (List.mem_filter.mp hx).2)
      (List.filter_sublist l)
  have hsub2 := hsub.filter (fun x => decide (x.1 = d))
  rw [List.filter_filter] at hsub2
  simp only [Bool.and_self] at hsub2
  have hlen : ((sort l).filter (fun x => decide (x.1 = d))).length =
      (l.filter (fun x => decide (x.1 = d))).length := ((hsort l).1.filter _).length_eq
  exact (hsub2.eq_of_length hlen.symm).symm

/-- Two lists ascending in distance that agree, for every distance, on the
entries at that distance are equal. -/
theorem eq_of_filter_eq (l1 l2 : List (R × String))
    (h1 : l1.Pairwise (fun a b => ¬ b.1 < a.1)) (h2 : l2.Pairwise (fun a b => ¬ b.1 < a.1))
    (hf : ∀ d : R, l1.filter (fun x => decide (x.1 = d)) =
      l2.filter (fun x => decide (x.1 = d))) : l1 = l2 := by
  induction l1 generalizing l2 with
  | nil =>
    cases l2 with
    | nil => rfl
    | cons b t2 =>
      have := hf b.1
      simp at this
  | cons a t1 ih =>
    cases l2 with
    | nil =>
      have := hf a.1
      simp at this
    | cons b t2 =>
      have hmem1 : ∀ x, x ∈ a :: t1 ↔ x ∈ b :: t2 := by
        intro x
        have hx := hf x.1
        constructor
        · intro h
          have : x ∈ (a :: t1).filter (fun y => decide (y.1 = x.1)) :=
            List.mem_filter.mpr ⟨h, by simp⟩
          rw [hx] at this
          exact (List.mem_filter.mp this).1
        · intro h
          have : x ∈ (b :: t2).filter (fun y => decide (y.1 = x.1)) :=
            List.mem_filter.mpr ⟨h, by simp⟩
          rw [← hx] at this
          exact (List.mem_filter.mp this).1
      have hab : a.1 ≤ b.1 := by
        rcases List.mem_cons.mp ((hmem1 b).mpr (List.mem_cons_self _ _)) with h | h
        · rw [h]
        · exact not_lt.mp ((List.pairwise_cons.mp h1).1 b h)
      have hba : b.1 ≤ a.1 := by
        rcases List.mem_cons.mp ((hmem1 a).mp (List.mem_cons_self _ _)) with h | h
        · rw [h]
        · exact not_lt.mp ((List.pairwise_cons.mp h2).1 a h)
      have hkey : a.1 = b.1 := le_antisymm hab hba
      have hhead := hf a.1
      rw [List.filter_cons_of_pos (by simp), List.filter_cons_of_pos (by simp [hkey])] at hhead
      have heq : a = b := List.head_eq_of_cons_eq hhead
      subst heq
      congr 1
      apply ih t2 (List.pairwise_cons.mp h1).2 (List.pairwise_cons.mp h2).2
      intro d
      have hd := hf d
      by_cases hda : a.1 = d
      · rw [List.filter_cons_of_pos (by simp [hda]), List.filter_cons_of_pos (by simp [hda])] at hd
        exact List.tail_eq_of_cons_eq hd
      · rw [List.filter_cons_of_neg (by simp [hda]), List.filter_cons_of_neg (by simp [hda])] at hd
        exact hd

/-- A stable ascending sort is the insertion sort. -/
theorem stable_eq_stableSort (sort : List (R × String) → List (R × String))
    (hsort : IsStdSort sort) (hstable : IsStableSort sort) (l : List (R × String)) :
    sort l = stableSort l := by
  apply eq_of_filter_eq _ _ (hsort l).2 (isStdSort_stableSort l).2
  intro d
  rw [filter_of_stable sort hsort hstable, filter_of_stable stableSort isStdSort_stableSort
    isStableSort_stableSort]

theorem distances_fiveATwoB (arith : DoubleArith R) (v q : List R) (lbl : String)
    (hq : q.length ≤ v.length) :
    distancesTo arith { features := q, label := lbl } (fiveATwoB v) =
      some [(computedDistance arith q v, "A"), (computedDistance arith q v, "A"),
        (computedDistance arith q v, "A"), (computedDistance arith q v, "A"),
        (computedDistance arith q v, "A"), (computedDistance arith q v, "B"),
        (computedDistance arith q v, "B")] := by
  rw [distancesTo_eq]
  · rfl
  · intro t ht
    simp only [fiveATwoB, List.mem_append, List.mem_replicate] at ht
    rcases ht with ⟨-, rfl⟩ | ⟨-, rfl⟩ <;> exact hq

/-- With a stable sort, `K = 3` on five `(v, A)` followed by two `(v, B)`
answers `A`. -/
theorem predict_fiveATwoB (arith : DoubleArith R)
    (sort : List (R × String) → List (R × String)) (hsort : IsStdSort sort)
    (hstable : IsStableSort sort) (v q : List R) (lbl : String)
    (hq : q.length ≤ v.length) :
    KNNClassifier.predict arith sort { K := 3, data := fiveATwoB v }
      { features := q, label := lbl } = some "A" := by
  have hd := distances_fiveATwoB arith v q lbl hq
  have hsub := hstable _ _ (computedDistance arith q v) (by simp) (List.Sublist.refl
    [(computedDistance arith q v, "A"), (computedDistance arith q v, "A"),
      (computedDistance arith q v, "A"), (computedDistance arith q v, "A"),
      (computedDistance arith q v, "A"), (computedDistance arith q v, "B"),
      (computedDistance arith q v, "B")])
  have heq := hsub.eq_of_length (hsort _).1.length_eq.symm
  have hK : (3 : Int).toNat ≤ [(computedDistance arith q v, "A"),
      (computedDistance arith q v, "A"), (computedDistance arith q v, "A"),
      (computedDistance arith q v, "A"), (computedDistance arith q v, "A"),
      (computedDistance arith q v, "B"), (computedDistance arith q v, "B")].length := by
    simp only [List.length_cons, List.length_nil]
    decide
  rw [predict_eq arith sort _ _ _ hd (by rw [← heq]; exact hK), ← heq]
  simp +decide [countLabels, StdMap.update, bestLabel, String.lt_iff_toList_lt]

/-- On seven equal keys, the `std::sort` of libstdc++ (an insertion sort up
to sixteen elements) moves nothing. -/
theorem gnuSort_seven_equal (d : R) (a1 a2 a3 a4 a5 a6 a7 : String) :
    gnuSort distanceLess [(d, a1), (d, a2), (d, a3), (d, a4), (d, a5), (d, a6), (d, a7)] =
      [(d, a1), (d, a2), (d, a3), (d, a4), (d, a5), (d, a6), (d, a7)] := by
  have hlt : ∀ x y : String, distanceLess (d, x) (d, y) = false := by
    intro x y
    simp [distanceLess]
  have hr : (List.range 7).drop 1 = [1, 2, 3, 4, 5, 6] := rfl
  simp [gnuSort, introsortLoop, finalInsertionSort, insertionSortRange, insertionStep,
    unguardedLinearInsert, hlt, hr, List.getD]

/-- With the `std::sort` of libstdc++, `K = 3` on five `(v, A)` followed by
two `(v, B)` answers `A`. -/
theorem predict_fiveATwoB_gnuSort (arith : DoubleArith R) (v q : List R) (lbl : String)
    (hq : q.length ≤ v.length) :
    KNNClassifier.predict arith (gnuSort distanceLess) { K := 3, data := fiveATwoB v }
      { features := q, label := lbl } = some "A" := by
  have hd := distances_fiveATwoB arith v q lbl hq
  have hK : (3 : Int).toNat ≤ [(computedDistance arith q v, "A"),
      (computedDistance arith q v, "A"), (computedDistance arith q v, "A"),
      (computedDistance arith q v, "A"), (computedDistance arith q v, "A"),
      (computedDistance arith q v, "B"), (computedDistance arith q v, "B")].length := by
    simp only [List.length_cons, List.length_nil]
    decide
  rw [predict_eq arith (gnuSort distanceLess) _ _ _ hd
    (by rw [gnuSort_seven_equal]; exact hK), gnuSort_seven_equal]
  simp +decide [countLabels, StdMap.update, bestLabel, String.lt_iff_toList_lt]

set_option maxRecDepth 100000 in
/-- On seventeen equal keys, the `std::sort` of libstdc++ moves the ninth
entry to the front. -/
theorem gnuSort_seventeen :
    (gnuSort distanceLess
      [((0 : ℚ), "A"), (0, "A"), (0, "A"), (0, "A"), (0, "A"), (0, "A"), (0, "A"), (0, "A"),
        (0, "B"), (0, "A"), (0, "A"), (0, "A"), (0, "A"), (0, "A"), (0, "A"), (0, "A"),
        (0, "A")]) =
      [((0 : ℚ), "B"), (0, "A"), (0, "A"), (0, "A"), (0, "A"), (0, "A"), (0, "A"), (0, "A"),
        (0, "A"), (0, "A"), (0, "A"), (0, "A"), (0, "A"), (0, "A"), (0, "A"), (0, "A"),
        (0, "A")] := by
  decide

/-- C4 (counterexample): seventeen training samples with the features `[0]`,
all at distance `0` from the query `[0]`: eight `A`, one `B`, eight `A`.  With
`K = 1` the sample inserted first is an `A`, and the stable sort selects it;
the `std::sort` of libstdc++ moves the ninth entry to the front, and `predict`
returns `B`. -/
theorem knn_insertion_order_counterexample :
    ((seventeenSamples ([0] : List ℚ)).map (fun t => t.label)).head? = some "A" ∧
    distancesTo ieee754 { features := [0], label := "A" } (seventeenSamples [0]) =
      some ((seventeenSamples ([0] : List ℚ)).map (fun t => ((0 : ℚ), t.label))) ∧
    KNNClassifier.predict ieee754 stableSort { K := 1, data := seventeenSamples [0] }
      { features := [0], label := "A" } = some "A" ∧
    KNNClassifier.predict ieee754 (gnuSort distanceLess)
      { K := 1, data := seventeenSamples [0] } { features := [0], label := "A" } =
        some "B" := by
  have hd : distancesTo ieee754 { features := [0], label := "A" } (seventeenSamples [0]) =
      some ((seventeenSamples ([0] : List ℚ)).map (fun t => ((0 : ℚ), t.label))) := by
    rw [distancesTo_eq ieee754 _ _ (by simp [seventeenSamples])]
    congr 1
    apply List.map_congr_left
    intro t ht
    have hf : t.features = [0] := by
      simp only [seventeenSamples, List.mem_append, List.mem_replicate, List.mem_cons] at ht
      rcases ht with ⟨-, rfl⟩ | rfl | ⟨-, rfl⟩ <;> rfl
    rw [hf, computedDistance_ieee_self]
  have hlist : (seventeenSamples ([0] : List ℚ)).map (fun t => ((0 : ℚ), t.label)) =
      [((0 : ℚ), "A"), (0, "A"), (0, "A"), (0, "A"), (0, "A"), (0, "A"), (0, "A"), (0, "A"),
        (0, "B"), (0, "A"), (0, "A"), (0, "A"), (0, "A"), (0, "A"), (0, "A"), (0, "A"),
        (0, "A")] := rfl
  refine ⟨rfl, hd, ?_, ?_⟩
  · rw [predict_eq ieee754 _ _ _ _ hd
      (by rw [(isStdSort_stableSort _).1.length_eq, hlist]; decide)]
    have hst : (stableSort ((seventeenSamples ([0] : List ℚ)).map
        (fun t => ((0 : ℚ), t.label)))).take 1 = [(0, "A")] := by
      rw [hlist]
      simp [stableSort, List.insertionSort, List.orderedInsert]
    have hK : (1 : Int).toNat = 1 := rfl
    simp only [hK, hst]
    simp +decide [countLabels, StdMap.update, bestLabel]
  · have hK : (1 : Int).toNat = 1 := rfl
    rw [predict_eq ieee754 _ _ _ _ hd (by rw [hlist, gnuSort_seventeen]; decide), hK, hlist,
      gnuSort_seventeen]
    simp +decide [countLabels, StdMap.update, bestLabel]

/-- C4 (amended): the `K` neighbours used for the vote are the first `K`
entries of what `std::sort` returns, a permutation of the pairs (computed
distance, label) in insertion order that is ascending in distance; the order
among equidistant entries is the one `std::sort` leaves.  When the sort keeps
equidistant entries in insertion order, its result is the stable ascending
sort, so among equidistant samples the ones inserted earlier are selected
first, and `K = 3` on five `(v, A)` followed by two `(v, B)` answers `A` for
every query.  The same answer is given with the `std::sort` of libstdc++,
which moves none of seven equal keys. -/
theorem knn_vote_over_sorted_prefix (arith : DoubleArith R)
    (sort : List (R × String) → List (R × String)) (hsort : IsStdSort sort)
    (knn : KNNClassifier R) (sample : IrisSample R)
    (hK : knn.K ≤ (knn.data.length : Int))
    (harity : ∀ t ∈ knn.data, sample.features.length ≤ t.features.length) :
    (sort (knn.data.map (fun t =>
        (computedDistance arith sample.features t.features, t.label)))).Perm
      (knn.data.map (fun t =>
        (computedDistance arith sample.features t.features, t.label))) ∧
    (sort (knn.data.map (fun t =>
        (computedDistance arith sample.features t.features, t.label)))).Pairwise
      (fun a b => ¬ b.1 < a.1) ∧
    knn.predict arith sort sample =
      some (bestLabel (countLabels (((sort (knn.data.map (fun t =>
        (computedDistance arith sample.features t.features, t.label)))).take
          knn.K.toNat).map (fun d => d.2)))) ∧
    (IsStableSort sort →
      sort (knn.data.map (fun t =>
        (computedDistance arith sample.features t.features, t.label))) =
        stableSort (knn.data.map (fun t =>
          (computedDistance arith sample.features t.features, t.label))) ∧
      ∀ (v q : List R) (lbl : String), q.length ≤ v.length →
        KNNClassifier.predict arith sort { K := 3, data := fiveATwoB v }
          { features := q, label := lbl } = some "A") ∧
    (∀ (v q : List R) (lbl : String), q.length ≤ v.length →
      KNNClassifier.predict arith (gnuSort distanceLess) { K := 3, data := fiveATwoB v }
        { features := q, label := lbl } = some "A") := by
  have hd := distancesTo_eq arith sample knn.data harity
  refine ⟨(hsort _).1, (hsort _).2, ?_, ?_,
    fun v q lbl hq => predict_fiveATwoB_gnuSort arith v q lbl hq⟩
  · apply predict_eq arith sort knn sample _ hd
    rw [(hsort _).1.length_eq, List.length_map]
    omega
  · intro hstable
    exact ⟨stable_eq_stableSort sort hsort hstable _,
      fun v q lbl hq => predict_fiveATwoB arith sort hsort hstable v q lbl hq⟩

/-- C4 (witness): IEEE-754 arithmetic, insertion sort and `K = 1` on the
two-point training set. -/
theorem knn_vote_over_sorted_prefix_witness :
    (stableSort ((twoPointData ℚ).map (fun t =>
        (computedDistance ieee754 [0] t.features, t.label)))).Perm
      ((twoPointData ℚ).map (fun t => (computedDistance ieee754 [0] t.features, t.label))) ∧
    (stableSort ((twoPointData ℚ).map (fun t =>
        (computedDistance ieee754 [0] t.features, t.label)))).Pairwise
      (fun a b => ¬ b.1 < a.1) ∧
    KNNClassifier.predict ieee754 stableSort { K := 1, data := twoPointData ℚ }
        { features := [0], label := "A" } =
      some (bestLabel (countLabels (((stableSort ((twoPointData ℚ).map (fun t =>
        (computedDistance ieee754 [0] t.features, t.label)))).take
          (1 : Int).toNat).map (fun d => d.2)))) ∧
    (IsStableSort (stableSort : List (ℚ × String) → _) →
      stableSort ((twoPointData ℚ).map (fun t =>
        (computedDistance ieee754 [0] t.features, t.label))) =
        stableSort ((twoPointData ℚ).map (fun t =>
          (computedDistance ieee754 [0] t.features, t.label))) ∧
      ∀ (v q : List ℚ) (lbl : String), q.length ≤ v.length →
        KNNClassifier.predict ieee754 stableSort { K := 3, data := fiveATwoB v }
          { features := q, label := lbl } = some "A") ∧
    (∀ (v q : List ℚ) (lbl : String), q.length ≤ v.length →
      KNNClassifier.predict ieee754 (gnuSort distanceLess) { K := 3, data := fiveATwoB v }
        { features := q, label := lbl } = some "A") :=
  knn_vote_over_sorted_prefix ieee754 stableSort isStdSort_stableSort
    { K := 1, data := twoPointData ℚ } { features := [0], label := "A" }
    (by simp [twoPointData]) (by simp [twoPointData])

end KNNProofs

/-! ## Properties of the decision tree -/

section DecisionTreeProofs

variable {R : Type} [LinearOrderedField R]

theorem splitData_length (data : List (IrisSample R)) (f : Int) (t : R)
    (l r : List (IrisSample R)) (h : splitData data f t = some (l, r)) :
    l.length + r.length = data.length := by
  induction data generalizing l r with
  | nil =>
    simp only [splitData, Option.some.injEq, Prod.mk.injEq] at h
    obtain ⟨rfl, rfl⟩ := h
    rfl
  | cons s rest ih =>
    simp only [splitData] at h
    split at h
    · exact absurd h (by simp)
    · split at h
      · exact absurd h (by simp)
      · rename_i l1 r1 hrec
        have := ih l1 r1 hrec
        split at h
        · simp only [Option.some.injEq, Prod.mk.injEq] at h
          obtain ⟨rfl, rfl⟩ := h
          simp only [List.length_cons]; omega
        · simp only [Option.some.injEq, Prod.mk.injEq] at h
          obtain ⟨rfl, rfl⟩ := h
          simp only [List.length_cons]; omega

/-- Every sample of `data` has the split feature, and lands on the side that
the comparison `<=` with the threshold selects. -/
theorem splitData_mem (data : List (IrisSample R)) (f : Int) (t : R)
    (l r : List (IrisSample R)) (h : splitData data f t = some (l, r)) :
    ∀ s ∈ data, ∃ x, vecGet? s.features f = some x ∧
      (x ≤ t → s ∈ l) ∧ (¬ x ≤ t → s ∈ r) := by
  induction data generalizing l r with
  | nil => intro s hs; simp at hs
  | cons s0 rest ih =>
    simp only [splitData] at h
    split at h
    · exact absurd h (by simp)
    · rename_i x hx
      split at h
      · exact absurd h (by simp)
      · rename_i l1 r1 hrec
        have hrest := ih l1 r1 hrec
        intro s hs
        rcases List.mem_cons.mp hs with rfl | hs
        · refine ⟨x, hx, ?_, ?_⟩
          · intro hle
            rw [if_pos hle] at h
            simp only [Option.some.injEq, Prod.mk.injEq] at h
            obtain ⟨rfl, rfl⟩ := h
            exact List.mem_cons_self _ _
          · intro hle
            rw [if_neg hle] at h
            simp only [Option.some.injEq, Prod.mk.injEq] at h
            obtain ⟨rfl, rfl⟩ := h
            exact List.mem_cons_self _ _
        · obtain ⟨y, hy, hL, hR⟩ := hrest s hs
          refine ⟨y, hy, ?_, ?_⟩
          · intro hle
            split at h
            · simp only [Option.some.injEq, Prod.mk.injEq] at h
              obtain ⟨rfl, rfl⟩ := h
              exact List.mem_cons_of_mem _ (hL hle)
            · simp only [Option.some.injEq, Prod.mk.injEq] at h
              obtain ⟨rfl, rfl⟩ := h
              exact hL hle
          · intro hle
            split at h
            · simp only [Option.some.injEq, Prod.mk.injEq] at h
              obtain ⟨rfl, rfl⟩ := h
              exact hR hle
            · simp only [Option.some.injEq, Prod.mk.injEq] at h
              obtain ⟨rfl, rfl⟩ := h
              exact List.mem_cons_of_mem _ (hR hle)

omit [LinearOrderedField R] in
theorem allSameLabel_label (d0 : IrisSample R) (rest : List (IrisSample R))
    (h : allSameLabel (d0 :: rest) = true) : ∀ s ∈ d0 :: rest, s.label = d0.label := by
  intro s hs
  simp only [allSameLabel, List.all_eq_true, decide_eq_true_eq] at h
  exact h s hs

theorem Separated.ne_nil {log2 : R → R} {data : List (IrisSample R)}
    (h : Separated log2 data) : data ≠ [] := by
  cases h with
  | pure _ hne _ => exact hne
  | split _ sp l r hall _ _ _ _ _ =>
    intro hnil
    subst hnil
    simp [allSameLabel] at hall

/-- On a non-empty dataset `buildTree` never returns `NULL`. -/
theorem buildTree_isNull (log2 : R → R) (data : List (IrisSample R)) (hne : data ≠ [])
    (t : Node R) (h : buildTree log2 data = some t) : t.isNull = false := by
  cases data with
  | nil => exact absurd rfl hne
  | cons d0 rest =>
    rw [buildTree] at h
    split at h
    · cases h; rfl
    · split at h
      · exact absurd h (by simp)
      · split at h
        · cases h; rfl
        · split at h
          · exact absurd h (by simp)
          · split at h
            · cases h; rfl
            · split at h
              · split at h
                · cases h; rfl
                · cases h; rfl
              · exact absurd h (by simp)

theorem predictSample_mkLeaf (label : String) (s : IrisSample R) :
    predictSample (Node.mkLeaf label : Node R) s = some label := by
  simp [Node.mkLeaf, predictSample]

/-- When induction never falls back to a majority leaf, `buildTree` returns a
tree that classifies every training sample correctly. -/
theorem buildTree_separated (log2 : R → R) (data : List (IrisSample R))
    (h : Separated log2 data) :
    ∃ t, buildTree log2 data = some t ∧ ∀ s ∈ data, predictSample t s = some s.label := by
  induction h with
  | pure data hne hall =>
    cases data with
    | nil => exact absurd rfl hne
    | cons d0 rest =>
      refine ⟨Node.mkLeaf d0.label, ?_, ?_⟩
      · rw [buildTree, if_pos hall]
      · intro s hs
        rw [predictSample_mkLeaf, allSameLabel_label d0 rest hall s hs]
  | split data sp l r hall hfind hidx hsplit hl hr ihl ihr =>
    obtain ⟨tl, htl, hpl⟩ := ihl
    obtain ⟨tr, htr, hpr⟩ := ihr
    have hnl := buildTree_isNull log2 l hl.ne_nil tl htl
    have hnr := buildTree_isNull log2 r hr.ne_nil tr htr
    cases data with
    | nil => simp [allSameLabel] at hall
    | cons d0 rest =>
      refine ⟨Node.node false "" sp.feature_index sp.threshold tl tr, ?_, ?_⟩
      · rw [buildTree]
        simp only [hall, Bool.false_eq_true, if_false, hfind, hidx]
        split
        · rename_i heq
          rw [hsplit] at heq
          exact absurd heq (by simp)
        · rename_i l1 r1 heq
          rw [hsplit] at heq
          simp only [Option.some.injEq, Prod.mk.injEq] at heq
          obtain ⟨rfl, rfl⟩ := heq
          have hle : ¬ (l.isEmpty || r.isEmpty) = true := by
            simp only [Bool.or_eq_true, List.isEmpty_iff, not_or]
            exact ⟨hl.ne_nil, hr.ne_nil⟩
          rw [dif_neg hle]
          simp only [htl, htr, hnl, hnr, Bool.or_self, Bool.false_eq_true, if_false]
      · intro s hs
        obtain ⟨x, hx, hL, hR⟩ := splitData_mem _ _ _ _ _ hsplit s hs
        simp only [predictSample, Bool.false_eq_true, if_false, hx]
        by_cases hle : x ≤ sp.threshold
        · rw [if_pos hle]
          exact hpl s (hL hle)
        · rw [if_neg hle]
          exact hpr s (hR hle)

/-- Every sample of the left part is a sample of `data` that passes the test
`<= threshold`, and every sample of the right part one that fails it. -/
theorem splitData_parts (data : List (IrisSample R)) (f : Int) (t : R)
    (l r : List (IrisSample R)) (h : splitData data f t = some (l, r)) :
    (∀ s ∈ l, s ∈ data ∧ ∃ x, vecGet? s.features f = some x ∧ x ≤ t) ∧
    (∀ s ∈ r, s ∈ data ∧ ∃ x, vecGet? s.features f = some x ∧ ¬ x ≤ t) := by
  induction data generalizing l r with
  | nil =>
    simp only [splitData, Option.some.injEq, Prod.mk.injEq] at h
    obtain ⟨rfl, rfl⟩ := h
    exact ⟨fun s hs => by simp at hs, fun s hs => by simp at hs⟩
  | cons s0 rest ih =>
    simp only [splitData] at h
    split at h
    · exact absurd h (by simp)
    · rename_i x hx
      split at h
      · exact absurd h (by simp)
      · rename_i l1 r1 hrec
        obtain ⟨hL, hR⟩ := ih l1 r1 hrec
        split at h
        · rename_i hle
          simp only [Option.some.injEq, Prod.mk.injEq] at h
          obtain ⟨rfl, rfl⟩ := h
          refine ⟨?_, fun s hs => ⟨List.mem_cons_of_mem _ (hR s hs).1, (hR s hs).2⟩⟩
          intro s hs
          rcases List.mem_cons.mp hs with rfl | hs
          · exact ⟨List.mem_cons_self _ _, x, hx, hle⟩
          · exact ⟨List.mem_cons_of_mem _ (hL s hs).1, (hL s hs).2⟩
        · rename_i hle
          simp only [Option.some.injEq, Prod.mk.injEq] at h
          obtain ⟨rfl, rfl⟩ := h
          refine ⟨fun s hs => ⟨List.mem_cons_of_mem _ (hL s hs).1, (hL s hs).2⟩, ?_⟩
          intro s hs
          rcases List.mem_cons.mp hs with rfl | hs
          · exact ⟨List.mem_cons_self _ _, x, hx, hle⟩
          · exact ⟨List.mem_cons_of_mem _ (hR s hs).1, (hR s hs).2⟩

omit [LinearOrderedField R] in
theorem allSameLabel_of_forall (d0 : IrisSample R) (rest : List (IrisSample R)) (c : String)
    (h : ∀ s ∈ d0 :: rest, s.label = c) : allSameLabel (d0 :: rest) = true := by
  simp only [allSameLabel, List.all_eq_true, decide_eq_true_eq]
  intro s hs
  rw [h s hs, h d0 (List.mem_cons_self _ _)]

/-- Conversely, a tree that classifies every sample of its non-empty training
set correctly was built without any majority leaf: the condition of
`buildTree_separated` is necessary. -/
theorem separated_of_classified (log2 : R → R) (n : Nat) (data : List (IrisSample R))
    (hn : data.length ≤ n) (hne : data ≠ []) (t : Node R)
    (hb : buildTree log2 data = some t)
    (hp : ∀ s ∈ data, predictSample t s = some s.label) : Separated log2 data := by
  induction n generalizing data t with
  | zero =>
    exact absurd (List.length_eq_zero.mp (Nat.le_zero.mp hn)) hne
  | succ n ih =>
    cases data with
    | nil => exact absurd rfl hne
    | cons d0 rest =>
      have hleaf : ∀ c : String, t = Node.mkLeaf c → allSameLabel (d0 :: rest) = true := by
        intro c hc
        apply allSameLabel_of_forall d0 rest c
        intro s hs
        have := hp s hs
        rw [hc, predictSample_mkLeaf] at this
        exact (Option.some.inj this).symm
      rw [buildTree] at hb
      split at hb
      · rename_i hall
        exact Separated.pure _ hne hall
      · rename_i hall
        split at hb
        · exact absurd hb (by simp)
        · rename_i sp hfind
          split at hb
          · exact absurd (hleaf _ (Option.some.inj hb).symm) hall
          · rename_i hidx
            split at hb
            · exact absurd hb (by simp)
            · rename_i l r hsplit
              split at hb
              · exact absurd (hleaf _ (Option.some.inj hb).symm) hall
              · rename_i hempty
                simp only [Bool.or_eq_true, List.isEmpty_iff, not_or] at hempty
                have hlen := splitData_length _ _ _ _ _ hsplit
                have hl1 : 0 < l.length := List.length_pos.mpr hempty.1
                have hr1 : 0 < r.length := List.length_pos.mpr hempty.2
                simp only [List.length_cons] at hlen hn
                split at hb
                · rename_i tl tr htl htr
                  split at hb
                  · exact absurd (hleaf _ (Option.some.inj hb).symm) hall
                  · have ht := (Option.some.inj hb).symm
                    obtain ⟨hL, hR⟩ := splitData_parts _ _ _ _ _ hsplit
                    refine Separated.split _ sp l r (by simpa using hall) hfind hidx hsplit
                      ?_ ?_
                    · apply ih l (by omega) hempty.1 tl htl
                      intro s hs
                      obtain ⟨hsd, x, hx, hle⟩ := hL s hs
                      have := hp s hsd
                      rw [ht] at this
                      simpa only [predictSample, Bool.false_eq_true, if_false, hx,
                        if_pos hle] using this
                    · apply ih r (by omega) hempty.2 tr htr
                      intro s hs
                      obtain ⟨hsd, x, hx, hle⟩ := hR s hs
                      have := hp s hsd
                      rw [ht] at this
                      simpa only [predictSample, Bool.false_eq_true, if_false, hx,
                        if_neg hle] using this
                · exact absurd hb (by simp)

/-! ### The exclusive-or dataset: every candidate split has gain zero -/

theorem logb_two_half : Real.logb 2 (2 / 4) = -1 := by
  rw [show (2:ℝ) / 4 = 2⁻¹ by norm_num, Real.logb_inv]
  simp

theorem entropy_xor : entropy (Real.logb 2) (xorData ℝ) = 1 := by
  simp +decide [entropy, xorData, countLabels, StdMap.update, String.lt_iff_toList_lt]
  rw [logb_two_half]; norm_num

theorem entropy_AB (a b : List ℝ) :
    entropy (Real.logb 2)
      [{ features := a, label := "A" }, { features := b, label := "B" }] = 1 := by
  simp +decide [entropy, countLabels, StdMap.update, String.lt_iff_toList_lt]
  norm_num

theorem entropy_BA (a b : List ℝ) :
    entropy (Real.logb 2)
      [{ features := a, label := "B" }, { features := b, label := "A" }] = 1 := by
  simp +decide [entropy, countLabels, StdMap.update, String.lt_iff_toList_lt]
  norm_num

theorem entropy_single (log2 : ℝ → ℝ) (h1 : log2 1 = 0) (s : IrisSample ℝ) :
    entropy log2 [s] = 0 := by
  simp [entropy, countLabels, StdMap.update, h1]

theorem candidateStep_xor0 (best : SplitResult ℝ) (hb : best.info_gain = 0) :
    candidateStep (Real.logb 2) (xorData ℝ) 1 0 best ((0 + 1) / 2) = some best := by
  have hs : splitData (xorData ℝ) ((0 : ℕ) : ℤ) ((0 + 1) / 2) =
      some ([{ features := [0, 0], label := "A" }, { features := [0, 1], label := "B" }],
        [{ features := [1, 0], label := "B" }, { features := [1, 1], label := "A" }]) := by
    simp [splitData, xorData, vecGet?]
    norm_num
  have hl : ((xorData ℝ).length : ℝ) = 4 := by simp [xorData]
  simp only [candidateStep, hs]
  simp [entropy_AB, entropy_BA, hb, hl]

theorem candidateStep_xor1 (best : SplitResult ℝ) (hb : best.info_gain = 0) :
    candidateStep (Real.logb 2) (xorData ℝ) 1 1 best ((0 + 1) / 2) = some best := by
  have hs : splitData (xorData ℝ) ((1 : ℕ) : ℤ) ((0 + 1) / 2) =
      some ([{ features := [0, 0], label := "A" }, { features := [1, 0], label := "B" }],
        [{ features := [0, 1], label := "B" }, { features := [1, 1], label := "A" }]) := by
    simp [splitData, xorData, vecGet?]
    norm_num
  have hl : ((xorData ℝ).length : ℝ) = 4 := by simp [xorData]
  simp only [candidateStep, hs]
  simp [entropy_AB, entropy_BA, hb, hl]

theorem featureStep_xor0 (best : SplitResult ℝ) (hb : best.info_gain = 0) :
    featureStep (Real.logb 2) (xorData ℝ) 1 best 0 = some best := by
  have hc : featureColumn (xorData ℝ) 0 = some [0, 0, 1, 1] := by
    simp [featureColumn, xorData]
  have hu : unique (List.insertionSort (fun a b => a ≤ b) [(0:ℝ), 0, 1, 1]) = [0, 1] := by
    norm_num [unique, List.insertionSort, List.orderedInsert]
  simp only [featureStep, hc, hu]
  rw [if_neg (by simp)]
  show (candidateStep (Real.logb 2) (xorData ℝ) 1 0 best ((0 + 1) / 2)).bind _ = _
  rw [candidateStep_xor0 best hb]
  rfl

theorem featureStep_xor1 (best : SplitResult ℝ) (hb : best.info_gain = 0) :
    featureStep (Real.logb 2) (xorData ℝ) 1 best 1 = some best := by
  have hc : featureColumn (xorData ℝ) 1 = some [0, 1, 0, 1] := by
    simp [featureColumn, xorData]
  have hu : unique (List.insertionSort (fun a b => a ≤ b) [(0:ℝ), 1, 0, 1]) = [0, 1] := by
    norm_num [unique, List.insertionSort, List.orderedInsert]
  simp only [featureStep, hc, hu]
  rw [if_neg (by simp)]
  show (candidateStep (Real.logb 2) (xorData ℝ) 1 1 best ((0 + 1) / 2)).bind _ = _
  rw [candidateStep_xor1 best hb]
  rfl

theorem findBestSplit_xor :
    findBestSplit (Real.logb 2) (xorData ℝ) =
      some { feature_index := -1, threshold := 0, info_gain := 0 } := by
  have h : findBestSplit (Real.logb 2) (xorData ℝ) =
      (List.range 2).foldlM
        (featureStep (Real.logb 2) (xorData ℝ) (entropy (Real.logb 2) (xorData ℝ)))
        { feature_index := -1, threshold := 0, info_gain := 0 } := rfl
  rw [h, entropy_xor]
  simp [List.range_succ, featureStep_xor0, featureStep_xor1]

theorem buildTree_xor : buildTree (Real.logb 2) (xorData ℝ) = some (Node.mkLeaf "A") := by
  have hm : majorityLabel (xorData ℝ) = "A" := by
    simp +decide [majorityLabel, xorData, countLabels, StdMap.update,
      String.lt_iff_toList_lt, bestLabel]
  have ha : allSameLabel (xorData ℝ) = false := by decide
  have hx : xorData ℝ = { features := [0, 0], label := "A" } ::
      [{ features := [0, 1], label := "B" }, { features := [1, 0], label := "B" },
       { features := [1, 1], label := "A" }] := rfl
  rw [hx, buildTree, ← hx]
  simp [ha, findBestSplit_xor, hm]

/-! ### Two points are separated by the midpoint split -/

theorem findBestSplit_twoPoint :
    findBestSplit (Real.logb 2) (twoPointData ℝ) =
      some { feature_index := 0, threshold := (0 + 1) / 2,
             info_gain := 1 - ((1:ℝ) / 2 * 0 + (1 - 1 / 2) * 0) } := by
  have h : findBestSplit (Real.logb 2) (twoPointData ℝ) =
      [0].foldlM
        (featureStep (Real.logb 2) (twoPointData ℝ) (entropy (Real.logb 2) (twoPointData ℝ)))
        { feature_index := -1, threshold := 0, info_gain := 0 } := rfl
  have he : entropy (Real.logb 2) (twoPointData ℝ) = 1 := entropy_AB [0] [1]
  have hc : featureColumn (twoPointData ℝ) 0 = some [0, 1] := by
    simp [featureColumn, twoPointData]
  have hu : unique (List.insertionSort (fun a b => a ≤ b) [(0:ℝ), 1]) = [0, 1] := by
    norm_num [unique, List.insertionSort, List.orderedInsert]
  have hs : splitData (twoPointData ℝ) ((0 : ℕ) : ℤ) ((0 + 1) / 2) =
      some ([{ features := [0], label := "A" }], [{ features := [1], label := "B" }]) := by
    simp [splitData, twoPointData, vecGet?]
    norm_num
  have hl : ((twoPointData ℝ).length : ℝ) = 2 := by simp [twoPointData]
  have hstep : featureStep (Real.logb 2) (twoPointData ℝ) 1
      { feature_index := -1, threshold := 0, info_gain := 0 } 0 =
      some { feature_index := 0, threshold := (0 + 1) / 2,
             info_gain := 1 - ((1:ℝ) / 2 * 0 + (1 - 1 / 2) * 0) } := by
    simp only [featureStep, hc, hu]
    rw [if_neg (by simp)]
    show (candidateStep (Real.logb 2) (twoPointData ℝ) 1 0 _ ((0 + 1) / 2)).bind _ = _
    simp only [candidateStep, hs, hl, entropy_single (Real.logb 2) Real.logb_one]
    norm_num
  rw [h, he]
  simp only [List.foldlM_cons, List.foldlM_nil, hstep]
  rfl

theorem separated_twoPoint : Separated (Real.logb 2) (twoPointData ℝ) := by
  refine Separated.split _ _ [{ features := [0], label := "A" }]
    [{ features := [1], label := "B" }] (by decide) findBestSplit_twoPoint (by simp) ?_ ?_ ?_
  · simp [splitData, twoPointData, vecGet?]
    norm_num
  · exact Separated.pure _ (by simp) (by simp [allSameLabel])
  · exact Separated.pure _ (by simp) (by simp [allSameLabel])

/-! ### Claim C1 -/

/-- C1 (counterexample): the exclusive-or dataset is non-empty, has samples of
one arity and no two samples with equal features and different labels, yet the
tree fitted on it is the single leaf `A`, so the training sample `([0,1], B)`
is classified as `A`. -/
theorem dt_training_accuracy_counterexample :
    xorData ℝ ≠ [] ∧
    (∀ s ∈ xorData ℝ, s.features.length = 2) ∧
    (∀ s ∈ xorData ℝ, ∀ s' ∈ xorData ℝ, s.features = s'.features → s.label = s'.label) ∧
    ({ features := [0, 1], label := "B" } : IrisSample ℝ) ∈ xorData ℝ ∧
    (DecisionTree.fit (Real.logb 2) DecisionTree.new (xorData ℝ)).bind
      (fun dt => dt.predict { features := [0, 1], label := "B" }) = some "A" := by
  refine ⟨by simp [xorData], ?_, ?_, by simp [xorData], ?_⟩
  · simp [xorData]
  · simp [xorData]
  · simp [DecisionTree.fit, buildTree_xor, DecisionTree.predict, predictSample_mkLeaf]

/-- C1 (amended): when tree induction never has to fall back to a majority
leaf on `data` (at every dataset it reaches, the labels agree or
`findBestSplit` returns a split with `feature_index != -1`), `fit` succeeds and
`predict` returns the own label of every training sample. -/
theorem dt_training_accuracy_of_separated (log2 : R → R) (data : List (IrisSample R))
    (h : Separated log2 data) :
    ∃ dt, DecisionTree.fit log2 DecisionTree.new data = some dt ∧
      ∀ s ∈ data, dt.predict s = some s.label := by
  obtain ⟨t, ht, hp⟩ := buildTree_separated log2 data h
  exact ⟨{ root := t }, by simp [DecisionTree.fit, ht], hp⟩

/-- C1 (witness): the two-point dataset `([0], A), ([1], B)` is separated by
the split at `0.5`, and is classified correctly. -/
theorem dt_training_accuracy_of_separated_witness :
    Separated (Real.logb 2) (twoPointData ℝ) ∧
    ∃ dt, DecisionTree.fit (Real.logb 2) DecisionTree.new (twoPointData ℝ) = some dt ∧
      ∀ s ∈ twoPointData ℝ, dt.predict s = some s.label :=
  ⟨separated_twoPoint,
    dt_training_accuracy_of_separated (Real.logb 2) (twoPointData ℝ) separated_twoPoint⟩

/-! ### Claim C10 -/

/-- C10 (counterexample): `predict` on a freshly constructed tree returns the
empty string for the sample `([0], A)`; it does not fail. -/
theorem dt_predict_not_fitted_counterexample :
    (DecisionTree.new : DecisionTree ℝ).predict { features := [0], label := "A" } = some "" ∧
    (DecisionTree.new : DecisionTree ℝ).predict { features := [0], label := "A" } ≠ none := by
  constructor
  · rfl
  · simp [DecisionTree.predict, DecisionTree.new, predictSample]

/-- C10 (amended): a tree without root answers the empty string for every
sample, both when freshly constructed and after `fit` on the empty dataset
(which succeeds and leaves `root` null). -/
theorem dt_predict_without_root (log2 : R → R) (sample : IrisSample R) :
    (DecisionTree.new : DecisionTree R).predict sample = some "" ∧
    ∃ dt, DecisionTree.fit log2 DecisionTree.new [] = some dt ∧ dt.root = Node.null ∧
      dt.predict sample = some "" := by
  refine ⟨rfl, { root := Node.null }, ?_, rfl, rfl⟩
  simp [DecisionTree.fit, buildTree]

/-! ### The split returned by `findBestSplit` has two non-empty sides -/

omit [LinearOrderedField R] in
/-- An invariant of the loop body is an invariant of a loop that completes. -/
theorem foldlM_option_invariant {α β : Type} (P : β → Prop) (step : β → α → Option β)
    (l : List α) (hstep : ∀ b, ∀ a ∈ l, ∀ b', P b → step b a = some b' → P b') :
    ∀ b b', P b → l.foldlM step b = some b' → P b' := by
  induction l with
  | nil =>
    intro b b' hb h
    simp only [List.foldlM_nil] at h
    cases h
    exact hb
  | cons a rest ih =>
    intro b b' hb h
    simp only [List.foldlM_cons] at h
    cases hs : step b a with
    | none => rw [hs] at h; exact absurd h (by simp)
    | some b1 =>
      rw [hs] at h
      exact ih (fun b a ha b' => hstep b a (List.mem_cons_of_mem _ ha) b') b1 b'
        (hstep b a (List.mem_cons_self _ _) b1 hb hs) h

theorem candidateStep_inv (log2 : R → R) (data : List (IrisSample R)) (base : R) (F f : Nat)
    (hf : f < F) (best : SplitResult R) (t : R) (b' : SplitResult R)
    (hb : SplitInv data F best) (h : candidateStep log2 data base f best t = some b') :
    SplitInv data F b' := by
  simp only [candidateStep] at h
  split at h
  · exact absurd h (by simp)
  · rename_i l r hs
    split at h
    · cases h; exact hb
    · rename_i hne
      simp only [Bool.or_eq_true, List.isEmpty_iff, not_or] at hne
      split at h
      · cases h
        exact Or.inr ⟨f, hf, rfl, l, r, hs, hne.1, hne.2⟩
      · cases h; exact hb

theorem featureStep_inv (log2 : R → R) (data : List (IrisSample R)) (base : R) (F f : Nat)
    (hf : f < F) (best b' : SplitResult R)
    (hb : SplitInv data F best) (h : featureStep log2 data base best f = some b') :
    SplitInv data F b' := by
  simp only [featureStep] at h
  split at h
  · exact absurd h (by simp)
  · split at h
    · cases h; exact hb
    · exact foldlM_option_invariant (SplitInv data F) _ _
        (fun b p _ b1 hb1 hs => candidateStep_inv log2 data base F f hf b _ b1 hb1 hs)
        best b' hb h

theorem findBestSplit_inv (log2 : R → R) (d0 : IrisSample R) (rest : List (IrisSample R))
    (sp : SplitResult R) (h : findBestSplit log2 (d0 :: rest) = some sp) :
    SplitInv (d0 :: rest) d0.features.length sp := by
  simp only [findBestSplit] at h
  exact foldlM_option_invariant (SplitInv (d0 :: rest) d0.features.length) _ _
    (fun b f hf b1 hb1 hs =>
      featureStep_inv log2 _ _ _ f (List.mem_range.mp hf) b b1 hb1 hs)
    _ sp (Or.inl rfl) h

theorem findBestSplit_nil (log2 : R → R) : findBestSplit log2 ([] : List (IrisSample R)) = none :=
  rfl

/-- When the labels differ and `findBestSplit` returns a split whose two sides
are `l` and `r`, both non-empty, `buildTree` returns the internal node over
the trees of `l` and `r`. -/
theorem buildTree_split (log2 : R → R) (data : List (IrisSample R)) (sp : SplitResult R)
    (l r : List (IrisSample R)) (tl tr : Node R)
    (hall : allSameLabel data = false) (hfind : findBestSplit log2 data = some sp)
    (hidx : sp.feature_index ≠ -1)
    (hsplit : splitData data sp.feature_index sp.threshold = some (l, r))
    (hl : l ≠ []) (hr : r ≠ [])
    (htl : buildTree log2 l = some tl) (htr : buildTree log2 r = some tr) :
    buildTree log2 data = some (Node.node false "" sp.feature_index sp.threshold tl tr) := by
  have hnl := buildTree_isNull log2 l hl tl htl
  have hnr := buildTree_isNull log2 r hr tr htr
  cases data with
  | nil => simp [allSameLabel] at hall
  | cons d0 rest =>
    rw [buildTree]
    simp only [hall, Bool.false_eq_true, if_false, hfind, hidx]
    split
    · rename_i heq
      rw [hsplit] at heq
      exact absurd heq (by simp)
    · rename_i l1 r1 heq
      rw [hsplit] at heq
      simp only [Option.some.injEq, Prod.mk.injEq] at heq
      obtain ⟨rfl, rfl⟩ := heq
      have hle : ¬ (l.isEmpty || r.isEmpty) = true := by
        simp only [Bool.or_eq_true, List.isEmpty_iff, not_or]
        exact ⟨hl, hr⟩
      rw [dif_neg hle]
      simp only [htl, htr, hnl, hnr, Bool.or_self, Bool.false_eq_true, if_false]

/-- The split returned by `findBestSplit` with `feature_index != -1` has two
non-empty sides that together hold every sample. -/
theorem findBestSplit_sides (log2 : R → R) (data : List (IrisSample R)) (sp : SplitResult R)
    (hfind : findBestSplit log2 data = some sp) (hidx : sp.feature_index ≠ -1) :
    ∃ l r, splitData data sp.feature_index sp.threshold = some (l, r) ∧ l ≠ [] ∧ r ≠ [] ∧
      l.length + r.length = data.length ∧ l.length < data.length ∧ r.length < data.length := by
  cases data with
  | nil => rw [findBestSplit_nil] at hfind; exact absurd hfind (by simp)
  | cons d0 rest =>
    rcases findBestSplit_inv log2 d0 rest sp hfind with h | ⟨f, _, hf, l, r, hs, hl, hr⟩
    · exact absurd h hidx
    · rw [← hf] at hs
      have hlen := splitData_length _ _ _ _ _ hs
      have h1 : 0 < l.length := List.length_pos.mpr hl
      have h2 : 0 < r.length := List.length_pos.mpr hr
      exact ⟨l, r, hs, hl, hr, hlen, by omega, by omega⟩

/-! ### `findBestSplit` as a fold over the candidates of the specification -/

omit [LinearOrderedField R] in
theorem vecGet?_natCast (v : List R) (f : Nat) : vecGet? v (f : Int) = v[f]? := by
  simp [vecGet?]

theorem splitData_eq_filter (data : List (IrisSample R)) (f : Nat) (t : R)
    (h : ∀ s ∈ data, f < s.features.length) :
    splitData data (f : Int) t =
      some (data.filter (goesLeft f t), data.filter (fun s => !goesLeft f t s)) := by
  induction data with
  | nil => rfl
  | cons s rest ih =>
    have hs := h s (List.mem_cons_self _ _)
    have ih := ih (fun s hs => h s (List.mem_cons_of_mem _ hs))
    simp only [splitData, vecGet?_natCast, ih, List.getElem?_eq_getElem hs]
    by_cases hle : s.features[f] ≤ t
    · simp [goesLeft, List.getElem?_eq_getElem hs, hle, List.filter_cons]
    · simp [goesLeft, List.getElem?_eq_getElem hs, hle, List.filter_cons]

omit [LinearOrderedField R] in
theorem featureColumn_eq (data : List (IrisSample R)) (f : Nat)
    (h : ∀ s ∈ data, f < s.features.length) :
    featureColumn data f = some (data.filterMap (fun d => d.features[f]?)) := by
  induction data with
  | nil => rfl
  | cons s rest ih =>
    have hs := h s (List.mem_cons_self _ _)
    have ih := ih (fun s hs => h s (List.mem_cons_of_mem _ hs))
    simp [featureColumn, ih, List.getElem?_eq_getElem hs, List.filterMap_cons]

theorem unique_mem : ∀ (l : List R) (x : R), x ∈ unique l ↔ x ∈ l
  | [], x => by simp [unique]
  | [a], x => by simp [unique]
  | a :: b :: rest, x => by
    have ih := unique_mem (b :: rest) x
    simp only [unique]
    split
    · rename_i hab
      subst hab
      rw [ih]
      simp
    · rw [List.mem_cons, ih, List.mem_cons (a := x) (b := a)]

theorem unique_sorted : ∀ l : List R, l.Sorted (fun a b => a ≤ b) →
    (unique l).Sorted (fun a b => a < b)
  | [], _ => by simp [unique]
  | [a], _ => by simp [unique]
  | a :: b :: rest, h => by
    have hrest : (b :: rest).Sorted (fun a b => a ≤ b) := List.Sorted.of_cons h
    have ih := unique_sorted (b :: rest) hrest
    simp only [unique]
    split
    · exact ih
    · rename_i hab
      refine List.sorted_cons.mpr ⟨?_, ih⟩
      intro y hy
      have hy1 : y ∈ b :: rest := (unique_mem (b :: rest) y).mp hy
      have hay : a ≤ y := List.rel_of_sorted_cons h y hy1
      have hab1 : a < b :=
        lt_of_le_of_ne (List.rel_of_sorted_cons h b (List.mem_cons_self _ _)) hab
      rcases List.mem_cons.mp hy1 with rfl | hy2
      · exact hab1
      · exact lt_of_lt_of_le hab1 (List.rel_of_sorted_cons hrest y hy2)

theorem distinctSorted_sorted (col : List R) :
    (distinctSorted col).Sorted (fun a b => a < b) := by
  apply List.Sorted.lt_of_le (List.sorted_insertionSort _ _)
  exact (List.perm_insertionSort _ _).nodup_iff.mpr (List.nodup_dedup col)

theorem distinctSorted_mem (col : List R) (x : R) : x ∈ distinctSorted col ↔ x ∈ col := by
  rw [distinctSorted, (List.perm_insertionSort _ _).mem_iff, List.mem_dedup]

theorem unique_eq_distinctSorted (col : List R) :
    unique (col.insertionSort (fun a b => a ≤ b)) = distinctSorted col := by
  have h1 := unique_sorted _ (List.sorted_insertionSort (fun a b : R => a ≤ b) col)
  have h2 := distinctSorted_sorted col
  apply List.eq_of_perm_of_sorted ?_ h1.le_of_lt h2.le_of_lt
  apply (List.perm_ext_iff_of_nodup h1.nodup h2.nodup).mpr
  intro x
  rw [unique_mem, (List.perm_insertionSort _ _).mem_iff, distinctSorted_mem]

theorem zip_tail_of_sorted : ∀ l : List R, l.Sorted (fun a b => a < b) →
    ∀ p ∈ l.zip l.tail, p.1 < p.2 ∧ p.1 ∈ l ∧ p.2 ∈ l
  | [], _ => by simp
  | [a], _ => by simp
  | a :: b :: rest, h => by
    have ih := zip_tail_of_sorted (b :: rest) (List.Sorted.of_cons h)
    intro p hp
    simp only [List.tail_cons, List.zip_cons_cons, List.mem_cons] at hp
    rcases hp with rfl | hp
    · exact ⟨List.rel_of_sorted_cons h b (List.mem_cons_self _ _), by simp, by simp⟩
    · obtain ⟨h1, h2, h3⟩ := ih p (by simpa using hp)
      exact ⟨h1, List.mem_cons_of_mem _ h2, List.mem_cons_of_mem _ h3⟩

/-- Both sides of a candidate of the specification are non-empty: the
midpoint lies strictly between two values of the column. -/
theorem specFeatureCandidates_sides (data : List (IrisSample R)) (f : Nat) :
    ∀ c ∈ specFeatureCandidates data f, c.1 = f ∧
      data.filter (goesLeft c.1 c.2) ≠ [] ∧ data.filter (fun s => !goesLeft c.1 c.2 s) ≠ [] := by
  intro c hc
  simp only [specFeatureCandidates, List.mem_map] at hc
  obtain ⟨p, hp, rfl⟩ := hc
  obtain ⟨hlt, h1, h2⟩ := zip_tail_of_sorted _ (distinctSorted_sorted _) p hp
  rw [distinctSorted_mem, List.mem_filterMap] at h1 h2
  obtain ⟨s1, hs1, hv1⟩ := h1
  obtain ⟨s2, hs2, hv2⟩ := h2
  refine ⟨rfl, ?_, ?_⟩
  · apply List.ne_nil_of_mem (a := s1)
    rw [List.mem_filter]
    refine ⟨hs1, ?_⟩
    simp only [goesLeft, hv1, decide_eq_true_eq]
    linarith
  · apply List.ne_nil_of_mem (a := s2)
    rw [List.mem_filter]
    refine ⟨hs2, ?_⟩
    simp only [goesLeft, hv2, Bool.not_eq_true', decide_eq_false_iff_not, not_le]
    linarith

theorem candidateStep_eq_pick (log2 : R → R) (data : List (IrisSample R)) (f : Nat) (t : R)
    (best : SplitResult R) (h : ∀ s ∈ data, f < s.features.length)
    (hL : data.filter (goesLeft f t) ≠ [])
    (hR : data.filter (fun s => !goesLeft f t s) ≠ []) :
    candidateStep log2 data (entropy log2 data) f best t = some (pick log2 data best (f, t)) := by
  have hs := splitData_eq_filter data f t h
  have hlen := splitData_length _ _ _ _ _ hs
  have hd : 0 < data.length := by
    have := List.length_pos.mpr hL
    omega
  have hd0 : (data.length : R) ≠ 0 := by exact_mod_cast hd.ne.symm
  have hp : (1 : R) - ((data.filter (goesLeft f t)).length : R) / (data.length : R) =
      ((data.filter (fun s => !goesLeft f t s)).length : R) / (data.length : R) := by
    have hc : ((data.filter (goesLeft f t)).length : R) +
        ((data.filter (fun s => !goesLeft f t s)).length : R) = (data.length : R) := by
      exact_mod_cast hlen
    field_simp
    linarith
  have he : ¬ ((data.filter (goesLeft f t)).isEmpty ||
      (data.filter (fun s => !goesLeft f t s)).isEmpty) = true := by
    simp only [Bool.or_eq_true, List.isEmpty_iff, not_or]
    exact ⟨hL, hR⟩
  simp only [candidateStep, hs, he, if_false, hp, pick, specGain, Bool.false_eq_true]
  split <;> rfl

theorem candidates_foldlM (log2 : R → R) (data : List (IrisSample R)) (f : Nat)
    (h : ∀ s ∈ data, f < s.features.length) :
    ∀ (ps : List (R × R)) (best : SplitResult R),
      (∀ p ∈ ps, data.filter (goesLeft f ((p.1 + p.2) / 2)) ≠ [] ∧
        data.filter (fun s => !goesLeft f ((p.1 + p.2) / 2) s) ≠ []) →
      ps.foldlM (fun best p =>
          candidateStep log2 data (entropy log2 data) f best ((p.1 + p.2) / 2)) best =
        some ((ps.map (fun p => (f, (p.1 + p.2) / 2))).foldl (pick log2 data) best) := by
  intro ps
  induction ps with
  | nil => intro best _; rfl
  | cons p rest ih =>
    intro best hps
    obtain ⟨hL, hR⟩ := hps p (List.mem_cons_self _ _)
    simp only [List.foldlM_cons, List.map_cons, List.foldl_cons]
    rw [candidateStep_eq_pick log2 data f _ best h hL hR]
    exact ih _ (fun p hp => hps p (List.mem_cons_of_mem _ hp))

theorem featureStep_eq_fold (log2 : R → R) (data : List (IrisSample R)) (f : Nat)
    (best : SplitResult R) (h : ∀ s ∈ data, f < s.features.length) :
    featureStep log2 data (entropy log2 data) best f =
      some ((specFeatureCandidates data f).foldl (pick log2 data) best) := by
  have hsides := specFeatureCandidates_sides data f
  simp only [featureStep, featureColumn_eq data f h, unique_eq_distinctSorted]
  have hfold := candidates_foldlM log2 data f h
    ((distinctSorted (data.filterMap (fun d => d.features[f]?))).zip
      (distinctSorted (data.filterMap (fun d => d.features[f]?))).tail) best
    (fun p hp => (hsides (f, (p.1 + p.2) / 2)
      (by simp only [specFeatureCandidates, List.mem_map]; exact ⟨p, hp, rfl⟩)).2)
  split
  · rename_i h1
    have hz : (distinctSorted (data.filterMap (fun d => d.features[f]?))).zip
        (distinctSorted (data.filterMap (fun d => d.features[f]?))).tail = [] := by
      obtain ⟨a, ha⟩ := List.length_eq_one.mp h1
      rw [ha]
      rfl
    simp [specFeatureCandidates, hz]
  · exact hfold

theorem features_foldlM (log2 : R → R) (data : List (IrisSample R)) :
    ∀ (fs : List Nat) (best : SplitResult R),
      (∀ f ∈ fs, ∀ s ∈ data, f < s.features.length) →
      fs.foldlM (featureStep log2 data (entropy log2 data)) best =
        some ((fs.flatMap (specFeatureCandidates data)).foldl (pick log2 data) best) := by
  intro fs
  induction fs with
  | nil => intro best _; rfl
  | cons f rest ih =>
    intro best hfs
    simp only [List.foldlM_cons, List.flatMap_cons, List.foldl_append]
    rw [featureStep_eq_fold log2 data f best (hfs f (List.mem_cons_self _ _))]
    exact ih _ (fun f hf => hfs f (List.mem_cons_of_mem _ hf))

/-- On a non-empty dataset of arity `F`, `findBestSplit` completes and is the
fold of `pick` over the candidates of the specification. -/
theorem findBestSplit_eq_fold (log2 : R → R) (data : List (IrisSample R)) (F : Nat)
    (hne : data ≠ []) (harity : ∀ d ∈ data, d.features.length = F) :
    findBestSplit log2 data =
      some ((specCandidates data F).foldl (pick log2 data)
        { feature_index := -1, threshold := 0, info_gain := 0 }) := by
  cases data with
  | nil => exact absurd rfl hne
  | cons d0 rest =>
    simp only [findBestSplit, harity d0 (List.mem_cons_self _ _), specCandidates]
    apply features_foldlM
    intro f hf s hs
    rw [harity s hs]
    exact List.mem_range.mp hf

/-- The fold of `pick` from the initial record returns the first candidate of
maximal gain when some gain is positive, and the initial record otherwise. -/
theorem foldl_pick_spec (log2 : R → R) (data : List (IrisSample R)) (cands : List (Nat × R)) :
    ((∀ c ∈ cands, specGain log2 data c ≤ 0) ∧
      cands.foldl (pick log2 data) { feature_index := -1, threshold := 0, info_gain := 0 } =
        { feature_index := -1, threshold := 0, info_gain := 0 }) ∨
    (∃ (i : Nat) (c : Nat × R), cands[i]? = some c ∧ 0 < specGain log2 data c ∧
      cands.foldl (pick log2 data) { feature_index := -1, threshold := 0, info_gain := 0 } =
        { feature_index := (c.1 : Int), threshold := c.2, info_gain := specGain log2 data c } ∧
      (∀ c' ∈ cands, specGain log2 data c' ≤ specGain log2 data c) ∧
      ∀ (j : Nat) (c' : Nat × R), j < i → cands[j]? = some c' →
        specGain log2 data c' < specGain log2 data c) := by
  induction cands using List.reverseRecOn with
  | nil => exact Or.inl ⟨fun c hc => by simp at hc, rfl⟩
  | append_singleton cands c ih =>
    rw [List.foldl_append, List.foldl_cons, List.foldl_nil]
    have hlast : (cands ++ [c])[cands.length]? = some c := by simp
    rcases ih with ⟨hall, hfold⟩ | ⟨i, ci, hi, hpos, hfold, hmax, hfirst⟩
    · rw [hfold]
      by_cases hg : specGain log2 data c > 0
      · right
        refine ⟨cands.length, c, hlast, hg, ?_, ?_, ?_⟩
        · simp only [pick, hg, if_true]
        · intro c' hc'
          rcases List.mem_append.mp hc' with h | h
          · exact le_trans (hall c' h) (le_of_lt hg)
          · rw [List.mem_singleton.mp h]
        · intro j c' hj hc'
          rw [List.getElem?_append_left hj] at hc'
          exact lt_of_le_of_lt (hall c' (List.getElem?_mem hc')) hg
      · left
        refine ⟨?_, ?_⟩
        · intro c' hc'
          rcases List.mem_append.mp hc' with h | h
          · exact hall c' h
          · rw [List.mem_singleton.mp h]; exact not_lt.mp hg
        · simp only [pick, hg, if_false]
    · rw [hfold]
      have hilt : i < cands.length := by
        by_contra hcon
        rw [List.getElem?_eq_none (not_lt.mp hcon)] at hi
        exact absurd hi (by simp)
      by_cases hg : specGain log2 data c > specGain log2 data ci
      · right
        refine ⟨cands.length, c, hlast, lt_trans hpos hg, ?_, ?_, ?_⟩
        · simp only [pick, hg, if_true]
        · intro c' hc'
          rcases List.mem_append.mp hc' with h | h
          · exact le_trans (hmax c' h) (le_of_lt hg)
          · rw [List.mem_singleton.mp h]
        · intro j c' hj hc'
          rw [List.getElem?_append_left hj] at hc'
          exact lt_of_le_of_lt (hmax c' (List.getElem?_mem hc')) hg
      · right
        refine ⟨i, ci, ?_, hpos, ?_, ?_, ?_⟩
        · rw [List.getElem?_append_left hilt]; exact hi
        · simp only [pick, hg, if_false]
        · intro c' hc'
          rcases List.mem_append.mp hc' with h | h
          · exact hmax c' h
          · rw [List.mem_singleton.mp h]; exact not_lt.mp hg
        · intro j c' hj hc'
          rw [List.getElem?_append_left (lt_trans hj hilt)] at hc'
          exact hfirst j c' hj hc'

/-! ### Shape of the tree returned by `buildTree` -/

theorem wellFormed_descend (F : Nat) (q : IrisSample R) (hq : q.features.length = F) :
    ∀ t : Node R, WellFormed F t = true →
      ∃ label fi th, descend t q = some (Node.node true label fi th Node.null Node.null) ∧
        predictSample t q = some label := by
  intro t
  induction t with
  | null => intro h; simp [WellFormed] at h
  | node is_leaf label fi th left right ihl ihr =>
    intro h
    cases is_leaf with
    | true =>
      simp only [WellFormed, if_true, Bool.and_eq_true] at h
      have hl : left = Node.null := by
        cases left with
        | null => rfl
        | node _ _ _ _ _ _ => simp [Node.isNull] at h
      have hr : right = Node.null := by
        cases right with
        | null => rfl
        | node _ _ _ _ _ _ => simp [Node.isNull] at h
      subst hl hr
      exact ⟨label, fi, th, by simp [descend], by simp [predictSample]⟩
    | false =>
      simp only [WellFormed, Bool.false_eq_true, if_false, Bool.and_eq_true,
        decide_eq_true_eq] at h
      obtain ⟨⟨⟨h0, hF⟩, hwl⟩, hwr⟩ := h
      have hget : ∃ x, vecGet? q.features fi = some x := by
        have hlt : fi.toNat < q.features.length := by omega
        exact ⟨q.features[fi.toNat], by simp [vecGet?, h0, List.getElem?_eq_getElem hlt]⟩
      obtain ⟨x, hx⟩ := hget
      simp only [descend, predictSample, Bool.false_eq_true, if_false, hx]
      by_cases hle : x ≤ th
      · simp only [hle, if_true]
        exact ihl hwl
      · simp only [hle, if_false]
        exact ihr hwr

theorem wellFormed_mkLeaf (F : Nat) (label : String) :
    WellFormed F (Node.mkLeaf label : Node R) = true := by
  simp [WellFormed, Node.mkLeaf, Node.isNull]

/-- On a non-empty dataset of arity `F`, `buildTree` returns a tree of the
shape `WellFormed`. -/
theorem buildTree_wellFormed (log2 : R → R) (F : Nat) (n : Nat) :
    ∀ data : List (IrisSample R), data.length ≤ n → data ≠ [] →
      (∀ d ∈ data, d.features.length = F) →
      ∃ t, buildTree log2 data = some t ∧ WellFormed F t = true := by
  induction n with
  | zero =>
    intro data hn hne
    exact absurd (List.length_eq_zero.mp (Nat.le_zero.mp hn)) hne
  | succ n ih =>
    intro data hn hne harity
    cases data with
    | nil => exact absurd rfl hne
    | cons d0 rest =>
      by_cases hall : allSameLabel (d0 :: rest) = true
      · exact ⟨Node.mkLeaf d0.label, by rw [buildTree, if_pos hall], wellFormed_mkLeaf F _⟩
      · have hfind := findBestSplit_eq_fold log2 (d0 :: rest) F hne harity
        generalize (specCandidates (d0 :: rest) F).foldl (pick log2 (d0 :: rest))
          { feature_index := -1, threshold := 0, info_gain := 0 } = sp at hfind
        by_cases hidx : sp.feature_index = -1
        · refine ⟨Node.mkLeaf (majorityLabel (d0 :: rest)), ?_, wellFormed_mkLeaf F _⟩
          rw [buildTree]
          simp only [hall, Bool.false_eq_true, if_false, hfind, hidx, if_true]
        · rcases findBestSplit_inv log2 d0 rest sp hfind with h | ⟨f, hfF, hfi, l, r, hs, hl, hr⟩
          · exact absurd h hidx
          · rw [harity d0 (List.mem_cons_self _ _)] at hfF
            rw [← hfi] at hs
            have hlen := splitData_length _ _ _ _ _ hs
            have h1 : 0 < l.length := List.length_pos.mpr hl
            have h2 : 0 < r.length := List.length_pos.mpr hr
            obtain ⟨hL, hR⟩ := splitData_parts _ _ _ _ _ hs
            obtain ⟨tl, htl, hwl⟩ := ih l (by omega) hl (fun d hd => harity d (hL d hd).1)
            obtain ⟨tr, htr, hwr⟩ := ih r (by omega) hr (fun d hd => harity d (hR d hd).1)
            refine ⟨Node.node false "" sp.feature_index sp.threshold tl tr,
              buildTree_split log2 _ sp l r tl tr (by simpa using hall) hfind hidx hs hl hr
                htl htr, ?_⟩
            simp [WellFormed, hfi, hfF, hwl, hwr]

/-- On every dataset of one arity `buildTree` returns a result. -/
theorem buildTree_isSome (log2 : R → R) (F : Nat) (data : List (IrisSample R))
    (harity : ∀ d ∈ data, d.features.length = F) : ∃ t, buildTree log2 data = some t := by
  cases data with
  | nil => exact ⟨Node.null, by rw [buildTree]⟩
  | cons d0 rest =>
    obtain ⟨t, ht, _⟩ := buildTree_wellFormed log2 F _ (d0 :: rest) (le_refl _) (by simp) harity
    exact ⟨t, ht⟩

/-! ### Claim C19 -/

/-- C19: `buildTree` returns a result on every dataset of one arity; and
whenever `findBestSplit` returns a split with `feature_index != -1`,
`splitData` on that feature and threshold yields two non-empty parts that
together have `|D|` samples, each strictly smaller than `D`, so that (when the
labels differ) `buildTree` returns the internal node over the trees of the two
parts, both non-null: neither the empty-side guard nor the null-child collapse
is taken. -/
theorem buildTree_recursion_strictly_smaller (log2 : R → R) :
    (∀ (data : List (IrisSample R)) (F : Nat), (∀ d ∈ data, d.features.length = F) →
      ∃ t, buildTree log2 data = some t) ∧
    (∀ (data : List (IrisSample R)) (sp : SplitResult R),
      findBestSplit log2 data = some sp → sp.feature_index ≠ -1 →
      ∃ l r, splitData data sp.feature_index sp.threshold = some (l, r) ∧
        l ≠ [] ∧ r ≠ [] ∧ l.length + r.length = data.length ∧
        l.length < data.length ∧ r.length < data.length ∧
        (allSameLabel data = false → ∀ tl tr,
          buildTree log2 l = some tl → buildTree log2 r = some tr →
          tl.isNull = false ∧ tr.isNull = false ∧
          buildTree log2 data =
            some (Node.node false "" sp.feature_index sp.threshold tl tr))) := by
  refine ⟨fun data F harity => buildTree_isSome log2 F data harity, ?_⟩
  intro data sp hfind hidx
  obtain ⟨l, r, hs, hl, hr, hlen, h1, h2⟩ := findBestSplit_sides log2 data sp hfind hidx
  refine ⟨l, r, hs, hl, hr, hlen, h1, h2, ?_⟩
  intro hall tl tr htl htr
  exact ⟨buildTree_isNull log2 l hl tl htl, buildTree_isNull log2 r hr tr htr,
    buildTree_split log2 data sp l r tl tr hall hfind hidx hs hl hr htl htr⟩

/-- C19 (witness): on `([0], A), ([1], B)` the tree is built, and the split
returned by `findBestSplit`, feature 0 at `0.5`, has two non-empty parts. -/
theorem buildTree_recursion_strictly_smaller_witness :
    (∃ t, buildTree (Real.logb 2) (twoPointData ℝ) = some t) ∧
    (∃ sp, findBestSplit (Real.logb 2) (twoPointData ℝ) = some sp ∧ sp.feature_index ≠ -1 ∧
      ∃ l r, splitData (twoPointData ℝ) sp.feature_index sp.threshold = some (l, r) ∧
        l ≠ [] ∧ r ≠ [] ∧ l.length + r.length = (twoPointData ℝ).length ∧
        l.length < (twoPointData ℝ).length ∧ r.length < (twoPointData ℝ).length ∧
        (allSameLabel (twoPointData ℝ) = false → ∀ tl tr,
          buildTree (Real.logb 2) l = some tl → buildTree (Real.logb 2) r = some tr →
          tl.isNull = false ∧ tr.isNull = false ∧
          buildTree (Real.logb 2) (twoPointData ℝ) =
            some (Node.node false "" sp.feature_index sp.threshold tl tr))) :=
  ⟨(buildTree_recursion_strictly_smaller (Real.logb 2)).1 (twoPointData ℝ) 1
      (by simp [twoPointData]),
    _, findBestSplit_twoPoint, by simp,
    (buildTree_recursion_strictly_smaller (Real.logb 2)).2 (twoPointData ℝ) _
      findBestSplit_twoPoint (by simp)⟩

/-! ### Claim C12 -/

/-- C12: on a non-empty dataset of arity `F`, `buildTree` returns a non-null
tree in which every node is a leaf without children or an internal node with
`0 <= feature_index < F` and two non-null children of the same shape; on
every query of arity `F` the descent of `predictSample` stops at a leaf, whose
label is returned, and not at a null node. -/
theorem buildTree_well_formed_tree (log2 : R → R) (data : List (IrisSample R)) (F : Nat)
    (hne : data ≠ []) (harity : ∀ d ∈ data, d.features.length = F) :
    ∃ t, buildTree log2 data = some t ∧ t.isNull = false ∧ WellFormed F t = true ∧
      ∀ q : IrisSample R, q.features.length = F →
        ∃ label fi th, descend t q = some (Node.node true label fi th Node.null Node.null) ∧
          predictSample t q = some label := by
  obtain ⟨t, ht, hw⟩ := buildTree_wellFormed log2 F _ data (le_refl _) hne harity
  exact ⟨t, ht, buildTree_isNull log2 data hne t ht, hw,
    fun q hq => wellFormed_descend F q hq t hw⟩

/-- C12 (witness): the dataset `([0], A), ([1], B)` of arity 1. -/
theorem buildTree_well_formed_tree_witness :
    twoPointData ℝ ≠ [] ∧ (∀ d ∈ twoPointData ℝ, d.features.length = 1) ∧
    ∃ t, buildTree (Real.logb 2) (twoPointData ℝ) = some t ∧ t.isNull = false ∧
      WellFormed 1 t = true ∧
      ∀ q : IrisSample ℝ, q.features.length = 1 →
        ∃ label fi th, descend t q = some (Node.node true label fi th Node.null Node.null) ∧
          predictSample t q = some label :=
  ⟨by simp [twoPointData], by simp [twoPointData],
    buildTree_well_formed_tree (Real.logb 2) (twoPointData ℝ) 1 (by simp [twoPointData])
      (by simp [twoPointData])⟩

/-! ### Claim C13 -/

/-- With exact operations the split search in `double` arithmetic is
`findBestSplit`. -/
theorem roundedFindBestSplit_exact (sqrt : R → R) (log2 : R → R)
    (data : List (IrisSample R)) :
    roundedFindBestSplit (DoubleArith.exact sqrt) log2 data = findBestSplit log2 data := by
  cases data <;> rfl

omit [LinearOrderedField R] in
theorem foldl_ite_eq_foldl_filter {α β : Type} (p : α → Bool) (g : β → α → β) :
    ∀ (l : List α) (b : β),
      l.foldl (fun b c => if p c = true then g b c else b) b = (l.filter p).foldl g b := by
  intro l
  induction l with
  | nil => intro b; rfl
  | cons a rest ih =>
    intro b
    rw [List.foldl_cons, List.filter_cons]
    by_cases h : p a = true
    · rw [if_pos h, if_pos h, List.foldl_cons]
      exact ih _
    · rw [if_neg h, if_neg h]
      exact ih _

theorem roundedCandidateStep_eq (arith : DoubleArith R) (log2 : R → R)
    (data : List (IrisSample R)) (f : Nat) (t : R) (best : SplitResult R)
    (h : ∀ s ∈ data, f < s.features.length) :
    roundedCandidateStep arith log2 data (roundedEntropy arith log2 data) f best t =
      some (if bothSides data (f, t) = true then
        pickBy (computedGain arith log2 data) best (f, t) else best) := by
  have hs := splitData_eq_filter data f t h
  simp only [roundedCandidateStep, hs, bothSides]
  by_cases hL : (data.filter (goesLeft f t)).isEmpty = true
  · simp [hL]
  · by_cases hR : (data.filter (fun s => !goesLeft f t s)).isEmpty = true
    · simp [hR]
    · simp only [hL, hR, Bool.or_self, Bool.false_eq_true, if_false, Bool.not_false,
        Bool.and_self, if_true, pickBy, computedGain]
      split <;> rfl

theorem roundedCandidates_foldlM (arith : DoubleArith R) (log2 : R → R)
    (data : List (IrisSample R)) (f : Nat) (h : ∀ s ∈ data, f < s.features.length) :
    ∀ (ps : List (R × R)) (best : SplitResult R),
      ps.foldlM (fun best p =>
          roundedCandidateStep arith log2 data (roundedEntropy arith log2 data) f best
            (arith.div (arith.add p.1 p.2) 2)) best =
        some ((ps.map (fun p => (f, arith.div (arith.add p.1 p.2) 2))).foldl
          (fun best c => if bothSides data c = true then
            pickBy (computedGain arith log2 data) best c else best) best) := by
  intro ps
  induction ps with
  | nil => intro best; rfl
  | cons p rest ih =>
    intro best
    simp only [List.foldlM_cons, List.map_cons, List.foldl_cons]
    rw [roundedCandidateStep_eq arith log2 data f _ best h]
    exact ih _

theorem roundedFeatureStep_eq_fold (arith : DoubleArith R) (log2 : R → R)
    (data : List (IrisSample R)) (f : Nat) (best : SplitResult R)
    (h : ∀ s ∈ data, f < s.features.length) :
    roundedFeatureStep arith log2 data (roundedEntropy arith log2 data) best f =
      some ((computedFeatureCandidates arith data f).foldl
        (fun best c => if bothSides data c = true then
          pickBy (computedGain arith log2 data) best c else best) best) := by
  simp only [roundedFeatureStep, featureColumn_eq data f h, unique_eq_distinctSorted]
  have hfold := roundedCandidates_foldlM arith log2 data f h
    ((distinctSorted (data.filterMap (fun d => d.features[f]?))).zip
      (distinctSorted (data.filterMap (fun d => d.features[f]?))).tail) best
  split
  · rename_i h1
    have hz : (distinctSorted (data.filterMap (fun d => d.features[f]?))).zip
        (distinctSorted (data.filterMap (fun d => d.features[f]?))).tail = [] := by
      obtain ⟨a, ha⟩ := List.length_eq_one.mp h1
      rw [ha]
      rfl
    simp [computedFeatureCandidates, hz]
  · exact hfold

theorem roundedFeatures_foldlM (arith : DoubleArith R) (log2 : R → R)
    (data : List (IrisSample R)) :
    ∀ (fs : List Nat) (best : SplitResult R),
      (∀ f ∈ fs, ∀ s ∈ data, f < s.features.length) →
      fs.foldlM (roundedFeatureStep arith log2 data (roundedEntropy arith log2 data)) best =
        some ((fs.flatMap (computedFeatureCandidates arith data)).foldl
          (fun best c => if bothSides data c = true then
            pickBy (computedGain arith log2 data) best c else best) best) := by
  intro fs
  induction fs with
  | nil => intro best _; rfl
  | cons f rest ih =>
    intro best hfs
    simp only [List.foldlM_cons, List.flatMap_cons, List.foldl_append]
    rw [roundedFeatureStep_eq_fold arith log2 data f best (hfs f (List.mem_cons_self _ _))]
    exact ih _ (fun f hf => hfs f (List.mem_cons_of_mem _ hf))

/-- On a non-empty dataset of arity `F`, the split search completes and is
the fold of `pickBy` with the computed gain over the computed candidates both
of whose sides are non-empty. -/
theorem roundedFindBestSplit_eq_fold (arith : DoubleArith R) (log2 : R → R)
    (data : List (IrisSample R)) (F : Nat)
    (hne : data ≠ []) (harity : ∀ d ∈ data, d.features.length = F) :
    roundedFindBestSplit arith log2 data =
      some (((computedCandidates arith data F).filter (bothSides data)).foldl
        (pickBy (computedGain arith log2 data))
        { feature_index := -1, threshold := 0, info_gain := 0 }) := by
  cases data with
  | nil => exact absurd rfl hne
  | cons d0 rest =>
    rw [← foldl_ite_eq_foldl_filter]
    simp only [roundedFindBestSplit, harity d0 (List.mem_cons_self _ _), computedCandidates]
    apply roundedFeatures_foldlM
    intro f hf s hs
    rw [harity s hs]
    exact List.mem_range.mp hf

/-- The fold of `pickBy` from the initial record returns the first candidate
of maximal gain when some gain is positive, and the initial record
otherwise. -/
theorem foldl_pickBy_spec (gain : Nat × R → R) (cands : List (Nat × R)) :
    ((∀ c ∈ cands, gain c ≤ 0) ∧
      cands.foldl (pickBy gain) { feature_index := -1, threshold := 0, info_gain := 0 } =
        { feature_index := -1, threshold := 0, info_gain := 0 }) ∨
    (∃ (i : Nat) (c : Nat × R), cands[i]? = some c ∧ 0 < gain c ∧
      cands.foldl (pickBy gain) { feature_index := -1, threshold := 0, info_gain := 0 } =
        { feature_index := (c.1 : Int), threshold := c.2, info_gain := gain c } ∧
      (∀ c' ∈ cands, gain c' ≤ gain c) ∧
      ∀ (j : Nat) (c' : Nat × R), j < i → cands[j]? = some c' → gain c' < gain c) := by
  induction cands using List.reverseRecOn with
  | nil => exact Or.inl ⟨fun c hc => by simp at hc, rfl⟩
  | append_singleton cands c ih =>
    rw [List.foldl_append, List.foldl_cons, List.foldl_nil]
    have hlast : (cands ++ [c])[cands.length]? = some c := by simp
    rcases ih with ⟨hall, hfold⟩ | ⟨i, ci, hi, hpos, hfold, hmax, hfirst⟩
    · rw [hfold]
      by_cases hg : gain c > 0
      · right
        refine ⟨cands.length, c, hlast, hg, ?_, ?_, ?_⟩
        · simp only [pickBy, hg, if_true]
        · intro c' hc'
          rcases List.mem_append.mp hc' with h | h
          · exact le_trans (hall c' h) (le_of_lt hg)
          · rw [List.mem_singleton.mp h]
        · intro j c' hj hc'
          rw [List.getElem?_append_left hj] at hc'
          exact lt_of_le_of_lt (hall c' (List.getElem?_mem hc')) hg
      · left
        refine ⟨?_, ?_⟩
        · intro c' hc'
          rcases List.mem_append.mp hc' with h | h
          · exact hall c' h
          · rw [List.mem_singleton.mp h]; exact not_lt.mp hg
        · simp only [pickBy, hg, if_false]
    · rw [hfold]
      have hilt : i < cands.length := by
        by_contra hcon
        rw [List.getElem?_eq_none (not_lt.mp hcon)] at hi
        exact absurd hi (by simp)
      by_cases hg : gain c > gain ci
      · right
        refine ⟨cands.length, c, hlast, lt_trans hpos hg, ?_, ?_, ?_⟩
        · simp only [pickBy, hg, if_true]
        · intro c' hc'
          rcases List.mem_append.mp hc' with h | h
          · exact le_trans (hmax c' h) (le_of_lt hg)
          · rw [List.mem_singleton.mp h]
        · intro j c' hj hc'
          rw [List.getElem?_append_left hj] at hc'
          exact lt_of_le_of_lt (hmax c' (List.getElem?_mem hc')) hg
      · right
        refine ⟨i, ci, ?_, hpos, ?_, ?_, ?_⟩
        · rw [List.getElem?_append_left hilt]; exact hi
        · simp only [pickBy, hg, if_false]
        · intro c' hc'
          rcases List.mem_append.mp hc' with h | h
          · exact hmax c' h
          · rw [List.mem_singleton.mp h]; exact not_lt.mp hg
        · intro j c' hj hc'
          rw [List.getElem?_append_left (lt_trans hj hilt)] at hc'
          exact hfirst j c' hj hc'

theorem distinctSorted_pair (a b : R) (hab : a < b) : distinctSorted [a, b] = [a, b] := by
  simp [distinctSorted, List.dedup_cons_of_not_mem, hab.ne, hab.le, List.insertionSort,
    List.orderedInsert]

theorem specCandidates_pair (a b : R) (hab : a < b) (la lb : String) :
    specCandidates [({ features := [a], label := la } : IrisSample R),
      { features := [b], label := lb }] 1 = [(0, (a + b) / 2)] := by
  have hr : List.range 1 = [0] := rfl
  have hc : ([({ features := [a], label := la } : IrisSample R),
      { features := [b], label := lb }]).filterMap (fun d => d.features[0]?) = [a, b] := by
    simp
  simp only [specCandidates, hr, List.flatMap_cons, List.flatMap_nil, List.append_nil,
    specFeatureCandidates, hc, distinctSorted_pair a b hab]
  rfl

theorem computedCandidates_pair (arith : DoubleArith R) (a b : R) (hab : a < b)
    (la lb : String) :
    computedCandidates arith [({ features := [a], label := la } : IrisSample R),
      { features := [b], label := lb }] 1 = [(0, arith.div (arith.add a b) 2)] := by
  have hr : List.range 1 = [0] := rfl
  have hc : ([({ features := [a], label := la } : IrisSample R),
      { features := [b], label := lb }]).filterMap (fun d => d.features[0]?) = [a, b] := by
    simp
  simp only [computedCandidates, hr, List.flatMap_cons, List.flatMap_nil, List.append_nil,
    computedFeatureCandidates, hc, distinctSorted_pair a b hab]
  rfl

theorem bothSides_pair_upper (a b : R) (hab : a < b) (la lb : String) :
    bothSides [({ features := [a], label := la } : IrisSample R),
      { features := [b], label := lb }] (0, b) = false := by
  simp [bothSides, goesLeft, List.filter, hab.le]

theorem ieee754_midpoint_adjacent :
    ieee754.div (ieee754.add (1 + 1 / 2 ^ 52) (1 + 1 / 2 ^ 51)) 2 = 1 + 1 / 2 ^ 51 := by
  have h1 : roundDouble ((1 : ℚ) + 1 / 2 ^ 52 + (1 + 1 / 2 ^ 51)) = 2 + 1 / 2 ^ 50 := by
    rw [roundDouble_pos _ 1 (by norm_num) (by norm_num) (by norm_num)]
    norm_num [roundHalfEven]
  have h2 : roundDouble (((2 : ℚ) + 1 / 2 ^ 50) / 2) = 1 + 1 / 2 ^ 51 := by
    rw [roundDouble_pos _ 0 (by norm_num) (by norm_num) (by norm_num)]
    norm_num [roundHalfEven]
  rw [ieee754_add, ieee754_div, h1, h2]

theorem entropy_adjacentData : entropy (Real.logb 2) (adjacentData ℝ) = 1 := by
  simp +decide [entropy, adjacentData, countLabels, StdMap.update, String.lt_iff_toList_lt]
  norm_num

theorem specGain_adjacentData :
    specGain (Real.logb 2) (adjacentData ℝ) (0, (1 + 1 / 2 ^ 52 + (1 + 1 / 2 ^ 51)) / 2) = 1 := by
  have hL : (adjacentData ℝ).filter
      (goesLeft 0 ((1 + 1 / 2 ^ 52 + (1 + 1 / 2 ^ 51)) / 2)) =
      [{ features := [1 + 1 / 2 ^ 52], label := "A" }] := by
    simp [adjacentData, goesLeft, List.filter]
    norm_num
  have hR : (adjacentData ℝ).filter
      (fun s => !goesLeft 0 ((1 + 1 / 2 ^ 52 + (1 + 1 / 2 ^ 51)) / 2) s) =
      [{ features := [1 + 1 / 2 ^ 51], label := "B" }] := by
    simp [adjacentData, goesLeft, List.filter]
    norm_num
  have h0L : entropy (Real.logb 2)
      [({ features := [1 + 1 / 2 ^ 52], label := "A" } : IrisSample ℝ)] = 0 := by
    simp [entropy, countLabels, StdMap.update]
  have h0R : entropy (Real.logb 2)
      [({ features := [1 + 1 / 2 ^ 51], label := "B" } : IrisSample ℝ)] = 0 := by
    simp [entropy, countLabels, StdMap.update]
  simp only [specGain, hL, hR, h0L, h0R, entropy_adjacentData]
  norm_num [adjacentData]

/-- C13 (counterexample): two samples of classes `A` and `B` whose feature
takes the adjacent `double` values `1 + 2^-52` and `1 + 2^-51`.  The one
candidate of the specification is the midpoint of the two values, with gain
`1`.  In IEEE-754 arithmetic the computed midpoint is the upper value
`1 + 2^-51`, the right side of that split is empty, the candidate is skipped,
and `findBestSplit` returns `feature_index = -1` with `info_gain = 0`,
whatever `log2` returns. -/
theorem findBestSplit_adjacent_values_counterexample :
    adjacentData ℚ ≠ [] ∧ (∀ d ∈ adjacentData ℚ, d.features.length = 1) ∧
    specCandidates (adjacentData ℝ) 1 = [(0, (1 + 1 / 2 ^ 52 + (1 + 1 / 2 ^ 51)) / 2)] ∧
    specGain (Real.logb 2) (adjacentData ℝ) (0, (1 + 1 / 2 ^ 52 + (1 + 1 / 2 ^ 51)) / 2) = 1 ∧
    computedCandidates ieee754 (adjacentData ℚ) 1 = [(0, 1 + 1 / 2 ^ 51)] ∧
    bothSides (adjacentData ℚ) (0, 1 + 1 / 2 ^ 51) = false ∧
    ∀ log2 : ℚ → ℚ, roundedFindBestSplit ieee754 log2 (adjacentData ℚ) =
      some { feature_index := -1, threshold := 0, info_gain := 0 } := by
  have hab : ∀ (K : Type) [LinearOrderedField K], (1 : K) + 1 / 2 ^ 52 < 1 + 1 / 2 ^ 51 := by
    intro K _
    have h1 : (1 : K) / 2 ^ 52 < 1 / 2 ^ 51 := by
      apply one_div_lt_one_div_of_lt (by positivity)
      exact pow_lt_pow_right₀ (by norm_num) (by norm_num)
    linarith
  have hne : adjacentData ℚ ≠ [] := by simp [adjacentData]
  have har : ∀ d ∈ adjacentData ℚ, d.features.length = 1 := by simp [adjacentData]
  have hcand : computedCandidates ieee754 (adjacentData ℚ) 1 = [(0, 1 + 1 / 2 ^ 51)] := by
    rw [adjacentData, computedCandidates_pair ieee754 _ _ (hab ℚ), ieee754_midpoint_adjacent]
  have hboth : bothSides (adjacentData ℚ) (0, 1 + 1 / 2 ^ 51) = false :=
    bothSides_pair_upper _ _ (hab ℚ) "A" "B"
  refine ⟨hne, har, ?_, specGain_adjacentData, hcand, hboth, ?_⟩
  · rw [adjacentData, specCandidates_pair _ _ (hab ℝ)]
  · intro log2
    rw [roundedFindBestSplit_eq_fold ieee754 log2 (adjacentData ℚ) 1 hne har, hcand,
      List.filter_cons_of_neg (by rw [hboth]; simp)]
    rfl

/-- C13 (amended): on a non-empty dataset of arity `F`, `findBestSplit` in the
arithmetic `arith` of the machine returns a result `sp`.  The candidates are
`(f, tau)` with `f` ascending in `[0, F)` and `tau` the computed midpoint of
each consecutive pair of distinct sorted values of feature `f`; a candidate is
tried when both sides of its split are non-empty; its gain is the computed
`H(D) - (p_left * H(L) + (1 - p_left) * H(R))`.  If no tried candidate has a
positive computed gain, `sp` is `feature_index = -1` with `info_gain = 0`; if
some has, `sp` is the first tried candidate in iteration order whose computed
gain is the maximum, with that gain.  Hence `info_gain >= 0`, and
`info_gain = 0` exactly when `feature_index = -1`. -/
theorem findBestSplit_first_max_computed_gain (arith : DoubleArith R) (log2 : R → R)
    (data : List (IrisSample R)) (F : Nat)
    (hne : data ≠ []) (harity : ∀ d ∈ data, d.features.length = F) :
    ∃ sp, roundedFindBestSplit arith log2 data = some sp ∧
      ((∀ c ∈ (computedCandidates arith data F).filter (bothSides data),
          computedGain arith log2 data c ≤ 0) →
        sp = { feature_index := -1, threshold := 0, info_gain := 0 }) ∧
      ((∃ c ∈ (computedCandidates arith data F).filter (bothSides data),
          0 < computedGain arith log2 data c) →
        ∃ (i : Nat) (c : Nat × R),
          ((computedCandidates arith data F).filter (bothSides data))[i]? = some c ∧
          sp = { feature_index := (c.1 : Int), threshold := c.2,
                 info_gain := computedGain arith log2 data c } ∧
          (∀ c' ∈ (computedCandidates arith data F).filter (bothSides data),
            computedGain arith log2 data c' ≤ computedGain arith log2 data c) ∧
          ∀ (j : Nat) (c' : Nat × R), j < i →
            ((computedCandidates arith data F).filter (bothSides data))[j]? = some c' →
            computedGain arith log2 data c' < computedGain arith log2 data c) ∧
      0 ≤ sp.info_gain ∧ (sp.info_gain = 0 ↔ sp.feature_index = -1) := by
  refine ⟨_, roundedFindBestSplit_eq_fold arith log2 data F hne harity, ?_⟩
  rcases foldl_pickBy_spec (computedGain arith log2 data)
      ((computedCandidates arith data F).filter (bothSides data)) with
    ⟨hall, hfold⟩ | ⟨i, c, hi, hpos, hfold, hmax, hfirst⟩
  · rw [hfold]
    refine ⟨fun _ => rfl, ?_, le_refl _, by simp⟩
    rintro ⟨c, hc, hpos⟩
    exact absurd (hall c hc) (not_le.mpr hpos)
  · rw [hfold]
    refine ⟨?_, fun _ => ⟨i, c, hi, rfl, hmax, hfirst⟩, le_of_lt hpos, ?_⟩
    · intro hall
      exact absurd (hall c (List.getElem?_mem hi)) (not_le.mpr hpos)
    · constructor
      · intro h0
        exact absurd h0 (ne_of_gt hpos)
      · intro hneg
        simp only at hneg
        omega

/-- C13 (witness): the adjacent values in IEEE-754 arithmetic, where no
candidate is tried and the result is `feature_index = -1`. -/
theorem findBestSplit_first_max_computed_gain_witness :
    adjacentData ℚ ≠ [] ∧ (∀ d ∈ adjacentData ℚ, d.features.length = 1) ∧
    ∃ sp, roundedFindBestSplit ieee754 (fun _ => 0) (adjacentData ℚ) = some sp ∧
      ((∀ c ∈ (computedCandidates ieee754 (adjacentData ℚ) 1).filter
            (bothSides (adjacentData ℚ)),
          computedGain ieee754 (fun _ => 0) (adjacentData ℚ) c ≤ 0) →
        sp = { feature_index := -1, threshold := 0, info_gain := 0 }) ∧
      ((∃ c ∈ (computedCandidates ieee754 (adjacentData ℚ) 1).filter
            (bothSides (adjacentData ℚ)),
          0 < computedGain ieee754 (fun _ => 0) (adjacentData ℚ) c) →
        ∃ (i : Nat) (c : Nat × ℚ),
          ((computedCandidates ieee754 (adjacentData ℚ) 1).filter
            (bothSides (adjacentData ℚ)))[i]? = some c ∧
          sp = { feature_index := (c.1 : Int), threshold := c.2,
                 info_gain := computedGain ieee754 (fun _ => 0) (adjacentData ℚ) c } ∧
          (∀ c' ∈ (computedCandidates ieee754 (adjacentData ℚ) 1).filter
              (bothSides (adjacentData ℚ)),
            computedGain ieee754 (fun _ => 0) (adjacentData ℚ) c' ≤
              computedGain ieee754 (fun _ => 0) (adjacentData ℚ) c) ∧
          ∀ (j : Nat) (c' : Nat × ℚ), j < i →
            ((computedCandidates ieee754 (adjacentData ℚ) 1).filter
              (bothSides (adjacentData ℚ)))[j]? = some c' →
            computedGain ieee754 (fun _ => 0) (adjacentData ℚ) c' <
              computedGain ieee754 (fun _ => 0) (adjacentData ℚ) c) ∧
      0 ≤ sp.info_gain ∧ (sp.info_gain = 0 ↔ sp.feature_index = -1) :=
  ⟨by simp [adjacentData], by simp [adjacentData],
    findBestSplit_first_max_computed_gain ieee754 (fun _ => 0) (adjacentData ℚ) 1
      (by simp [adjacentData]) (by simp [adjacentData])⟩

/-! ### Claim C15 -/

theorem zip_tail_of_const : ∀ l : List R, l.Sorted (fun a b => a < b) →
    (∀ x ∈ l, ∀ y ∈ l, x = y) → l.zip l.tail = []
  | [], _, _ => rfl
  | [_], _, _ => rfl
  | a :: b :: rest, h, hc => by
    have hab : a < b := List.rel_of_sorted_cons h b (List.mem_cons_self _ _)
    have := hc a (by simp) b (by simp)
    exact absurd this (ne_of_lt hab)

/-- A dataset whose samples all have the same feature vector has no
candidate split. -/
theorem specCandidates_same_features (data : List (IrisSample R)) (v : List R)
    (h : ∀ d ∈ data, d.features = v) (F : Nat) : specCandidates data F = [] := by
  simp only [specCandidates, List.flatMap_eq_nil_iff, List.mem_range]
  intro f _
  have hz := zip_tail_of_const (distinctSorted (data.filterMap (fun d => d.features[f]?)))
    (distinctSorted_sorted _) (by
      intro x hx y hy
      rw [distinctSorted_mem, List.mem_filterMap] at hx hy
      obtain ⟨s1, hs1, hv1⟩ := hx
      obtain ⟨s2, hs2, hv2⟩ := hy
      rw [h s1 hs1] at hv1
      rw [h s2 hs2] at hv2
      rw [hv1] at hv2
      exact Option.some.inj hv2)
  simp [specFeatureCandidates, hz]

theorem buildTree_same_features (log2 : R → R) (data : List (IrisSample R)) (v : List R)
    (hsame : ∀ d ∈ data, d.features = v) (hall : allSameLabel data = false) :
    buildTree log2 data = some (Node.mkLeaf (majorityLabel data)) := by
  cases data with
  | nil => simp [allSameLabel] at hall
  | cons d0 rest =>
    have hfind := findBestSplit_eq_fold log2 (d0 :: rest) v.length (by simp)
      (fun d hd => by rw [hsame d hd])
    rw [specCandidates_same_features _ v hsame] at hfind
    rw [buildTree]
    simp only [hall, Bool.false_eq_true, if_false, hfind, List.foldl_nil, if_true]

/-- C15: for a dataset whose samples all have the same feature vector and
carry at least two different labels, `buildTree` returns the single leaf
labelled `majorityLabel(D)`; that label occurs in `D`, no label has a higher
count, and it is the lexicographically smallest of the labels with that
count. -/
theorem buildTree_same_features_majority_leaf (log2 : R → R) (data : List (IrisSample R))
    (v : List R) (hsame : ∀ d ∈ data, d.features = v)
    (hdiff : ∃ a ∈ data, ∃ b ∈ data, a.label ≠ b.label) :
    buildTree log2 data = some (Node.mkLeaf (majorityLabel data)) ∧
    majorityLabel data ∈ data.map (fun d => d.label) ∧
    (∀ c, (data.map (fun d => d.label)).count c ≤
      (data.map (fun d => d.label)).count (majorityLabel data)) ∧
    (∀ c, (data.map (fun d => d.label)).count c =
        (data.map (fun d => d.label)).count (majorityLabel data) →
      majorityLabel data ≤ c) := by
  obtain ⟨a, ha, b, hb, hab⟩ := hdiff
  have hne : data.map (fun d => d.label) ≠ [] := by
    intro hnil
    rw [List.map_eq_nil_iff] at hnil
    rw [hnil] at ha
    simp at ha
  have hall : allSameLabel data = false := by
    cases data with
    | nil => simp at ha
    | cons d0 rest =>
      by_contra hcon
      have hl := allSameLabel_label d0 rest (by simpa using hcon)
      exact hab (by rw [hl a ha, hl b hb])
  exact ⟨buildTree_same_features log2 data v hsame hall, bestLabel_countLabels _ hne⟩

/-- C15 (witness): three samples with features `[1, 2]`, labelled `B`, `A`,
`B`. -/
theorem buildTree_same_features_majority_leaf_witness :
    (∀ d ∈ sameFeaturesData ℝ, d.features = [1, 2]) ∧
    (∃ a ∈ sameFeaturesData ℝ, ∃ b ∈ sameFeaturesData ℝ, a.label ≠ b.label) ∧
    buildTree (Real.logb 2) (sameFeaturesData ℝ) =
      some (Node.mkLeaf (majorityLabel (sameFeaturesData ℝ))) ∧
    majorityLabel (sameFeaturesData ℝ) ∈ (sameFeaturesData ℝ).map (fun d => d.label) ∧
    (∀ c, ((sameFeaturesData ℝ).map (fun d => d.label)).count c ≤
      ((sameFeaturesData ℝ).map (fun d => d.label)).count
        (majorityLabel (sameFeaturesData ℝ))) ∧
    (∀ c, ((sameFeaturesData ℝ).map (fun d => d.label)).count c =
        ((sameFeaturesData ℝ).map (fun d => d.label)).count
          (majorityLabel (sameFeaturesData ℝ)) →
      majorityLabel (sameFeaturesData ℝ) ≤ c) :=
  ⟨by simp [sameFeaturesData],
    ⟨{ features := [1, 2], label := "B" }, by simp [sameFeaturesData],
      { features := [1, 2], label := "A" }, by simp [sameFeaturesData], by decide⟩,
    buildTree_same_features_majority_leaf (Real.logb 2) (sameFeaturesData ℝ) [1, 2]
      (by simp [sameFeaturesData])
      ⟨{ features := [1, 2], label := "B" }, by simp [sameFeaturesData],
        { features := [1, 2], label := "A" }, by simp [sameFeaturesData], by decide⟩⟩

/-! ### Entropy -/

theorem foldl_sub_eq {α : Type} (f : α → R) (l : List α) (a : R) :
    l.foldl (fun ent kv => ent - f kv) a = a - (l.map f).sum := by
  induction l generalizing a with
  | nil => simp
  | cons x rest ih =>
    simp only [List.foldl_cons, List.map_cons, List.sum_cons, ih]
    ring

theorem countLabels_perm (ls : List String) :
    (countLabels ls).Perm (ls.dedup.map (fun c => (c, (ls.count c : Int)))) := by
  apply (List.perm_ext_iff_of_nodup ?_ ?_).mpr
  · rintro ⟨k, v⟩
    rw [mem_countLabels, List.mem_map]
    constructor
    · rintro ⟨hk, rfl⟩
      exact ⟨k, List.mem_dedup.mpr hk, rfl⟩
    · rintro ⟨c, hc, heq⟩
      simp only [Prod.mk.injEq] at heq
      obtain ⟨rfl, rfl⟩ := heq
      exact ⟨List.mem_dedup.mp hc, rfl⟩
  · exact (countLabels_sorted ls).imp (fun h heq => absurd (congrArg Prod.fst heq) (ne_of_lt h))
  · apply List.Nodup.map _ (List.nodup_dedup ls)
    intro a b hab
    exact congrArg Prod.fst hab

/-- The loop of `entropy` computes the sum of the specification. -/
theorem entropy_eq_specEntropy (log2 : R → R) (data : List (IrisSample R)) :
    entropy log2 data = specEntropy log2 data := by
  simp only [entropy, specEntropy]
  rw [foldl_sub_eq (fun kv : String × Int =>
    (kv.2 : R) / (data.length : R) * log2 ((kv.2 : R) / (data.length : R)))]
  rw [((countLabels_perm (data.map (fun d => d.label))).map _).sum_eq]
  simp only [List.map_map, Function.comp_def, Int.cast_natCast]

theorem neg_mul_logb_nonneg (p : ℝ) (h0 : 0 < p) (h1 : p ≤ 1) :
    0 ≤ -(p * Real.logb 2 p) := by
  have : Real.logb 2 p ≤ 0 := Real.logb_nonpos (by norm_num) h0.le h1
  nlinarith

theorem mul_logb_eq_zero (p : ℝ) (h0 : 0 < p) : p * Real.logb 2 p = 0 ↔ p = 1 := by
  constructor
  · intro h
    rcases mul_eq_zero.mp h with h | h
    · exact absurd h h0.ne.symm
    · have := Real.logb_eq_zero.mp h
      rcases this with h | h | h | h | h | h <;> linarith
  · rintro rfl
    simp

/-- Gibbs' inequality against the uniform distribution: the entropy in nats
of a distribution on `S` is at most `log |S|`. -/
theorem neg_sum_mul_log_le {α : Type} (S : Finset α) (p : α → ℝ) (hpos : ∀ c ∈ S, 0 < p c)
    (hsum : ∑ c in S, p c = 1) :
    -∑ c in S, p c * Real.log (p c) ≤ Real.log S.card := by
  have hne : S.Nonempty := by
    by_contra h
    rw [Finset.not_nonempty_iff_eq_empty] at h
    rw [h] at hsum
    simp at hsum
  have hm : (0 : ℝ) < S.card := by exact_mod_cast Finset.card_pos.mpr hne
  have hterm : ∀ c ∈ S, -(p c * Real.log (p c)) - p c * Real.log S.card ≤
      1 / (S.card : ℝ) - p c := by
    intro c hc
    have hp := hpos c hc
    have hx : 0 < 1 / ((S.card : ℝ) * p c) := by positivity
    have hlog := Real.log_le_sub_one_of_pos hx
    rw [one_div, Real.log_inv, Real.log_mul hm.ne.symm hp.ne.symm] at hlog
    have := mul_le_mul_of_nonneg_left hlog hp.le
    have he : p c * (((S.card : ℝ) * p c)⁻¹ - 1) = 1 / (S.card : ℝ) - p c := by
      field_simp
      ring
    rw [he] at this
    linarith
  have hs := Finset.sum_le_sum hterm
  rw [Finset.sum_sub_distrib, Finset.sum_sub_distrib, Finset.sum_neg_distrib,
    ← Finset.sum_mul, hsum, Finset.sum_const, nsmul_eq_mul] at hs
  have : (S.card : ℝ) * (1 / (S.card : ℝ)) = 1 := by field_simp
  linarith

theorem label_prob_bounds (data : List (IrisSample ℝ)) (c : String)
    (hc : c ∈ data.map (fun d => d.label)) :
    0 < ((data.map (fun d => d.label)).count c : ℝ) / (data.length : ℝ) ∧
    ((data.map (fun d => d.label)).count c : ℝ) / (data.length : ℝ) ≤ 1 := by
  have h1 : 0 < (data.map (fun d => d.label)).count c := List.count_pos_iff.mpr hc
  have h2 : (data.map (fun d => d.label)).count c ≤ data.length := by
    simpa using List.count_le_length c (data.map (fun d => d.label))
  have hn : 0 < data.length := by omega
  have hn1 : (0 : ℝ) < (data.length : ℝ) := by exact_mod_cast hn
  constructor
  · have : (0 : ℝ) < ((data.map (fun d => d.label)).count c : ℝ) := by exact_mod_cast h1
    positivity
  · rw [div_le_one hn1]
    exact_mod_cast h2

theorem label_prob_sum (data : List (IrisSample ℝ)) (hne : data ≠ []) :
    ∑ c in (data.map (fun d => d.label)).dedup.toFinset,
      ((data.map (fun d => d.label)).count c : ℝ) / (data.length : ℝ) = 1 := by
  have hn : (data.length : ℝ) ≠ 0 := by
    have := List.length_pos.mpr hne
    exact_mod_cast this.ne.symm
  rw [← Finset.sum_div, List.sum_toFinset _ (List.nodup_dedup _), div_eq_one_iff_eq hn]
  have h := List.sum_map_count_dedup_eq_length (data.map (fun d => d.label))
  rw [List.length_map] at h
  rw [← h, Nat.cast_list_sum, List.map_map]
  rfl

theorem entropy_eq_finset_sum (log2 : ℝ → ℝ) (data : List (IrisSample ℝ)) :
    entropy log2 data = ∑ c in (data.map (fun d => d.label)).dedup.toFinset,
      -(((data.map (fun d => d.label)).count c : ℝ) / (data.length : ℝ) *
        log2 (((data.map (fun d => d.label)).count c : ℝ) / (data.length : ℝ))) := by
  rw [entropy_eq_specEntropy, specEntropy, Finset.sum_neg_distrib,
    List.sum_toFinset _ (List.nodup_dedup _)]
  simp

/-- The entropy in bits is non-negative. -/
theorem entropy_nonneg (data : List (IrisSample ℝ)) : 0 ≤ entropy (Real.logb 2) data := by
  rw [entropy_eq_finset_sum]
  apply Finset.sum_nonneg
  intro c hc
  have hc1 : c ∈ data.map (fun d => d.label) := by simpa using hc
  obtain ⟨h0, h1⟩ := label_prob_bounds data c hc1
  exact neg_mul_logb_nonneg _ h0 h1

/-- The entropy in bits is zero exactly when all labels agree. -/
theorem entropy_eq_zero_iff (data : List (IrisSample ℝ)) :
    entropy (Real.logb 2) data = 0 ↔ ∀ a ∈ data, ∀ b ∈ data, a.label = b.label := by
  rw [entropy_eq_finset_sum]
  rw [Finset.sum_eq_zero_iff_of_nonneg (by
    intro c hc
    have hc1 : c ∈ data.map (fun d => d.label) := by simpa using hc
    obtain ⟨h0, h1⟩ := label_prob_bounds data c hc1
    exact neg_mul_logb_nonneg _ h0 h1)]
  have hcount : ∀ c ∈ data.map (fun d => d.label),
      (-(((data.map (fun d => d.label)).count c : ℝ) / (data.length : ℝ) *
        Real.logb 2 (((data.map (fun d => d.label)).count c : ℝ) / (data.length : ℝ))) = 0 ↔
      ∀ x ∈ data.map (fun d => d.label), c = x) := by
    intro c hc
    obtain ⟨h0, _⟩ := label_prob_bounds data c hc
    have hn : (data.length : ℝ) ≠ 0 := by
      have : 0 < data.length := by
        have := List.length_pos_of_mem hc
        simpa using this
      exact_mod_cast this.ne.symm
    rw [neg_eq_zero, mul_logb_eq_zero _ h0, div_eq_one_iff_eq hn, ← List.count_eq_length,
      List.length_map]
    exact_mod_cast Iff.rfl
  constructor
  · intro h a ha b hb
    have hal : a.label ∈ data.map (fun d => d.label) := List.mem_map_of_mem _ ha
    have := (hcount a.label hal).mp (h a.label (by simpa using hal))
    exact this b.label (List.mem_map_of_mem _ hb)
  · intro h c hc
    have hc1 : c ∈ data.map (fun d => d.label) := by simpa using hc
    apply (hcount c hc1).mpr
    intro x hx
    obtain ⟨a, ha, rfl⟩ := List.mem_map.mp hc1
    obtain ⟨b, hb, rfl⟩ := List.mem_map.mp hx
    exact h a ha b hb

/-- The entropy in bits is at most `log2` of the number of distinct labels. -/
theorem entropy_le_logb_card (data : List (IrisSample ℝ)) (hne : data ≠ []) :
    entropy (Real.logb 2) data ≤
      Real.logb 2 ((data.map (fun d => d.label)).dedup.length : ℝ) := by
  have hg := neg_sum_mul_log_le (data.map (fun d => d.label)).dedup.toFinset
    (fun c => ((data.map (fun d => d.label)).count c : ℝ) / (data.length : ℝ))
    (fun c hc => (label_prob_bounds data c (by simpa using hc)).1)
    (label_prob_sum data hne)
  rw [List.toFinset_card_of_nodup (List.nodup_dedup _)] at hg
  have hl2 : (0 : ℝ) < Real.log 2 := Real.log_pos (by norm_num)
  rw [entropy_eq_finset_sum]
  simp only [Real.logb]
  rw [le_div_iff₀ hl2, Finset.sum_mul]
  calc ∑ c in (data.map (fun d => d.label)).dedup.toFinset,
        -(((data.map (fun d => d.label)).count c : ℝ) / (data.length : ℝ) *
          (Real.log (((data.map (fun d => d.label)).count c : ℝ) / (data.length : ℝ)) /
            Real.log 2)) * Real.log 2
      = -∑ c in (data.map (fun d => d.label)).dedup.toFinset,
          ((data.map (fun d => d.label)).count c : ℝ) / (data.length : ℝ) *
            Real.log (((data.map (fun d => d.label)).count c : ℝ) / (data.length : ℝ)) := by
        rw [← Finset.sum_neg_distrib]
        apply Finset.sum_congr rfl
        intro c _
        rw [neg_mul, mul_assoc, div_mul_cancel₀ _ hl2.ne.symm]
    _ ≤ _ := hg

/-! ### Claim C16 -/

/-- C16: `entropy(D)` is the sum `-(sum over the observed labels c of
p_c * log2 p_c)` with `p_c = count(c) / |D|`, and it is `0` if and only if all
samples of `D` share one label; the entropy of the empty dataset is `0`. -/
theorem entropy_zero_iff_single_label (data : List (IrisSample ℝ)) :
    entropy (Real.logb 2) data = specEntropy (Real.logb 2) data ∧
    (entropy (Real.logb 2) data = 0 ↔ ∀ a ∈ data, ∀ b ∈ data, a.label = b.label) ∧
    entropy (Real.logb 2) ([] : List (IrisSample ℝ)) = 0 :=
  ⟨entropy_eq_specEntropy _ data, entropy_eq_zero_iff data, by simp [entropy, countLabels]⟩

/-! ### Claim C17 -/

/-- The entropy computed in `double` arithmetic is not negative when the
quotient of two sizes lies in `(0, 1]`, `log2` is not positive on `(0, 1]`,
and products and differences have the sign of their exact value. -/
theorem roundedEntropy_nonneg (arith : DoubleArith R) (log2 : R → R)
    (data : List (IrisSample R)) (hlen : data.length < 2 ^ 31)
    (hdiv : ∀ a b : Nat, 0 < a → a ≤ b → b < 2 ^ 31 →
      0 < arith.div (a : R) (b : R) ∧ arith.div (a : R) (b : R) ≤ 1)
    (hmul : ∀ x y : R, 0 ≤ x → y ≤ 0 → arith.mul x y ≤ 0)
    (hsub : ∀ x y : R, 0 ≤ x → y ≤ 0 → 0 ≤ arith.sub x y)
    (hlog : ∀ x : R, 0 < x → x ≤ 1 → log2 x ≤ 0) :
    0 ≤ roundedEntropy arith log2 data := by
  have key : ∀ (l : List (String × Int)) (init : R),
      (∀ kv ∈ l, kv ∈ countLabels (data.map (fun d => d.label))) → 0 ≤ init →
      0 ≤ l.foldl (fun ent kv =>
        arith.sub ent (arith.mul (arith.div (kv.2 : R) (data.length : R))
          (log2 (arith.div (kv.2 : R) (data.length : R))))) init := by
    intro l
    induction l with
    | nil => intro init _ h; exact h
    | cons kv rest ih =>
      intro init hmem hinit
      rw [List.foldl_cons]
      apply ih _ (fun kv' h' => hmem kv' (List.mem_cons_of_mem _ h'))
      obtain ⟨hk, hv⟩ := (mem_countLabels _ kv.1 kv.2).mp (hmem kv (List.mem_cons_self _ _))
      have hpos : 0 < (data.map (fun d => d.label)).count kv.1 := List.count_pos_iff.mpr hk
      have hle : (data.map (fun d => d.label)).count kv.1 ≤ data.length := by
        simpa using List.count_le_length kv.1 (data.map (fun d => d.label))
      rw [hv, Int.cast_natCast]
      obtain ⟨h0, h1⟩ := hdiv _ _ hpos hle hlen
      exact hsub _ _ hinit (hmul _ _ h0.le (hlog _ h0 h1))
  exact key _ 0 (fun _ h => h) (le_refl 0)

/-- With exact operations the entropy in `double` arithmetic is `entropy`. -/
theorem roundedEntropy_exact (sqrt : R → R) (log2 : R → R) (data : List (IrisSample R)) :
    roundedEntropy (DoubleArith.exact sqrt) log2 data = entropy log2 data := rfl

/-- The entropy of eleven samples with eleven labels is eleven times the
subtraction of `p * log2(p)` with `p` the computed `1 / 11`. -/
theorem roundedEntropy_elevenLabelData (arith : DoubleArith R) (log2 : R → R) :
    roundedEntropy arith log2 (elevenLabelData R) =
      (List.range 11).foldl (fun ent _ =>
        arith.sub ent (arith.mul (arith.div 1 11) (log2 (arith.div 1 11)))) 0 := by
  have hc : countLabels ((elevenLabelData R).map (fun d => d.label)) =
      [("A", 1), ("B", 1), ("C", 1), ("D", 1), ("E", 1), ("F", 1), ("G", 1), ("H", 1),
       ("I", 1), ("J", 1), ("K", 1)] := by
    simp +decide [elevenLabelData, countLabels, StdMap.update]
  have hl : (elevenLabelData R).length = 11 := rfl
  have hr : List.range 11 = [0, 1, 2, 3, 4, 5, 6, 7, 8, 9, 10] := rfl
  simp only [roundedEntropy, hc, hl, hr, List.foldl_cons, List.foldl_nil, Int.cast_one,
    Nat.cast_ofNat]

/-- C17 (counterexample): eleven samples with eleven different labels, in
IEEE-754 arithmetic.  The computed `p = 1/11` is the double
`3275345183542179 / 2^55`.  Its binary logarithm lies strictly between the
consecutive doubles `l = -3894973737152161 / 2^50` and
`u = -7789947474304321 / 2^51`, within `2^-52` (half a unit in the last
place) of `l`.  When `log2` returns `l` at `p`, `entropy` returns
`1947486868576081 / 2^49`; when it returns `u`, `entropy` returns
`3894973737152161 / 2^50`; both are larger than `log2(11)`. -/
theorem entropy_exceeds_log_labels_counterexample :
    elevenLabelData ℚ ≠ [] ∧
    ((elevenLabelData ℚ).map (fun d => d.label)).dedup.length = 11 ∧
    ieee754.div 1 11 = 3275345183542179 / 2 ^ 55 ∧
    (-3894973737152161 / 2 ^ 50 : ℝ) < Real.logb 2 (3275345183542179 / 2 ^ 55) ∧
    Real.logb 2 (3275345183542179 / 2 ^ 55) < (-7789947474304321 / 2 ^ 51 : ℝ) ∧
    |(-3894973737152161 / 2 ^ 50 : ℝ) - Real.logb 2 (3275345183542179 / 2 ^ 55)| <
      1 / 2 ^ 52 ∧
    (∀ log2 : ℚ → ℚ, log2 (3275345183542179 / 2 ^ 55) = -3894973737152161 / 2 ^ 50 →
      roundedEntropy ieee754 log2 (elevenLabelData ℚ) = 1947486868576081 / 2 ^ 49) ∧
    (∀ log2 : ℚ → ℚ, log2 (3275345183542179 / 2 ^ 55) = -7789947474304321 / 2 ^ 51 →
      roundedEntropy ieee754 log2 (elevenLabelData ℚ) = 3894973737152161 / 2 ^ 50) ∧
    ∀ log2 : ℚ → ℚ,
      (log2 (3275345183542179 / 2 ^ 55) = -3894973737152161 / 2 ^ 50 ∨
        log2 (3275345183542179 / 2 ^ 55) = -7789947474304321 / 2 ^ 51) →
      Real.logb 2 (11 : ℝ) <
        ((roundedEntropy ieee754 log2 (elevenLabelData ℚ) : ℚ) : ℝ) := by
  have hP : ieee754.div 1 11 = 3275345183542179 / 2 ^ 55 := by
    rw [ieee754_div, roundDouble_pos _ (-4) (by norm_num) (by norm_num) (by norm_num)]
    norm_num [roundHalfEven]
  have ht : ieee754.mul (3275345183542179 / 2 ^ 55) (-3894973737152161 / 2 ^ 50) =
      -(2832708172474299 / 2 ^ 53) := by
    rw [ieee754_mul, roundDouble_negative _ (-2) (by norm_num) (by norm_num) (by norm_num)]
    norm_num [roundHalfEven]
  have hu : ieee754.mul (3275345183542179 / 2 ^ 55) (-7789947474304321 / 2 ^ 51) =
      -(5665416344948597 / 2 ^ 54) := by
    rw [ieee754_mul, roundDouble_negative _ (-2) (by norm_num) (by norm_num) (by norm_num)]
    norm_num [roundHalfEven]
  have s1 : roundDouble ((0 : ℚ) - -(2832708172474299 / 2 ^ 53)) = 2832708172474299 / 2 ^ 53 := by
    rw [roundDouble_pos _ (-2) (by norm_num) (by norm_num) (by norm_num)]
    norm_num [roundHalfEven]
  have s2 : roundDouble ((2832708172474299 / 2 ^ 53 : ℚ) - -(2832708172474299 / 2 ^ 53)) =
      2832708172474299 / 2 ^ 52 := by
    rw [roundDouble_pos _ (-1) (by norm_num) (by norm_num) (by norm_num)]
    norm_num [roundHalfEven]
  have s3 : roundDouble ((2832708172474299 / 2 ^ 52 : ℚ) - -(2832708172474299 / 2 ^ 53)) =
      8498124517422897 / 2 ^ 53 := by
    rw [roundDouble_pos _ (-1) (by norm_num) (by norm_num) (by norm_num)]
    norm_num [roundHalfEven]
  have s4 : roundDouble ((8498124517422897 / 2 ^ 53 : ℚ) - -(2832708172474299 / 2 ^ 53)) =
      2832708172474299 / 2 ^ 51 := by
    rw [roundDouble_pos _ (0) (by norm_num) (by norm_num) (by norm_num)]
    norm_num [roundHalfEven]
  have s5 : roundDouble ((2832708172474299 / 2 ^ 51 : ℚ) - -(2832708172474299 / 2 ^ 53)) =
      1770442607796437 / 2 ^ 50 := by
    rw [roundDouble_pos _ (0) (by norm_num) (by norm_num) (by norm_num)]
    norm_num [roundHalfEven]
  have s6 : roundDouble ((1770442607796437 / 2 ^ 50 : ℚ) - -(2832708172474299 / 2 ^ 53)) =
      4249062258711449 / 2 ^ 51 := by
    rw [roundDouble_pos _ (0) (by norm_num) (by norm_num) (by norm_num)]
    norm_num [roundHalfEven]
  have s7 : roundDouble ((4249062258711449 / 2 ^ 51 : ℚ) - -(2832708172474299 / 2 ^ 53)) =
      619654912728753 / 2 ^ 48 := by
    rw [roundDouble_pos _ (1) (by norm_num) (by norm_num) (by norm_num)]
    norm_num [roundHalfEven]
  have s8 : roundDouble ((619654912728753 / 2 ^ 48 : ℚ) - -(2832708172474299 / 2 ^ 53)) =
      5665416344948599 / 2 ^ 51 := by
    rw [roundDouble_pos _ (1) (by norm_num) (by norm_num) (by norm_num)]
    norm_num [roundHalfEven]
  have s9 : roundDouble ((5665416344948599 / 2 ^ 51 : ℚ) - -(2832708172474299 / 2 ^ 53)) =
      3186796694033587 / 2 ^ 50 := by
    rw [roundDouble_pos _ (1) (by norm_num) (by norm_num) (by norm_num)]
    norm_num [roundHalfEven]
  have s10 : roundDouble ((3186796694033587 / 2 ^ 50 : ℚ) - -(2832708172474299 / 2 ^ 53)) =
      7081770431185749 / 2 ^ 51 := by
    rw [roundDouble_pos _ (1) (by norm_num) (by norm_num) (by norm_num)]
    norm_num [roundHalfEven]
  have s11 : roundDouble ((7081770431185749 / 2 ^ 51 : ℚ) - -(2832708172474299 / 2 ^ 53)) =
      1947486868576081 / 2 ^ 49 := by
    rw [roundDouble_pos _ (1) (by norm_num) (by norm_num) (by norm_num)]
    norm_num [roundHalfEven]
  have u1 : roundDouble ((0 : ℚ) - -(5665416344948597 / 2 ^ 54)) = 5665416344948597 / 2 ^ 54 := by
    rw [roundDouble_pos _ (-2) (by norm_num) (by norm_num) (by norm_num)]
    norm_num [roundHalfEven]
  have u2 : roundDouble ((5665416344948597 / 2 ^ 54 : ℚ) - -(5665416344948597 / 2 ^ 54)) =
      5665416344948597 / 2 ^ 53 := by
    rw [roundDouble_pos _ (-1) (by norm_num) (by norm_num) (by norm_num)]
    norm_num [roundHalfEven]
  have u3 : roundDouble ((5665416344948597 / 2 ^ 53 : ℚ) - -(5665416344948597 / 2 ^ 54)) =
      531132782338931 / 2 ^ 49 := by
    rw [roundDouble_pos _ (-1) (by norm_num) (by norm_num) (by norm_num)]
    norm_num [roundHalfEven]
  have u4 : roundDouble ((531132782338931 / 2 ^ 49 : ℚ) - -(5665416344948597 / 2 ^ 54)) =
      5665416344948597 / 2 ^ 52 := by
    rw [roundDouble_pos _ (0) (by norm_num) (by norm_num) (by norm_num)]
    norm_num [roundHalfEven]
  have u5 : roundDouble ((5665416344948597 / 2 ^ 52 : ℚ) - -(5665416344948597 / 2 ^ 54)) =
      3540885215592873 / 2 ^ 51 := by
    rw [roundDouble_pos _ (0) (by norm_num) (by norm_num) (by norm_num)]
    norm_num [roundHalfEven]
  have u6 : roundDouble ((3540885215592873 / 2 ^ 51 : ℚ) - -(5665416344948597 / 2 ^ 54)) =
      8498124517422895 / 2 ^ 52 := by
    rw [roundDouble_pos _ (0) (by norm_num) (by norm_num) (by norm_num)]
    norm_num [roundHalfEven]
  have u7 : roundDouble ((8498124517422895 / 2 ^ 52 : ℚ) - -(5665416344948597 / 2 ^ 54)) =
      2478619650915011 / 2 ^ 50 := by
    rw [roundDouble_pos _ (1) (by norm_num) (by norm_num) (by norm_num)]
    norm_num [roundHalfEven]
  have u8 : roundDouble ((2478619650915011 / 2 ^ 50 : ℚ) - -(5665416344948597 / 2 ^ 54)) =
      5665416344948597 / 2 ^ 51 := by
    rw [roundDouble_pos _ (1) (by norm_num) (by norm_num) (by norm_num)]
    norm_num [roundHalfEven]
  have u9 : roundDouble ((5665416344948597 / 2 ^ 51 : ℚ) - -(5665416344948597 / 2 ^ 54)) =
      1593398347016793 / 2 ^ 49 := by
    rw [roundDouble_pos _ (1) (by norm_num) (by norm_num) (by norm_num)]
    norm_num [roundHalfEven]
  have u10 : roundDouble ((1593398347016793 / 2 ^ 49 : ℚ) - -(5665416344948597 / 2 ^ 54)) =
      7081770431185747 / 2 ^ 51 := by
    rw [roundDouble_pos _ (1) (by norm_num) (by norm_num) (by norm_num)]
    norm_num [roundHalfEven]
  have u11 : roundDouble ((7081770431185747 / 2 ^ 51 : ℚ) - -(5665416344948597 / 2 ^ 54)) =
      3894973737152161 / 2 ^ 50 := by
    rw [roundDouble_pos _ (1) (by norm_num) (by norm_num) (by norm_num)]
    norm_num [roundHalfEven]
  have hr : List.range 11 = [0, 1, 2, 3, 4, 5, 6, 7, 8, 9, 10] := rfl
  have hE : ∀ log2 : ℚ → ℚ,
      log2 (3275345183542179 / 2 ^ 55) = -3894973737152161 / 2 ^ 50 →
      roundedEntropy ieee754 log2 (elevenLabelData ℚ) = 1947486868576081 / 2 ^ 49 := by
    intro log2 hlog
    rw [roundedEntropy_elevenLabelData, hP, hlog, ht, hr]
    simp only [List.foldl_cons, List.foldl_nil, ieee754_sub]
    rw [s1, s2, s3, s4, s5, s6, s7, s8, s9, s10, s11]
  have hE2 : ∀ log2 : ℚ → ℚ,
      log2 (3275345183542179 / 2 ^ 55) = -7789947474304321 / 2 ^ 51 →
      roundedEntropy ieee754 log2 (elevenLabelData ℚ) = 3894973737152161 / 2 ^ 50 := by
    intro log2 hlog
    rw [roundedEntropy_elevenLabelData, hP, hlog, hu, hr]
    simp only [List.foldl_cons, List.foldl_nil, ieee754_sub]
    rw [u1, u2, u3, u4, u5, u6, u7, u8, u9, u10, u11]
  refine ⟨by simp [elevenLabelData], by decide, hP, logb_two_rounded_eleventh_between.1,
    logb_two_rounded_eleventh_between.2, logb_two_rounded_eleventh, hE, hE2, ?_⟩
  intro log2 hlog
  have hlt := logb_two_eleven_lt
  rcases hlog with hlog | hlog
  · rw [hE log2 hlog]
    push_cast
    have hstep : (3894973737152161 / 2 ^ 50 : ℝ) < 1947486868576081 / 2 ^ 49 := by norm_num
    exact lt_trans hlt hstep
  · rw [hE2 log2 hlog]
    push_cast
    exact hlt

/-- C17 (amended): for a non-empty dataset `D` of fewer than `2^31` samples
whose samples carry `m` distinct labels, the value that `entropy` computes in
the arithmetic of the machine is `>= 0`, provided the quotient of two sizes
lies in `(0, 1]`, `log2` is not positive on `(0, 1]`, and products and
differences have the sign of their exact value.  The exact value of the
entropy, computed with real numbers on the same labels, lies between `0` and
`log2 m`. -/
theorem entropy_nonneg_and_exact_le_log_labels (arith : DoubleArith R) (log2 : R → R)
    (data : List (IrisSample R)) (hne : data ≠ []) (hlen : data.length < 2 ^ 31)
    (hdiv : ∀ a b : Nat, 0 < a → a ≤ b → b < 2 ^ 31 →
      0 < arith.div (a : R) (b : R) ∧ arith.div (a : R) (b : R) ≤ 1)
    (hmul : ∀ x y : R, 0 ≤ x → y ≤ 0 → arith.mul x y ≤ 0)
    (hsub : ∀ x y : R, 0 ≤ x → y ≤ 0 → 0 ≤ arith.sub x y)
    (hlog : ∀ x : R, 0 < x → x ≤ 1 → log2 x ≤ 0) :
    0 ≤ roundedEntropy arith log2 data ∧
    ∀ reals : List (IrisSample ℝ),
      reals.map (fun d => d.label) = data.map (fun d => d.label) →
      roundedEntropy (DoubleArith.exact Real.sqrt) (Real.logb 2) reals =
        entropy (Real.logb 2) reals ∧
      0 ≤ entropy (Real.logb 2) reals ∧
      entropy (Real.logb 2) reals ≤
        Real.logb 2 ((data.map (fun d => d.label)).dedup.length : ℝ) := by
  refine ⟨roundedEntropy_nonneg arith log2 data hlen hdiv hmul hsub hlog, ?_⟩
  intro reals hlabels
  have hrne : reals ≠ [] := by
    intro h0
    rw [h0] at hlabels
    exact hne (List.map_eq_nil_iff.mp hlabels.symm)
  refine ⟨rfl, entropy_nonneg reals, ?_⟩
  rw [← hlabels]
  exact entropy_le_logb_card reals hrne

/-- C17 (witness): the eleven labels in IEEE-754 arithmetic, with a `log2`
that is `0` everywhere. -/
theorem entropy_nonneg_and_exact_le_log_labels_witness :
    (elevenLabelData ℚ ≠ [] ∧ (elevenLabelData ℚ).length < 2 ^ 31) ∧
    (0 ≤ roundedEntropy ieee754 (fun _ => 0) (elevenLabelData ℚ) ∧
    ∀ reals : List (IrisSample ℝ),
      reals.map (fun d => d.label) = (elevenLabelData ℚ).map (fun d => d.label) →
      roundedEntropy (DoubleArith.exact Real.sqrt) (Real.logb 2) reals =
        entropy (Real.logb 2) reals ∧
      0 ≤ entropy (Real.logb 2) reals ∧
      entropy (Real.logb 2) reals ≤
        Real.logb 2 (((elevenLabelData ℚ).map (fun d => d.label)).dedup.length : ℝ)) :=
  ⟨⟨by simp [elevenLabelData], by simp [elevenLabelData]⟩,
    entropy_nonneg_and_exact_le_log_labels ieee754 (fun _ => 0) (elevenLabelData ℚ)
      (by simp [elevenLabelData]) (by simp [elevenLabelData])
      (fun a b ha hab hb => roundDouble_quotient_bounds a b ha hab hb)
      (fun x y hx hy => roundDouble_nonpos _ (mul_nonpos_of_nonneg_of_nonpos hx hy))
      (fun x y hx hy => roundDouble_nonneg _ (by linarith))
      (fun _ _ _ => le_refl 0)⟩

/-! ### Claim C14 -/

theorem pick_of_gt (log2 : R → R) (data : List (IrisSample R)) (best : SplitResult R)
    (c : Nat × R) (h : specGain log2 data c > best.info_gain) :
    pick log2 data best c =
      { feature_index := (c.1 : Int), threshold := c.2, info_gain := specGain log2 data c } := by
  rw [pick, if_pos h]

theorem pick_of_not_gt (log2 : R → R) (data : List (IrisSample R)) (best : SplitResult R)
    (c : Nat × R) (h : ¬ specGain log2 data c > best.info_gain) :
    pick log2 data best c = best := by
  rw [pick, if_neg h]

theorem specCandidates_fourPoint :
    specCandidates (fourPointData ℝ) 1 = [(0, (1 + 2) / 2), (0, (2 + 3) / 2), (0, (3 + 4) / 2)] := by
  have hu : unique (List.insertionSort (fun a b => a ≤ b) [(1:ℝ), 2, 3, 4]) = [1, 2, 3, 4] := by
    norm_num [unique, List.insertionSort, List.orderedInsert]
  have hc : (fourPointData ℝ).filterMap (fun d => d.features[0]?) = [1, 2, 3, 4] := by
    simp [fourPointData]
  have hr : List.range 1 = [0] := rfl
  simp only [specCandidates, hr, List.flatMap_cons, List.flatMap_nil,
    List.append_nil, specFeatureCandidates, hc, ← unique_eq_distinctSorted, hu]
  rfl

theorem entropy_fourPoint : entropy (Real.logb 2) (fourPointData ℝ) = 1 := by
  simp +decide [entropy, fourPointData, countLabels, StdMap.update, String.lt_iff_toList_lt]
  rw [logb_two_half]; norm_num

theorem specGain_fourPoint_mid :
    specGain (Real.logb 2) (fourPointData ℝ) (0, (2 + 3) / 2) = 1 := by
  have hL : (fourPointData ℝ).filter (goesLeft 0 ((2 + 3) / 2)) =
      [{ features := [1], label := "X" }, { features := [2], label := "X" }] := by
    simp [fourPointData, goesLeft, List.filter]
    norm_num
  have hR : (fourPointData ℝ).filter (fun s => !goesLeft 0 ((2 + 3) / 2) s) =
      [{ features := [3], label := "Y" }, { features := [4], label := "Y" }] := by
    simp [fourPointData, goesLeft, List.filter]
    norm_num
  have h0L : entropy (Real.logb 2)
      [({ features := [1], label := "X" } : IrisSample ℝ), { features := [2], label := "X" }]
        = 0 := (entropy_eq_zero_iff _).mpr (by simp)
  have h0R : entropy (Real.logb 2)
      [({ features := [3], label := "Y" } : IrisSample ℝ), { features := [4], label := "Y" }]
        = 0 := (entropy_eq_zero_iff _).mpr (by simp)
  simp only [specGain, hL, hR, h0L, h0R, entropy_fourPoint]
  norm_num

theorem specGain_fourPoint_low :
    specGain (Real.logb 2) (fourPointData ℝ) (0, (1 + 2) / 2) < 1 := by
  have hL : (fourPointData ℝ).filter (goesLeft 0 ((1 + 2) / 2)) =
      [{ features := [1], label := "X" }] := by
    simp [fourPointData, goesLeft, List.filter]
    norm_num
  have hR : (fourPointData ℝ).filter (fun s => !goesLeft 0 ((1 + 2) / 2) s) =
      [{ features := [2], label := "X" }, { features := [3], label := "Y" },
       { features := [4], label := "Y" }] := by
    simp [fourPointData, goesLeft, List.filter]
    norm_num
  have h0L := entropy_nonneg [({ features := [1], label := "X" } : IrisSample ℝ)]
  have hne : entropy (Real.logb 2)
      [({ features := [2], label := "X" } : IrisSample ℝ), { features := [3], label := "Y" },
       { features := [4], label := "Y" }] ≠ 0 := by
    rw [Ne, entropy_eq_zero_iff]
    intro h
    have := h { features := [2], label := "X" } (by simp) { features := [3], label := "Y" }
      (by simp)
    exact absurd this (by decide)
  have hpos := lt_of_le_of_ne (entropy_nonneg _) hne.symm
  simp only [specGain, hL, hR, entropy_fourPoint]
  have hlen : ((fourPointData ℝ).length : ℝ) = 4 := by simp [fourPointData]
  simp only [hlen, List.length_cons, List.length_nil]
  norm_num
  nlinarith

theorem specGain_fourPoint_high :
    specGain (Real.logb 2) (fourPointData ℝ) (0, (3 + 4) / 2) ≤ 1 := by
  have h1 := entropy_nonneg ((fourPointData ℝ).filter (goesLeft 0 ((3 + 4) / 2)))
  have h2 := entropy_nonneg ((fourPointData ℝ).filter (fun s => !goesLeft 0 ((3 + 4) / 2) s))
  simp only [specGain, entropy_fourPoint]
  have : 0 ≤ (((fourPointData ℝ).filter (goesLeft 0 ((3 + 4) / 2))).length : ℝ) /
        ((fourPointData ℝ).length : ℝ) *
        entropy (Real.logb 2) ((fourPointData ℝ).filter (goesLeft 0 ((3 + 4) / 2))) +
      (((fourPointData ℝ).filter (fun s => !goesLeft 0 ((3 + 4) / 2) s)).length : ℝ) /
        ((fourPointData ℝ).length : ℝ) *
        entropy (Real.logb 2)
          ((fourPointData ℝ).filter (fun s => !goesLeft 0 ((3 + 4) / 2) s)) := by
    positivity
  linarith

theorem findBestSplit_fourPoint :
    findBestSplit (Real.logb 2) (fourPointData ℝ) =
      some { feature_index := 0, threshold := (2 + 3) / 2, info_gain := 1 } := by
  rw [findBestSplit_eq_fold (Real.logb 2) (fourPointData ℝ) 1 (by simp [fourPointData])
    (by simp [fourPointData]), specCandidates_fourPoint]
  have h1 := specGain_fourPoint_low
  have h2 := specGain_fourPoint_mid
  have h3 := specGain_fourPoint_high
  have hb1 : (pick (Real.logb 2) (fourPointData ℝ)
      { feature_index := -1, threshold := 0, info_gain := 0 } (0, (1 + 2) / 2)).info_gain < 1 := by
    unfold pick
    split
    · exact h1
    · norm_num
  have hp2 := pick_of_gt (Real.logb 2) (fourPointData ℝ)
    (pick (Real.logb 2) (fourPointData ℝ)
      { feature_index := -1, threshold := 0, info_gain := 0 } (0, (1 + 2) / 2))
    (0, (2 + 3) / 2) (by rw [h2]; exact hb1)
  rw [List.foldl_cons, List.foldl_cons, List.foldl_cons, List.foldl_nil, hp2,
    pick_of_not_gt _ _ _ _ (by simp only; rw [h2]; exact not_lt.mpr h3), h2]
  rfl

theorem buildTree_fourPoint :
    buildTree (Real.logb 2) (fourPointData ℝ) =
      some (Node.node false "" 0 2.5 (Node.mkLeaf "X") (Node.mkLeaf "Y")) := by
  have hs : splitData (fourPointData ℝ) 0 ((2 + 3) / 2) =
      some ([{ features := [1], label := "X" }, { features := [2], label := "X" }],
        [{ features := [3], label := "Y" }, { features := [4], label := "Y" }]) := by
    simp [splitData, fourPointData, vecGet?]
    norm_num
  have hl : buildTree (Real.logb 2)
      [({ features := [1], label := "X" } : IrisSample ℝ), { features := [2], label := "X" }] =
      some (Node.mkLeaf "X") := by
    rw [buildTree, if_pos (by simp [allSameLabel])]
  have hr : buildTree (Real.logb 2)
      [({ features := [3], label := "Y" } : IrisSample ℝ), { features := [4], label := "Y" }] =
      some (Node.mkLeaf "Y") := by
    rw [buildTree, if_pos (by simp [allSameLabel])]
  have h := buildTree_split (Real.logb 2) (fourPointData ℝ) _ _ _ _ _ (by decide)
    findBestSplit_fourPoint (by simp) hs (by simp) (by simp) hl hr
  rw [h]
  norm_num

/-- C14: on the training set `([1], X), ([2], X), ([3], Y), ([4], Y)`, `fit`
produces an internal root on feature 0 with threshold 2.5 whose left child is
a leaf labelled `X` and whose right child is a leaf labelled `Y`, and
`predict` returns the own label of each of the four training samples. -/
theorem dt_fit_four_points :
    ∃ dt, DecisionTree.fit (Real.logb 2) DecisionTree.new (fourPointData ℝ) = some dt ∧
      dt.root = Node.node false "" 0 2.5 (Node.mkLeaf "X") (Node.mkLeaf "Y") ∧
      ∀ s ∈ fourPointData ℝ, dt.predict s = some s.label := by
  refine ⟨{ root := Node.node false "" 0 2.5 (Node.mkLeaf "X") (Node.mkLeaf "Y") }, ?_, rfl, ?_⟩
  · simp [DecisionTree.fit, buildTree_fourPoint]
  · intro s hs
    simp only [fourPointData, List.mem_cons, List.mem_singleton, List.not_mem_nil,
      or_false] at hs
    rcases hs with rfl | rfl | rfl | rfl <;>
      simp [DecisionTree.predict, predictSample, vecGet?, Node.mkLeaf] <;> norm_num

end DecisionTreeProofs

end MLAlgorithms
